import Mathlib

/-!
# Segmented fuzzy trie (`fuzzy_trie.go`)

A shallow embedding of `FuzzyTrie` and of its operations `Get`, `Put`, `Delete`
and `Walk`, followed by theorems about them.

Modelling conventions.

* A Go `string` is modelled as the list of its code points (`GoString`); offsets
  into a string count code points.
* A Go `interface{}` value is modelled as `Option V`; `none` is `nil`.
* The `children` map of a node is modelled as an association list; the order of
  the list stands for the (unspecified) iteration order of the Go map.  A `nil`
  map and an empty map are both the empty list: the source only reads them
  through lookup, `len`, `range` and `delete`, which do not tell them apart.
* Nodes are never shared between two parents, so the in-place updates made
  through the `node` pointer are modelled by rebuilding the path from the root.
* The `for part, i := seg(key, 0); part != ""; part, i = seg(key, i)` loops are
  modelled by recursion on a fuel counter; `none` means the fuel ran out.
-/

/-- Go `string`: the sequence of its code points. -/
abbrev GoString := List Char

/-- Go `strings.HasSuffix`. -/
def HasSuffix (s suffix : GoString) : Bool := suffix.isSuffixOf s

/-- Go `strings.HasPrefix`. -/
def HasPrefix (s pre : GoString) : Bool := pre.isPrefixOf s

/-- Go `strings.TrimSuffix`. -/
def TrimSuffix (s suffix : GoString) : GoString :=
  if HasSuffix s suffix then s.take (s.length - suffix.length) else s

/-- Go `unicode.IsSpace`. -/
def IsSpace (c : Char) : Bool :=
  c.val = 0x09 || c.val = 0x0A || c.val = 0x0B || c.val = 0x0C || c.val = 0x0D ||
  c.val = 0x20 || c.val = 0x85 || c.val = 0xA0 || c.val = 0x1680 ||
  (0x2000 ≤ c.val && c.val ≤ 0x200A) || c.val = 0x2028 || c.val = 0x2029 ||
  c.val = 0x202F || c.val = 0x205F || c.val = 0x3000

/-- Go `strings.TrimSpace`: leading and trailing white space removed. -/
def TrimSpace (s : GoString) : GoString :=
  ((s.dropWhile IsSpace).reverse.dropWhile IsSpace).reverse

/-- The type `StringSegmenter`: `segment(key, start)` gives the next segment and
the offset of the one after it. -/
abbrev StringSegmenter := GoString → Int → GoString × Int

/-- Modelled from the spec: the default segmenter `PathSegmenter`, whose source is
not part of `fuzzy_trie.go`.  It splits on `/`, each `/`-prefixed component being
one segment: the segment starts at `start` and runs up to the next `/` after its
first character.  The next offset is `-1` when the returned segment is the final
one, and the segment is empty at the end of input (`start` outside the key). -/
def PathSegmenter : StringSegmenter := fun path start =>
  if path.length = 0 ∨ start < 0 ∨ start > (path.length : Int) - 1 then ([], -1)
  else
    let rest := path.drop (start.toNat + 1)
    let e := rest.indexOf '/'
    if e = rest.length then (path.drop start.toNat, -1)
    else ((path.drop start.toNat).take (e + 1), start + (e : Int) + 1)

/-- The struct `FuzzyTrie`: a node with its `value` and its `children`.  The
`segmenter` field, shared by all the nodes of one trie, is passed to the
operations as an argument. -/
inductive FuzzyTrie (V : Type) where
  | mk (value : Option V) (children : List (GoString × FuzzyTrie V))

namespace FuzzyTrie

variable {V : Type}

/-- Field `value`. -/
def value : FuzzyTrie V → Option V
  | mk v _ => v

/-- Field `children`. -/
def children : FuzzyTrie V → List (GoString × FuzzyTrie V)
  | mk _ cs => cs

/-- Map read `children[part]`; `none` is the `nil` pointer of a missing key. -/
def lookupChild (part : GoString) : List (GoString × FuzzyTrie V) → Option (FuzzyTrie V)
  | [] => none
  | (k, c) :: rest => if k = part then some c else lookupChild part rest

/-- Map write `children[part] = child`. -/
def setChild (part : GoString) (child : FuzzyTrie V) :
    List (GoString × FuzzyTrie V) → List (GoString × FuzzyTrie V)
  | [] => [(part, child)]
  | (k, c) :: rest =>
    if k = part then (part, child) :: rest else (k, c) :: setChild part child rest

/-- Map removal `delete(children, part)`. -/
def deleteChild (part : GoString) (cs : List (GoString × FuzzyTrie V)) :
    List (GoString × FuzzyTrie V) :=
  cs.filter (fun kc => decide (kc.1 ≠ part))

/-- Constructors `NewFuzzyTrie` and `newFuzzyTrie`: a node with no value and no children. -/
def NewFuzzyTrie : FuzzyTrie V := mk none []

/-- Method `isLeaf`: `len(f.children) == 0`. -/
def isLeaf (f : FuzzyTrie V) : Bool := f.children.length == 0

/-- The loop of `Get`, entered with the offset `i` passed to the segmenter. -/
def getLoop (seg : StringSegmenter) (key : GoString) :
    Nat → FuzzyTrie V → Int → Option (Option V)
  | 0, _, _ => none
  | n + 1, node, i =>
    let part := (seg key i).1
    if part = [] then some node.value
    else
      match lookupChild part node.children with
      | none => some none
      | some child => getLoop seg key n child (seg key i).2

/-- Method `Get`. -/
def Get (seg : StringSegmenter) (fuel : Nat) (f : FuzzyTrie V) (key : GoString) :
    Option (Option V) :=
  getLoop seg key fuel f 0

/-- The loop of `Put`; the result is the returned flag and the node as the loop
leaves it. -/
def putLoop (seg : StringSegmenter) (key : GoString) (val : Option V) :
    Nat → FuzzyTrie V → Int → Option (Bool × FuzzyTrie V)
  | 0, _, _ => none
  | n + 1, node, i =>
    let part := (seg key i).1
    if part = [] then some (true, mk val node.children)
    else if HasSuffix part ['*'] then some (false, node)
    else
      let child := (lookupChild part node.children).getD NewFuzzyTrie
      match putLoop seg key val n child (seg key i).2 with
      | none => none
      | some (ok, child') => some (ok, mk node.value (setChild part child' node.children))

/-- Method `Put`. -/
def Put (seg : StringSegmenter) (fuel : Nat) (f : FuzzyTrie V) (key : GoString)
    (val : Option V) : Option (Bool × FuzzyTrie V) :=
  putLoop seg key val fuel f 0

/-- How `Delete` leaves a node of the path it walked. -/
inductive DelResult (V : Type) where
  /-- Exit by `return false`: nothing was changed. -/
  | notFound
  /-- Exit by `return true`; the node stays in its parent's map, in the given state. -/
  | kept (node : FuzzyTrie V)
  /-- Exit by `return true`; the node is an empty leaf and the upward loop removes
  it from its parent's map, then looks at the parent. -/
  | pruned

/-- The body of `Delete` from the node reached with offset `i`: the descent of the
first loop and, on the way back, the iteration of the upward loop for this node.
The source keeps the nodes it went through in the slice `nodes` and, after the first
loop, walks that slice backwards; here each node of the path handles the result of
its child when the recursion returns, which is the same order. -/
def deleteLoop (seg : StringSegmenter) (key : GoString) :
    Nat → FuzzyTrie V → Int → Option (DelResult V)
  | 0, _, _ => none
  | n + 1, node, i =>
    let part := (seg key i).1
    if part = [] then
      -- after the first loop: `node.value = nil`, then `if node.isLeaf()`
      if node.isLeaf then some .pruned else some (.kept (mk none []))
    else
      match lookupChild part node.children with
      | none =>
        -- `node == nil`: not found, or a wildcard on the children of this node
        if !HasSuffix part ['*'] then some .notFound
        else if TrimSpace part = ['/', '*'] then some (.kept (mk node.value []))
        else
          let pre := TrimSuffix part ['*']
          some (.kept (mk node.value (node.children.filter (fun kc => !HasPrefix kc.1 pre))))
      | some child =>
        match deleteLoop seg key n child (seg key i).2 with
        | none => none
        | some .notFound => some .notFound
        | some (.kept child') => some (.kept (mk node.value (setChild part child' node.children)))
        | some .pruned =>
          -- one iteration of the upward loop, with this node as `parent`
          let rest := deleteChild part node.children
          if !(mk node.value rest).isLeaf then some (.kept (mk node.value rest))
          else if node.value.isSome then some (.kept (mk node.value []))
          else some .pruned

/-- Method `Delete`: the returned flag and the trie afterwards. -/
def Delete (seg : StringSegmenter) (fuel : Nat) (f : FuzzyTrie V) (key : GoString) :
    Option (Bool × FuzzyTrie V) :=
  match deleteLoop seg key fuel f 0 with
  | none => none
  | some .notFound => some (false, f)
  | some (.kept f') => some (true, f')
  | some .pruned => some (true, mk none [])

/-- The type `WalkFunc`: a visitor, with its own state `σ` threaded through the
calls; the second component is the returned `error` (`none` is `nil`). -/
abbrev WalkFunc (V σ ε : Type) := GoString → Option V → σ → σ × Option ε

mutual
/-- Method `walk`. -/
def walk {σ ε : Type} (walker : WalkFunc V σ ε) :
    FuzzyTrie V → GoString → σ → σ × Option ε
  | mk val cs, key, s =>
    match val with
    | some v =>
      match walker key (some v) s with
      | (s', some err) => (s', some err)
      | (s', none) => walkChildren walker cs key s'
    | none => walkChildren walker cs key s
/-- The `range f.children` loop of `walk`. -/
def walkChildren {σ ε : Type} (walker : WalkFunc V σ ε) :
    List (GoString × FuzzyTrie V) → GoString → σ → σ × Option ε
  | [], _, s => (s, none)
  | (part, child) :: rest, key, s =>
    match walk walker child (key ++ part) s with
    | (s', some err) => (s', some err)
    | (s', none) => walkChildren walker rest key s'
end

/-- Method `Walk`. -/
def Walk {σ ε : Type} (f : FuzzyTrie V) (walker : WalkFunc V σ ε) (s : σ) : σ × Option ε :=
  walk walker f [] s

/-- How a call of `WalkPath` ends: by a `return` of the given `error` (`none` is
`nil`), or by a run-time panic. -/
inductive Outcome (ε : Type) where
  | returned (err : Option ε)
  | panicked

/-- The two `for k1, v := range parent.children` loops of `WalkPath`: the visitor
is called with `pre + k1` and `v.value`, which may be `nil`, for every child whose
key `k1` passes `keep` (all of them for `/*`, those with the prefix otherwise). -/
def walkMatching {σ ε : Type} (walker : WalkFunc V σ ε) (pre : GoString)
    (keep : GoString → Bool) : List (GoString × FuzzyTrie V) → σ → σ × Option ε
  | [], s => (s, none)
  | (k1, v) :: rest, s =>
    if keep k1 then
      match walker (pre ++ k1) v.value s with
      | (s', some err) => (s', some err)
      | (s', none) => walkMatching walker pre keep rest s'
    else walkMatching walker pre keep rest s

/-- The loop of `WalkPath`, entered with the offset `i` passed to the segmenter.
The variable `node` is a pointer that the loop can set to `nil` (`none` here);
reading `node.children` through it then panics, and so does the slice `key[0:i]`
with `i` outside the key. -/
def walkPathLoop {σ ε : Type} (seg : StringSegmenter) (key : GoString)
    (walker : WalkFunc V σ ε) :
    Nat → Option (FuzzyTrie V) → Int → σ → Option (σ × Outcome ε)
  | 0, _, _, _ => none
  | n + 1, node, i, s =>
    let part := (seg key i).1
    let j := (seg key i).2
    if part = [] then some (s, .returned none)
    else
      match node with
      | none => some (s, .panicked)
      | some parent =>
        if j ≠ -1 ∧ (j < 0 ∨ (key.length : Int) < j) then some (s, .panicked)
        else
          let k := if j = -1 then key else key.take j.toNat
          match lookupChild part parent.children with
          | none =>
            if !HasSuffix part ['*'] then some (s, .returned none)
            else
              let r :=
                if part = ['/', '*'] then
                  walkMatching walker (TrimSuffix k part) (fun _ => true) parent.children s
                else
                  walkMatching walker (TrimSuffix k part)
                    (fun k1 => HasPrefix k1 (TrimSuffix part ['*'])) parent.children s
              match r with
              | (s', some err) => some (s', .returned (some err))
              | (s', none) =>
                if j = -1 then some (s', .returned none)
                else walkPathLoop seg key walker n none j s'
          | some child =>
            match child.value with
            | some v =>
              match walker k (some v) s with
              | (s', some err) => some (s', .returned (some err))
              | (s', none) =>
                if j = -1 then some (s', .returned none)
                else walkPathLoop seg key walker n (some child) j s'
            | none =>
              if j = -1 then some (s, .returned none)
              else walkPathLoop seg key walker n (some child) j s

/-- Method `WalkPath`. -/
def WalkPath {σ ε : Type} (seg : StringSegmenter) (fuel : Nat) (f : FuzzyTrie V)
    (key : GoString) (walker : WalkFunc V σ ε) (s : σ) : Option (σ × Outcome ε) :=
  match f.value with
  | some v =>
    match walker [] (some v) s with
    | (s', some err) => some (s', .returned (some err))
    | (s', none) => walkPathLoop seg key walker fuel (some f) 0 s'
  | none => walkPathLoop seg key walker fuel (some f) 0 s

/-- The segments that the loop header
`for part, i := seg(key, 0); part != ""; part, i = seg(key, i)` of `Get`, `Put` and
`Delete` yields from offset `i` on, when it reaches the empty segment within the
fuel; `none` when it does not. -/
def segments (seg : StringSegmenter) (key : GoString) : Nat → Int → Option (List GoString)
  | 0, _ => none
  | n + 1, i =>
    let part := (seg key i).1
    if part = [] then some []
    else (segments seg key n (seg key i).2).map (fun ps => part :: ps)

/-- The node reached from `node` along a sequence of segments. -/
def nodeAt : FuzzyTrie V → List GoString → Option (FuzzyTrie V)
  | node, [] => some node
  | node, part :: ps =>
    match lookupChild part node.children with
    | none => none
    | some child => nodeAt child ps

/-- Method `Get` along a sequence of segments. -/
def getPath (node : FuzzyTrie V) (ps : List GoString) : Option V :=
  (nodeAt node ps).bind value

/-- Method `Put` along a sequence of segments. -/
def putPath (val : Option V) : FuzzyTrie V → List GoString → Bool × FuzzyTrie V
  | node, [] => (true, mk val node.children)
  | node, part :: ps =>
    if HasSuffix part ['*'] then (false, node)
    else
      let r := putPath val ((lookupChild part node.children).getD NewFuzzyTrie) ps
      (r.1, mk node.value (setChild part r.2 node.children))

/-- What `Delete` does at a node whose map has no child for the segment `part`. -/
def deleteMissing (node : FuzzyTrie V) (part : GoString) : DelResult V :=
  if !HasSuffix part ['*'] then .notFound
  else if TrimSpace part = ['/', '*'] then .kept (mk node.value [])
  else
    .kept (mk node.value
      (node.children.filter (fun kc => !HasPrefix kc.1 (TrimSuffix part ['*']))))

/-- What `Delete` does at a node on the way back from its child for `part`. -/
def deleteBack (node : FuzzyTrie V) (part : GoString) : DelResult V → DelResult V
  | .notFound => .notFound
  | .kept child' => .kept (mk node.value (setChild part child' node.children))
  | .pruned =>
    if !(mk node.value (deleteChild part node.children)).isLeaf then
      .kept (mk node.value (deleteChild part node.children))
    else if node.value.isSome then .kept (mk node.value [])
    else .pruned

/-- Method `Delete` along a sequence of segments. -/
def deletePath : FuzzyTrie V → List GoString → DelResult V
  | node, [] => if node.isLeaf then .pruned else .kept (mk none [])
  | node, part :: ps =>
    match lookupChild part node.children with
    | none => deleteMissing node part
    | some child => deleteBack node part (deletePath child ps)

/-- The outcome of `Delete` at the root. -/
def delOutcome (f : FuzzyTrie V) : DelResult V → Bool × FuzzyTrie V
  | .notFound => (false, f)
  | .kept f' => (true, f')
  | .pruned => (true, mk none [])

/-- The trie in which the node at the end of a path of segments is replaced by
`new`; the trie itself when the path leads nowhere. -/
def replaceAt (new : FuzzyTrie V) : FuzzyTrie V → List GoString → FuzzyTrie V
  | _, [] => new
  | node, p :: ps =>
    match lookupChild p node.children with
    | none => node
    | some c => mk node.value (setChild p (replaceAt new c ps) node.children)

/-- A call that changes a trie built by `NewFuzzyTrie`. -/
inductive Op (V : Type) where
  | put (key : GoString) (val : Option V)
  | delete (key : GoString)

/-- One call on a trie with the default segmenter; the fuel is the length of the
key plus one, which the default segmenter never exceeds. -/
def applyOp (t : FuzzyTrie V) : Op V → Option (FuzzyTrie V)
  | .put key val => (Put PathSegmenter (key.length + 1) t key val).map Prod.snd
  | .delete key => (Delete PathSegmenter (key.length + 1) t key).map Prod.snd

/-- A sequence of calls, first to last. -/
def run : List (Op V) → FuzzyTrie V → Option (FuzzyTrie V)
  | [], t => some t
  | op :: ops, t => (applyOp t op).bind (run ops)

mutual
/-- No key of any `children` map in the trie ends in `*`. -/
def noStar : FuzzyTrie V → Bool
  | mk _ cs => noStarChildren cs
/-- The same, for the entries of one `children` map and the tries below them. -/
def noStarChildren : List (GoString × FuzzyTrie V) → Bool
  | [] => true
  | (k, c) :: rest => !HasSuffix k ['*'] && noStar c && noStarChildren rest
end

/-- The trie of the tests: `/usr`, `/usr/age`, `/usr/gender`, `/usr/garden`,
`/usr/colors`, `/usr/colors/1`, `/usr/colors/2`, `/usr/colors/3`, put in this order
into a fresh trie; the values are the strings of the tests. -/
def canonical8 : FuzzyTrie GoString :=
  mk none [("/usr".toList, mk (some "pedro".toList)
    [("/age".toList, mk (some "25".toList) []),
     ("/gender".toList, mk (some "male".toList) []),
     ("/garden".toList, mk (some "qh".toList) []),
     ("/colors".toList, mk (some "bucket".toList)
       [("/1".toList, mk (some "black".toList) []),
        ("/2".toList, mk (some "red".toList) []),
        ("/3".toList, mk (some "white".toList) [])])])]

/-- The calls of the tests that build `canonical8`. -/
def canonicalOps : List (Op GoString) :=
  [.put "/usr".toList (some "pedro".toList),
   .put "/usr/age".toList (some "25".toList),
   .put "/usr/gender".toList (some "male".toList),
   .put "/usr/garden".toList (some "qh".toList),
   .put "/usr/colors".toList (some "bucket".toList),
   .put "/usr/colors/1".toList (some "black".toList),
   .put "/usr/colors/2".toList (some "red".toList),
   .put "/usr/colors/3".toList (some "white".toList)]

/-- The trie of the comment on `WalkPath`: values at `/usr/local/bin` and
`/usr/local/env`, put into a fresh trie. -/
def localTrie : FuzzyTrie GoString :=
  mk none [("/usr".toList, mk none
    [("/local".toList, mk none
      [("/bin".toList, mk (some "b".toList) []),
       ("/env".toList, mk (some "e".toList) [])])])]

/-- The keys and values of the tests, in the order of the `Put` calls. -/
def canonicalEntries : List (GoString × GoString) :=
  [("/usr".toList, "pedro".toList),
   ("/usr/age".toList, "25".toList),
   ("/usr/gender".toList, "male".toList),
   ("/usr/garden".toList, "qh".toList),
   ("/usr/colors".toList, "bucket".toList),
   ("/usr/colors/1".toList, "black".toList),
   ("/usr/colors/2".toList, "red".toList),
   ("/usr/colors/3".toList, "white".toList)]

/-- A visitor that records its calls and never fails. -/
def recordVisits {ε : Type} : WalkFunc V (List (GoString × Option V)) ε :=
  fun key v s => (s ++ [(key, v)], none)

/-- The visitor called on a list of (path, value) pairs in order, up to and
including the first call that returns an error. -/
def runVisits {σ ε : Type} (walker : WalkFunc V σ ε) :
    List (GoString × Option V) → σ → σ × Option ε
  | [], s => (s, none)
  | e :: es, s =>
    match walker e.1 e.2 s with
    | (s', some err) => (s', some err)
    | (s', none) => runVisits walker es s'

/-- A visitor that counts its calls and fails, with the number of the call, from
call `k` on. -/
def failFrom (k : Nat) : WalkFunc V Nat Nat :=
  fun _ _ c => (c + 1, if k ≤ c + 1 then some (c + 1) else none)

mutual
/-- The calls `walk` makes to a visitor that never fails, in order. -/
def entries : FuzzyTrie V → GoString → List (GoString × Option V)
  | mk val cs, key =>
    (match val with
      | some v => [(key, some v)]
      | none => []) ++ entriesChildren cs key
/-- The calls of the `range f.children` loop of `walk`. -/
def entriesChildren : List (GoString × FuzzyTrie V) → GoString → List (GoString × Option V)
  | [], _ => []
  | (part, child) :: rest, key => entries child (key ++ part) ++ entriesChildren rest key
end

/-- The end of a call whose visitor calls gave `r`: the error of the visitor when
there is one, the outcome `o` otherwise. -/
def finishWith {σ ε : Type} (r : σ × Option ε) (o : Outcome ε) : σ × Outcome ε :=
  match r with
  | (s, some err) => (s, .returned (some err))
  | (s, none) => (s, o)

/-- The call made for a node whose value is not `nil`. -/
def valueEntry (node : FuzzyTrie V) (path : GoString) : List (GoString × Option V) :=
  match node.value with
  | some v => [(path, some v)]
  | none => []

/-- The children a wildcard segment selects: every child for `/*`, the children
whose key starts with the segment less its `*` otherwise. -/
def keepFor (part : GoString) : GoString → Bool :=
  if part = ['/', '*'] then fun _ => true
  else fun k1 => HasPrefix k1 (TrimSuffix part ['*'])

/-- The loop of `WalkPath` along a sequence of segments, from the node `parent`
reached with the consumed prefix `pre`: the calls made to a visitor that never fails,
and whether the loop ends in a panic. -/
def pathEntries : FuzzyTrie V → GoString → List GoString → List (GoString × Option V) × Bool
  | _, _, [] => ([], false)
  | parent, pre, part :: rest =>
    match lookupChild part parent.children with
    | none =>
      if !HasSuffix part ['*'] then ([], false)
      else
        ((parent.children.filter (fun kc => keepFor part kc.1)).map
          (fun kc => (pre ++ kc.1, kc.2.value)), !rest.isEmpty)
    | some child =>
      (valueEntry child (pre ++ part) ++ (pathEntries child (pre ++ part) rest).1,
        (pathEntries child (pre ++ part) rest).2)

/-- The outcome of a `WalkPath` whose visitor never fails. -/
def outcomeOf {ε : Type} (panics : Bool) : Outcome ε :=
  if panics then .panicked else .returned none

/-- A node that holds a value or has a child. -/
def notEmpty (c : FuzzyTrie V) : Bool := c.value.isSome || !c.children.isEmpty

mutual
/-- No node below the root of the trie is without value and without children. -/
def noEmpty : FuzzyTrie V → Bool
  | mk _ cs => noEmptyChildren cs
/-- The same, for the entries of one `children` map and the tries below them. -/
def noEmptyChildren : List (GoString × FuzzyTrie V) → Bool
  | [] => true
  | (_, c) :: rest => notEmpty c && noEmpty c && noEmptyChildren rest
end

mutual
/-- No `children` map in the trie has two entries with the same key, as in a Go map. -/
def uniqueKeys : FuzzyTrie V → Bool
  | mk _ cs => uniqueKeysChildren cs
/-- The same, for the entries of one `children` map and the tries below them. -/
def uniqueKeysChildren : List (GoString × FuzzyTrie V) → Bool
  | [] => true
  | (k, c) :: rest => (lookupChild k rest).isNone && uniqueKeys c && uniqueKeysChildren rest
end

mutual
/-- The paths, as sequences of segment keys from the root, of the nodes that hold a
value; the root has the empty path. -/
def valuedPaths : FuzzyTrie V → List (List GoString)
  | mk val cs => (if val.isSome then [[]] else []) ++ valuedPathsChildren cs
/-- The same below the entries of one `children` map. -/
def valuedPathsChildren : List (GoString × FuzzyTrie V) → List (List GoString)
  | [] => []
  | (k, c) :: rest => (valuedPaths c).map (fun qs => k :: qs) ++ valuedPathsChildren rest
end

/-- The segments of a key under the default segmenter. -/
def keySegments (key : GoString) : List GoString :=
  (segments PathSegmenter key (key.length + 1) 0).getD []

/-- A sequence of `Put` calls with values that are not `nil`, first to last, with
the default segmenter; `none` when a call does not return or returns false. -/
def putAll : List (GoString × V) → FuzzyTrie V → Option (FuzzyTrie V)
  | [], t => some t
  | (k, v) :: rest, t =>
    match Put PathSegmenter (k.length + 1) t k (some v) with
    | some (true, t') => putAll rest t'
    | _ => none

/-! ### The loops and the segment sequence -/

theorem getLoop_of_segments (seg : StringSegmenter) (key : GoString) :
    ∀ (n : Nat) (node : FuzzyTrie V) (i : Int) (ps : List GoString),
      segments seg key n i = some ps → getLoop seg key n node i = some (getPath node ps) := by
  intro n
  induction n with
  | zero => intro node i ps h; simp [segments] at h
  | succ n ih =>
    intro node i ps h
    simp only [segments] at h
    simp only [getLoop]
    by_cases hp : (seg key i).1 = []
    · simp only [hp, if_true] at h ⊢
      cases h
      simp [getPath, nodeAt]
    · simp only [hp, if_false] at h ⊢
      cases hs : segments seg key n (seg key i).2 with
      | none => simp [hs] at h
      | some qs =>
        simp only [hs, Option.map_some', Option.some.injEq] at h
        subst h
        cases hl : lookupChild (seg key i).1 node.children with
        | none => simp [getPath, nodeAt, hl]
        | some child =>
          simp only [getPath, nodeAt, hl]
          exact ih child _ qs hs

theorem putLoop_of_segments (seg : StringSegmenter) (key : GoString) (val : Option V) :
    ∀ (n : Nat) (node : FuzzyTrie V) (i : Int) (ps : List GoString),
      segments seg key n i = some ps →
        putLoop seg key val n node i = some (putPath val node ps) := by
  intro n
  induction n with
  | zero => intro node i ps h; simp [segments] at h
  | succ n ih =>
    intro node i ps h
    simp only [segments] at h
    simp only [putLoop]
    by_cases hp : (seg key i).1 = []
    · simp only [hp, if_true] at h ⊢
      cases h
      simp [putPath]
    · simp only [hp, if_false] at h ⊢
      cases hs : segments seg key n (seg key i).2 with
      | none => simp [hs] at h
      | some qs =>
        simp only [hs, Option.map_some', Option.some.injEq] at h
        subst h
        by_cases hstar : HasSuffix (seg key i).1 ['*'] = true
        · simp [putPath, hstar]
        · simp only [putPath, hstar, if_false]
          rw [ih _ _ qs hs]
          simp

theorem deleteLoop_of_segments (seg : StringSegmenter) (key : GoString) :
    ∀ (n : Nat) (node : FuzzyTrie V) (i : Int) (ps : List GoString),
      segments seg key n i = some ps →
        deleteLoop seg key n node i = some (deletePath node ps) := by
  intro n
  induction n with
  | zero => intro node i ps h; simp [segments] at h
  | succ n ih =>
    intro node i ps h
    simp only [segments] at h
    simp only [deleteLoop]
    by_cases hp : (seg key i).1 = []
    · simp only [hp, if_true] at h ⊢
      cases h
      cases hl : node.isLeaf <;> simp [deletePath, hl]
    · simp only [hp, if_false] at h ⊢
      cases hs : segments seg key n (seg key i).2 with
      | none => simp [hs] at h
      | some qs =>
        simp only [hs, Option.map_some', Option.some.injEq] at h
        subst h
        cases hl : lookupChild (seg key i).1 node.children with
        | none =>
          simp only [deletePath, hl, deleteMissing]
          split_ifs <;> rfl
        | some child =>
          simp only [deletePath, hl]
          rw [ih child _ qs hs]
          cases deletePath child qs with
          | notFound => rfl
          | kept c => rfl
          | pruned =>
            simp only [deleteBack]
            split_ifs <;> rfl

theorem Get_of_segments (seg : StringSegmenter) (key : GoString) (n : Nat) (f : FuzzyTrie V)
    (ps : List GoString) (h : segments seg key n 0 = some ps) :
    Get seg n f key = some (getPath f ps) :=
  getLoop_of_segments seg key n f 0 ps h

theorem Put_of_segments (seg : StringSegmenter) (key : GoString) (val : Option V) (n : Nat)
    (f : FuzzyTrie V) (ps : List GoString) (h : segments seg key n 0 = some ps) :
    Put seg n f key val = some (putPath val f ps) :=
  putLoop_of_segments seg key val n f 0 ps h

theorem Delete_of_segments (seg : StringSegmenter) (key : GoString) (n : Nat) (f : FuzzyTrie V)
    (ps : List GoString) (h : segments seg key n 0 = some ps) :
    Delete seg n f key = some (delOutcome f (deletePath f ps)) := by
  unfold Delete
  rw [deleteLoop_of_segments seg key n f 0 ps h]
  cases deletePath f ps <;> rfl

/-! ### The children map -/

theorem lookupChild_setChild (p q : GoString) (c : FuzzyTrie V)
    (cs : List (GoString × FuzzyTrie V)) :
    lookupChild q (setChild p c cs) = if q = p then some c else lookupChild q cs := by
  induction cs with
  | nil =>
    by_cases h : q = p
    · simp [setChild, lookupChild, h]
    · have h' : ¬ p = q := fun e => h e.symm
      simp [setChild, lookupChild, h, h']
  | cons kc rest ih =>
    obtain ⟨k, c0⟩ := kc
    by_cases hk : k = p
    · subst hk
      by_cases h : q = k
      · simp [setChild, lookupChild, h]
      · have h' : ¬ k = q := fun e => h e.symm
        simp [setChild, lookupChild, h, h']
    · by_cases hq : k = q
      · subst hq
        simp [setChild, lookupChild, hk]
      · simp [setChild, lookupChild, hk, hq, ih]

theorem lookupChild_filter (f : GoString → Bool) (q : GoString)
    (cs : List (GoString × FuzzyTrie V)) :
    lookupChild q (cs.filter (fun kc => f kc.1)) = if f q then lookupChild q cs else none := by
  induction cs with
  | nil => simp [lookupChild]
  | cons kc rest ih =>
    obtain ⟨k, c0⟩ := kc
    by_cases hk : k = q
    · subst hk
      cases hf : f k <;> simp [List.filter, lookupChild, hf, ih]
    · cases hf : f k <;> simp [List.filter, lookupChild, hf, ih, hk]

theorem lookupChild_deleteChild (p q : GoString) (cs : List (GoString × FuzzyTrie V)) :
    lookupChild q (deleteChild p cs) = if q = p then none else lookupChild q cs := by
  unfold deleteChild
  rw [lookupChild_filter (fun k => decide (k ≠ p)) q cs]
  by_cases h : q = p <;> simp [h]

/-! ### Paths -/

@[simp] theorem value_mk (v : Option V) (cs : List (GoString × FuzzyTrie V)) :
    (mk v cs).value = v := rfl

@[simp] theorem children_mk (v : Option V) (cs : List (GoString × FuzzyTrie V)) :
    (mk v cs).children = cs := rfl

theorem mk_value_children (t : FuzzyTrie V) : mk t.value t.children = t := by
  cases t; rfl

@[simp] theorem getPath_nil (node : FuzzyTrie V) : getPath node [] = node.value := rfl

theorem getPath_cons (node : FuzzyTrie V) (q : GoString) (qs : List GoString) :
    getPath node (q :: qs) =
      match lookupChild q node.children with
      | none => none
      | some c => getPath c qs := by
  unfold getPath
  simp only [nodeAt]
  cases lookupChild q node.children <;> rfl

theorem getPath_New (qs : List GoString) : getPath (NewFuzzyTrie : FuzzyTrie V) qs = none := by
  cases qs with
  | nil => rfl
  | cons q qs => simp [getPath, nodeAt, NewFuzzyTrie, lookupChild]

theorem nodeAt_append (node : FuzzyTrie V) (ps qs : List GoString) :
    nodeAt node (ps ++ qs) = (nodeAt node ps).bind (fun a => nodeAt a qs) := by
  induction ps generalizing node with
  | nil => rfl
  | cons p ps ih =>
    simp only [List.cons_append, nodeAt]
    cases lookupChild p node.children with
    | none => rfl
    | some c => exact ih c

/-! ### Put -/

theorem putLoop_true_segments (seg : StringSegmenter) (key : GoString) (val : Option V) :
    ∀ (n : Nat) (node node' : FuzzyTrie V) (i : Int),
      putLoop seg key val n node i = some (true, node') →
        ∃ ps, segments seg key n i = some ps := by
  intro n
  induction n with
  | zero => intro node node' i h; simp [putLoop] at h
  | succ n ih =>
    intro node node' i h
    simp only [putLoop] at h
    simp only [segments]
    by_cases hp : (seg key i).1 = []
    · exact ⟨[], by simp [hp]⟩
    · simp only [hp, if_false] at h ⊢
      by_cases hstar : HasSuffix (seg key i).1 ['*'] = true
      · simp [hstar] at h
      · simp only [hstar, if_false] at h
        cases hr : putLoop seg key val n
            ((lookupChild (seg key i).1 node.children).getD NewFuzzyTrie) (seg key i).2 with
        | none => simp [hr] at h
        | some r =>
          obtain ⟨ok, c'⟩ := r
          simp only [hr, Option.some.injEq, Prod.mk.injEq] at h
          obtain ⟨hok, _⟩ := h
          obtain ⟨qs, hqs⟩ := ih _ _ _ hr
          exact ⟨(seg key i).1 :: qs, by simp [hqs]⟩

theorem putPath_fst (val : Option V) (node : FuzzyTrie V) (ps : List GoString) :
    (putPath val node ps).1 = !(ps.any (fun p => HasSuffix p ['*'])) := by
  induction ps generalizing node with
  | nil => rfl
  | cons p ps ih =>
    by_cases hstar : HasSuffix p ['*'] = true
    · simp [putPath, hstar]
    · simp [putPath, hstar, ih]

theorem getPath_putPath (val : Option V) (node : FuzzyTrie V) (ps qs : List GoString)
    (h : (putPath val node ps).1 = true) :
    getPath (putPath val node ps).2 qs = if qs = ps then val else getPath node qs := by
  induction ps generalizing node qs with
  | nil =>
    cases qs with
    | nil => simp [putPath]
    | cons q qs => simp [putPath, getPath_cons]
  | cons p ps ih =>
    by_cases hstar : HasSuffix p ['*'] = true
    · simp [putPath, hstar] at h
    · simp only [putPath, hstar, Bool.false_eq_true, if_false] at h ⊢
      cases qs with
      | nil => rfl
      | cons q qs =>
        rw [getPath_cons, getPath_cons]
        dsimp only [children_mk]
        rw [lookupChild_setChild]
        by_cases hq : q = p
        · subst hq
          simp only [if_true, ih _ qs h, List.cons.injEq, true_and]
          by_cases hqs : qs = ps
          · simp [hqs]
          · simp only [hqs, if_false]
            cases lookupChild q node.children with
            | none => simp [getPath_New]
            | some c => simp
        · simp [hq]

theorem walk_New {σ ε : Type} (walker : WalkFunc V σ ε) (key : GoString) (s : σ) :
    walk walker (NewFuzzyTrie : FuzzyTrie V) key s = (s, none) := by
  simp [NewFuzzyTrie, walk, walkChildren]

theorem walk_mk {σ ε : Type} (walker : WalkFunc V σ ε) (v : Option V)
    (cs cs' : List (GoString × FuzzyTrie V)) (key : GoString)
    (h : ∀ s, walkChildren walker cs' key s = walkChildren walker cs key s) (s : σ) :
    walk walker (mk v cs') key s = walk walker (mk v cs) key s := by
  cases v with
  | none => simp only [walk, h]
  | some x =>
    simp only [walk]
    rcases walker key (some x) s with ⟨s', _ | err⟩
    · exact h s'
    · rfl

theorem walkChildren_setChild {σ ε : Type} (walker : WalkFunc V σ ε) (p : GoString)
    (c' : FuzzyTrie V) (cs : List (GoString × FuzzyTrie V))
    (h : ∀ key s, walk walker c' key s =
      walk walker ((lookupChild p cs).getD NewFuzzyTrie) key s) (key : GoString) (s : σ) :
    walkChildren walker (setChild p c' cs) key s = walkChildren walker cs key s := by
  induction cs generalizing s with
  | nil =>
    simp only [setChild, walkChildren, h, lookupChild, Option.getD_none, walk_New]
  | cons kc rest ih =>
    obtain ⟨k, c0⟩ := kc
    by_cases hk : k = p
    · subst hk
      simp only [setChild, if_true, walkChildren, h, lookupChild, Option.getD_some]
    · simp only [lookupChild, hk, if_false] at h
      simp only [setChild, hk, if_false, walkChildren]
      rcases walk walker c0 (key ++ k) s with ⟨s', _ | err⟩
      · exact ih h s'
      · rfl

theorem putLoop_false_frame (seg : StringSegmenter) (key : GoString) (val : Option V) :
    ∀ (n : Nat) (node node' : FuzzyTrie V) (i : Int),
      putLoop seg key val n node i = some (false, node') →
        (∀ qs, getPath node' qs = getPath node qs) ∧
        (∀ (σ ε : Type) (walker : WalkFunc V σ ε) (k : GoString) (s : σ),
          walk walker node' k s = walk walker node k s) := by
  intro n
  induction n with
  | zero => intro node node' i h; simp [putLoop] at h
  | succ n ih =>
    intro node node' i h
    simp only [putLoop] at h
    by_cases hp : (seg key i).1 = []
    · simp [hp] at h
    · simp only [hp, if_false] at h
      cases hstar : HasSuffix (seg key i).1 ['*'] with
      | true =>
        simp only [hstar, if_true, Option.some.injEq, Prod.mk.injEq, true_and] at h
        subst h
        exact ⟨fun _ => rfl, fun _ _ _ _ _ => rfl⟩
      | false =>
        simp only [hstar, Bool.false_eq_true, if_false] at h
        cases hr : putLoop seg key val n
            ((lookupChild (seg key i).1 node.children).getD NewFuzzyTrie) (seg key i).2 with
        | none => simp [hr] at h
        | some r =>
          obtain ⟨ok, c'⟩ := r
          simp only [hr, Option.some.injEq, Prod.mk.injEq] at h
          obtain ⟨hok, hnode⟩ := h
          subst hok
          subst hnode
          obtain ⟨ihg, ihw⟩ := ih _ _ _ hr
          refine ⟨?_, ?_⟩
          · intro qs
            cases qs with
            | nil => rfl
            | cons q qs =>
              rw [getPath_cons, getPath_cons]
              dsimp only [children_mk]
              rw [lookupChild_setChild]
              by_cases hq : q = (seg key i).1
              · subst hq
                simp only [if_true, ihg]
                cases lookupChild (seg key i).1 node.children with
                | none => simp [getPath_New]
                | some c => simp
              · simp [hq]
          · intro σ ε walker k s
            have := walk_mk walker node.value node.children
              (setChild (seg key i).1 c' node.children) k
              (fun s => walkChildren_setChild walker _ c' node.children (ihw σ ε walker) k s) s
            rw [this, mk_value_children]

/-! ### Delete -/

theorem nodeAt_cons (node : FuzzyTrie V) (q : GoString) (qs : List GoString) :
    nodeAt node (q :: qs) =
      match lookupChild q node.children with
      | none => none
      | some c => nodeAt c qs := rfl

theorem deletePath_cons_none (node : FuzzyTrie V) (p : GoString) (ps : List GoString)
    (h : lookupChild p node.children = none) :
    deletePath node (p :: ps) = deleteMissing node p := by
  simp only [deletePath, h]

theorem deletePath_cons_some (node c : FuzzyTrie V) (p : GoString) (ps : List GoString)
    (h : lookupChild p node.children = some c) :
    deletePath node (p :: ps) = deleteBack node p (deletePath c ps) := by
  simp only [deletePath, h]

theorem deleteBack_pruned (node : FuzzyTrie V) (p : GoString) :
    deleteBack node p .pruned =
      if (deleteChild p node.children).isEmpty && node.value.isNone then DelResult.pruned
      else DelResult.kept (mk node.value (deleteChild p node.children)) := by
  unfold deleteBack
  cases hd : deleteChild p node.children with
  | nil =>
    cases hv : node.value with
    | none => simp [isLeaf]
    | some x => simp [isLeaf]
  | cons kc rest => simp [isLeaf]

theorem deleteMissing_ne_pruned (node : FuzzyTrie V) (w : GoString) :
    deleteMissing node w ≠ .pruned := by
  unfold deleteMissing
  split_ifs <;> simp

theorem deleteBack_eq_notFound (node : FuzzyTrie V) (p : GoString) (r : DelResult V)
    (h : deleteBack node p r = .notFound) : r = .notFound := by
  cases r with
  | notFound => rfl
  | kept c => simp [deleteBack] at h
  | pruned =>
    rw [deleteBack_pruned] at h
    split_ifs at h

/-- A segment with no child: the walk ends there, whatever follows in the key. -/
theorem deletePath_missing (w : GoString) (rest : List GoString) :
    ∀ (qs : List GoString) (node parent : FuzzyTrie V),
      nodeAt node qs = some parent → lookupChild w parent.children = none →
        deletePath node (qs ++ w :: rest) =
          match deleteMissing parent w with
          | .notFound => .notFound
          | .kept a => .kept (replaceAt a node qs)
          | .pruned => .pruned := by
  intro qs
  induction qs with
  | nil =>
    intro node parent h hw
    simp only [nodeAt, Option.some.injEq] at h
    subst h
    rw [List.nil_append, deletePath_cons_none node w rest hw]
    cases deleteMissing node w <;> rfl
  | cons q qs ih =>
    intro node parent h hw
    rw [nodeAt_cons] at h
    cases hl : lookupChild q node.children with
    | none => simp [hl] at h
    | some c =>
      simp only [hl] at h
      rw [List.cons_append, deletePath_cons_some node c q _ hl, ih c parent h hw]
      have hne := deleteMissing_ne_pruned parent w
      cases hm : deleteMissing parent w with
      | notFound => rfl
      | kept a => simp [deleteBack, replaceAt, hl]
      | pruned => exact absurd hm hne

/-- The node of the key exists and has children: it is emptied and stays. -/
theorem deletePath_inner :
    ∀ (ps : List GoString) (node target : FuzzyTrie V),
      nodeAt node ps = some target → target.isLeaf = false →
        deletePath node ps = .kept (replaceAt (mk none []) node ps) := by
  intro ps
  induction ps with
  | nil =>
    intro node target h hl
    simp only [nodeAt, Option.some.injEq] at h
    subst h
    simp [deletePath, hl, replaceAt]
  | cons p ps ih =>
    intro node target h hl
    rw [nodeAt_cons] at h
    cases hc : lookupChild p node.children with
    | none => simp [hc] at h
    | some c =>
      simp only [hc] at h
      rw [deletePath_cons_some node c p ps hc, ih c target h hl]
      simp only [deleteBack, replaceAt, hc]

theorem getPath_replaceAt_under (new : FuzzyTrie V) (rs : List GoString) :
    ∀ (ps : List GoString) (node target : FuzzyTrie V), nodeAt node ps = some target →
      getPath (replaceAt new node ps) (ps ++ rs) = getPath new rs := by
  intro ps
  induction ps with
  | nil => intro node target _; rfl
  | cons p ps ih =>
    intro node target h
    rw [nodeAt_cons] at h
    cases hc : lookupChild p node.children with
    | none => simp [hc] at h
    | some c =>
      simp only [hc] at h
      simp only [replaceAt, hc, List.cons_append]
      rw [getPath_cons]
      simp only [children_mk, lookupChild_setChild, if_true]
      exact ih c target h

theorem getPath_replaceAt_off (new : FuzzyTrie V) :
    ∀ (ps : List GoString) (node : FuzzyTrie V) (qs : List GoString), ¬ ps <+: qs →
      getPath (replaceAt new node ps) qs = getPath node qs := by
  intro ps
  induction ps with
  | nil => intro node qs h; exact absurd List.nil_prefix h
  | cons p ps ih =>
    intro node qs h
    cases hc : lookupChild p node.children with
    | none => simp [replaceAt, hc]
    | some c =>
      simp only [replaceAt, hc]
      cases qs with
      | nil => rfl
      | cons q qs =>
        rw [getPath_cons, getPath_cons]
        simp only [children_mk, lookupChild_setChild]
        by_cases hq : q = p
        · subst hq
          simp only [if_true, hc]
          apply ih
          intro hpre
          exact h (List.cons_prefix_cons.2 ⟨rfl, hpre⟩)
        · simp [hq]

theorem deletePath_found_of_nodeAt :
    ∀ (ps : List GoString) (node target : FuzzyTrie V),
      nodeAt node ps = some target → deletePath node ps ≠ .notFound := by
  intro ps
  induction ps with
  | nil =>
    intro node target _
    cases hl : node.isLeaf <;> simp [deletePath, hl]
  | cons p ps ih =>
    intro node target h
    rw [nodeAt_cons] at h
    cases hc : lookupChild p node.children with
    | none => simp [hc] at h
    | some c =>
      simp only [hc] at h
      rw [deletePath_cons_some node c p ps hc]
      intro hnf
      exact ih c target h (deleteBack_eq_notFound node p _ hnf)

theorem nodeAt_of_deletePath_literal :
    ∀ (ps : List GoString) (node : FuzzyTrie V),
      (∀ p ∈ ps, HasSuffix p ['*'] = false) → deletePath node ps ≠ .notFound →
        ∃ target, nodeAt node ps = some target := by
  intro ps
  induction ps with
  | nil => intro node _ _; exact ⟨node, rfl⟩
  | cons p ps ih =>
    intro node hlit hd
    have hp : HasSuffix p ['*'] = false := hlit p (List.mem_cons_self _ _)
    cases hc : lookupChild p node.children with
    | none => simp [deletePath_cons_none node p ps hc, deleteMissing, hp] at hd
    | some c =>
      rw [deletePath_cons_some node c p ps hc] at hd
      have hd' : deletePath c ps ≠ .notFound := by
        intro e
        rw [e] at hd
        exact hd rfl
      obtain ⟨target, ht⟩ := ih c (fun q hq => hlit q (List.mem_cons_of_mem _ hq)) hd'
      exact ⟨target, by rw [nodeAt_cons, hc]; exact ht⟩

/-! ### Delete of a leaf: the upward loop -/

theorem isLeaf_of_children_nil (node : FuzzyTrie V) (h : node.children = []) :
    node.isLeaf = true := by
  simp [isLeaf, h]

theorem lookupChild_of_deleteChild_nil (p q : GoString) (cs : List (GoString × FuzzyTrie V))
    (h : deleteChild p cs = []) (hq : q ≠ p) : lookupChild q cs = none := by
  have := lookupChild_deleteChild p q cs
  rw [h] at this
  simp only [hq, if_false] at this
  rw [← this]
  rfl

/-- The node of the key exists and is a leaf: what `Get` sees afterwards. -/
theorem deletePath_leaf_getPath :
    ∀ (ps : List GoString) (node target : FuzzyTrie V),
      nodeAt node ps = some target → target.children = [] →
        match deletePath node ps with
        | .notFound => False
        | .kept node' => ∀ qs, getPath node' qs = if qs = ps then none else getPath node qs
        | .pruned => ∀ qs, qs ≠ ps → getPath node qs = none := by
  intro ps
  induction ps with
  | nil =>
    intro node target h hleaf
    simp only [nodeAt, Option.some.injEq] at h
    subst h
    simp only [deletePath, isLeaf_of_children_nil node hleaf, if_true]
    intro qs hqs
    cases qs with
    | nil => exact absurd rfl hqs
    | cons q qs => rw [getPath_cons, hleaf]; rfl
  | cons p ps ih =>
    intro node target h hleaf
    rw [nodeAt_cons] at h
    cases hc : lookupChild p node.children with
    | none => simp [hc] at h
    | some c =>
      simp only [hc] at h
      rw [deletePath_cons_some node c p ps hc]
      have IH := ih c target h hleaf
      cases hr : deletePath c ps with
      | notFound => simp [hr] at IH
      | kept c' =>
        simp only [hr] at IH
        simp only [deleteBack]
        intro qs
        cases qs with
        | nil => simp
        | cons q qs =>
          rw [getPath_cons, getPath_cons]
          simp only [children_mk, lookupChild_setChild]
          by_cases hq : q = p
          · subst hq
            simp [hc, IH qs]
          · simp [hq]
      | pruned =>
        simp only [hr] at IH
        rw [deleteBack_pruned]
        by_cases hcond : ((deleteChild p node.children).isEmpty && node.value.isNone) = true
        · simp only [hcond, if_true]
          simp only [Bool.and_eq_true, List.isEmpty_iff, Option.isNone_iff_eq_none] at hcond
          intro qs hqs
          cases qs with
          | nil => simpa using hcond.2
          | cons q qs =>
            rw [getPath_cons]
            by_cases hq : q = p
            · subst hq
              simp only [hc]
              apply IH
              intro e
              exact hqs (by rw [e])
            · rw [lookupChild_of_deleteChild_nil p q _ hcond.1 hq]
        · simp only [hcond, Bool.false_eq_true, if_false]
          intro qs
          cases qs with
          | nil => simp
          | cons q qs =>
            rw [getPath_cons, getPath_cons]
            simp only [children_mk, lookupChild_deleteChild]
            by_cases hq : q = p
            · subst hq
              simp only [if_true, List.cons.injEq, true_and, hc]
              by_cases hqs : qs = ps
              · simp [hqs]
              · simp [hqs, IH qs hqs]
            · simp [hq]

/-- The node of the key exists and is a leaf: nodes off the path of the key. -/
theorem deletePath_leaf_nodeAt_off :
    ∀ (ps : List GoString) (node target : FuzzyTrie V),
      nodeAt node ps = some target → target.children = [] →
        match deletePath node ps with
        | .notFound => False
        | .kept node' => ∀ qs, ¬ qs <+: ps → nodeAt node' qs = nodeAt node qs
        | .pruned => ∀ qs, ¬ qs <+: ps → nodeAt node qs = none := by
  intro ps
  induction ps with
  | nil =>
    intro node target h hleaf
    simp only [nodeAt, Option.some.injEq] at h
    subst h
    simp only [deletePath, isLeaf_of_children_nil node hleaf, if_true]
    intro qs hqs
    cases qs with
    | nil => exact absurd List.nil_prefix hqs
    | cons q qs => rw [nodeAt_cons, hleaf]; rfl
  | cons p ps ih =>
    intro node target h hleaf
    rw [nodeAt_cons] at h
    cases hc : lookupChild p node.children with
    | none => simp [hc] at h
    | some c =>
      simp only [hc] at h
      rw [deletePath_cons_some node c p ps hc]
      have IH := ih c target h hleaf
      cases hr : deletePath c ps with
      | notFound => simp [hr] at IH
      | kept c' =>
        simp only [hr] at IH
        simp only [deleteBack]
        intro qs hqs
        cases qs with
        | nil => exact absurd List.nil_prefix hqs
        | cons q qs =>
          rw [nodeAt_cons, nodeAt_cons]
          simp only [children_mk, lookupChild_setChild]
          by_cases hq : q = p
          · subst hq
            simp only [if_true, hc]
            exact IH qs (fun hpre => hqs (List.cons_prefix_cons.2 ⟨rfl, hpre⟩))
          · simp [hq]
      | pruned =>
        simp only [hr] at IH
        rw [deleteBack_pruned]
        by_cases hcond : ((deleteChild p node.children).isEmpty && node.value.isNone) = true
        · simp only [hcond, if_true]
          simp only [Bool.and_eq_true, List.isEmpty_iff, Option.isNone_iff_eq_none] at hcond
          intro qs hqs
          cases qs with
          | nil => exact absurd List.nil_prefix hqs
          | cons q qs =>
            rw [nodeAt_cons]
            by_cases hq : q = p
            · subst hq
              simp only [hc]
              exact IH qs (fun hpre => hqs (List.cons_prefix_cons.2 ⟨rfl, hpre⟩))
            · rw [lookupChild_of_deleteChild_nil p q _ hcond.1 hq]
        · simp only [hcond, Bool.false_eq_true, if_false]
          intro qs hqs
          cases qs with
          | nil => exact absurd List.nil_prefix hqs
          | cons q qs =>
            rw [nodeAt_cons, nodeAt_cons]
            simp only [children_mk, lookupChild_deleteChild]
            by_cases hq : q = p
            · subst hq
              simp only [if_true, hc]
              exact (IH qs (fun hpre => hqs (List.cons_prefix_cons.2 ⟨rfl, hpre⟩))).symm
            · simp [hq]

/-- The node of the key exists and is a leaf: the ancestors of the node.  One that
holds a value or has a child off the path stays, with its value. -/
theorem deletePath_leaf_ancestor :
    ∀ (ps : List GoString) (node target : FuzzyTrie V),
      nodeAt node ps = some target → target.children = [] →
        match deletePath node ps with
        | .notFound => False
        | .kept node' =>
          ∀ (qs : List GoString) (p : GoString) (rest : List GoString) (a : FuzzyTrie V),
            ps = qs ++ p :: rest → nodeAt node qs = some a →
              (a.value.isSome = true ∨ ∃ kc ∈ a.children, kc.1 ≠ p) →
                ∃ a', nodeAt node' qs = some a' ∧ a'.value = a.value
        | .pruned =>
          ∀ (qs : List GoString) (p : GoString) (rest : List GoString) (a : FuzzyTrie V),
            ps = qs ++ p :: rest → nodeAt node qs = some a →
              a.value = none ∧ ∀ kc ∈ a.children, kc.1 = p := by
  intro ps
  induction ps with
  | nil =>
    intro node target h hleaf
    simp only [nodeAt, Option.some.injEq] at h
    subst h
    simp only [deletePath, isLeaf_of_children_nil node hleaf, if_true]
    intro qs p rest a heq
    simp at heq
  | cons p0 ps ih =>
    intro node target h hleaf
    rw [nodeAt_cons] at h
    cases hc : lookupChild p0 node.children with
    | none => simp [hc] at h
    | some c =>
      simp only [hc] at h
      rw [deletePath_cons_some node c p0 ps hc]
      have IH := ih c target h hleaf
      cases hr : deletePath c ps with
      | notFound => simp [hr] at IH
      | kept c' =>
        simp only [hr] at IH
        simp only [deleteBack]
        intro qs p rest a heq ha hcond
        cases qs with
        | nil =>
          simp only [nodeAt, Option.some.injEq] at ha
          subst ha
          exact ⟨_, rfl, rfl⟩
        | cons q qs =>
          simp only [List.cons_append, List.cons.injEq] at heq
          obtain ⟨hq, hps⟩ := heq
          subst hq
          rw [nodeAt_cons, hc] at ha
          rw [nodeAt_cons]
          simp only [children_mk, lookupChild_setChild, if_true]
          exact IH qs p rest a hps ha hcond
      | pruned =>
        simp only [hr] at IH
        rw [deleteBack_pruned]
        by_cases hcond : ((deleteChild p0 node.children).isEmpty && node.value.isNone) = true
        · simp only [hcond, if_true]
          simp only [Bool.and_eq_true, List.isEmpty_iff, Option.isNone_iff_eq_none] at hcond
          intro qs p rest a heq ha
          cases qs with
          | nil =>
            simp only [nodeAt, Option.some.injEq] at ha
            subst ha
            simp only [List.nil_append, List.cons.injEq] at heq
            obtain ⟨hp, _⟩ := heq
            subst hp
            refine ⟨hcond.2, ?_⟩
            intro kc hkc
            by_contra hne
            have hmem : kc ∈ deleteChild p0 node.children := by
              unfold deleteChild
              exact List.mem_filter.2 ⟨hkc, by simpa using hne⟩
            rw [hcond.1] at hmem
            exact absurd hmem (List.not_mem_nil _)
          | cons q qs =>
            simp only [List.cons_append, List.cons.injEq] at heq
            obtain ⟨hq, hps⟩ := heq
            subst hq
            rw [nodeAt_cons, hc] at ha
            exact IH qs p rest a hps ha
        · simp only [hcond, Bool.false_eq_true, if_false]
          intro qs p rest a heq ha hval
          cases qs with
          | nil =>
            simp only [nodeAt, Option.some.injEq] at ha
            subst ha
            exact ⟨_, rfl, rfl⟩
          | cons q qs =>
            simp only [List.cons_append, List.cons.injEq] at heq
            obtain ⟨hq, hps⟩ := heq
            subst hq
            rw [nodeAt_cons, hc] at ha
            obtain ⟨hv, hk⟩ := IH qs p rest a hps ha
            rcases hval with hsome | ⟨kc, hkc, hne⟩
            · rw [hv] at hsome
              simp at hsome
            · exact absurd (hk kc hkc) hne

/-! ### Delete at the root -/

theorem getPath_empty (qs : List GoString) : getPath (mk none [] : FuzzyTrie V) qs = none :=
  getPath_New qs

theorem nodeAt_of_getPath_some (t : FuzzyTrie V) (ps : List GoString) (v : V)
    (h : getPath t ps = some v) : ∃ target, nodeAt t ps = some target := by
  unfold getPath at h
  cases hn : nodeAt t ps with
  | none => simp [hn] at h
  | some a => exact ⟨a, rfl⟩

theorem delOutcome_fst_of_nodeAt (t target : FuzzyTrie V) (ps : List GoString)
    (h : nodeAt t ps = some target) : (delOutcome t (deletePath t ps)).1 = true := by
  have := deletePath_found_of_nodeAt ps t target h
  cases hd : deletePath t ps with
  | notFound => exact absurd hd this
  | kept a => rfl
  | pruned => rfl

theorem getPath_delOutcome_self (t target : FuzzyTrie V) (ps : List GoString)
    (h : nodeAt t ps = some target) :
    getPath (delOutcome t (deletePath t ps)).2 ps = none := by
  cases hl : target.isLeaf with
  | false =>
    rw [deletePath_inner ps t target h hl]
    have := getPath_replaceAt_under (mk none [] : FuzzyTrie V) [] ps t target h
    simpa [delOutcome] using this
  | true =>
    have hleaf : target.children = [] := by
      simpa [isLeaf] using hl
    have := deletePath_leaf_getPath ps t target h hleaf
    cases hd : deletePath t ps with
    | notFound => simp [hd] at this
    | kept a =>
      simp only [hd] at this
      simp [delOutcome, this ps]
    | pruned => exact getPath_empty ps

/-! ### The default segmenter -/

theorem PathSegmenter_outside (path : GoString) (i : Int)
    (h : i < 0 ∨ (path.length : Int) ≤ i) : PathSegmenter path i = ([], -1) := by
  unfold PathSegmenter
  have : path.length = 0 ∨ i < 0 ∨ i > (path.length : Int) - 1 := by
    rcases h with h | h
    · exact Or.inr (Or.inl h)
    · exact Or.inr (Or.inr (by omega))
  simp only [this, if_true]

theorem PathSegmenter_inside (path : GoString) (i : Nat) (hi : i < path.length) :
    PathSegmenter path (i : Int) =
      if (path.drop (i + 1)).indexOf '/' = (path.drop (i + 1)).length then (path.drop i, -1)
      else ((path.drop i).take ((path.drop (i + 1)).indexOf '/' + 1),
        ((i + (path.drop (i + 1)).indexOf '/' + 1 : Nat) : Int)) := by
  unfold PathSegmenter
  have : ¬ (path.length = 0 ∨ (i : Int) < 0 ∨ (i : Int) > (path.length : Int) - 1) := by
    omega
  simp only [this, if_false, Int.toNat_ofNat]
  split_ifs
  · rfl
  · simp only [Prod.mk.injEq, true_and]
    push_cast
    ring

theorem not_mem_take_indexOf (c : Char) (l : List Char) : c ∉ l.take (l.indexOf c) := by
  induction l with
  | nil => simp
  | cons a l ih =>
    by_cases h : a = c
    · subst h
      simp [List.indexOf_cons_self]
    · rw [List.indexOf_cons_ne _ h]
      simp only [List.take_succ_cons, List.mem_cons, not_or]
      exact ⟨fun e => h e.symm, ih⟩

theorem segments_succ (seg : StringSegmenter) (key : GoString) (n : Nat) (i : Int) :
    segments seg key (n + 1) i =
      if (seg key i).1 = [] then some []
      else (segments seg key n (seg key i).2).map (fun ps => (seg key i).1 :: ps) := rfl

theorem segments_mono (seg : StringSegmenter) (key : GoString) :
    ∀ (n m : Nat) (i : Int) (ps : List GoString), n ≤ m →
      segments seg key n i = some ps → segments seg key m i = some ps := by
  intro n
  induction n with
  | zero => intro m i ps _ h; simp [segments] at h
  | succ n ih =>
    intro m i ps hle h
    obtain ⟨m', rfl⟩ : ∃ m', m = m' + 1 := ⟨m - 1, by omega⟩
    simp only [segments] at h ⊢
    by_cases hp : (seg key i).1 = []
    · simpa [hp] using h
    · simp only [hp, if_false] at h ⊢
      cases hs : segments seg key n (seg key i).2 with
      | none => simp [hs] at h
      | some qs =>
        rw [ih m' _ qs (by omega) hs]
        simpa [hs] using h

/-- The default segmenter reaches the end of every key, and the segments it yields
are non-empty pieces of the key, in order, with no `/` after their first
character. -/
theorem segments_PathSegmenter_from (key : GoString) :
    ∀ (m i : Nat), key.length ≤ i + m →
      ∃ ps, segments PathSegmenter key (m + 1) (i : Int) = some ps ∧
        ps.flatten = key.drop i ∧ ∀ p ∈ ps, p ≠ [] ∧ '/' ∉ p.tail := by
  intro m
  induction m with
  | zero =>
    intro i h
    refine ⟨[], ?_, ?_, ?_⟩
    · simp [segments, PathSegmenter_outside key i (Or.inr (by omega))]
    · simp [List.drop_eq_nil_of_le (show key.length ≤ i by omega)]
    · simp
  | succ m ih =>
    intro i h
    by_cases hi : key.length ≤ i
    · refine ⟨[], ?_, ?_, ?_⟩
      · simp [segments, PathSegmenter_outside key i (Or.inr (by omega))]
      · simp [List.drop_eq_nil_of_le hi]
      · simp
    · have hi' : i < key.length := by omega
      have hne : key.drop i ≠ [] := by
        intro e
        have := congrArg List.length e
        simp at this
        omega
      have htail : (key.drop i).tail = key.drop (i + 1) := by
        simp [List.tail_drop]
      by_cases he : (key.drop (i + 1)).indexOf '/' = (key.drop (i + 1)).length
      · have hstep : PathSegmenter key (i : Int) = (key.drop i, -1) := by
          rw [PathSegmenter_inside key i hi']
          simp only [he, if_true]
        refine ⟨[key.drop i], ?_, ?_, ?_⟩
        · rw [segments_succ, hstep]
          simp only [hne, if_false]
          rw [segments_succ, PathSegmenter_outside key (-1) (Or.inl (by omega))]
          simp
        · simp
        · intro p hp
          simp only [List.mem_singleton] at hp
          subst hp
          refine ⟨hne, ?_⟩
          rw [htail]
          exact List.indexOf_eq_length.1 he
      · have hstep : PathSegmenter key (i : Int) =
            ((key.drop i).take ((key.drop (i + 1)).indexOf '/' + 1),
              ((i + (key.drop (i + 1)).indexOf '/' + 1 : Nat) : Int)) := by
          rw [PathSegmenter_inside key i hi']
          simp only [he, if_false]
        have hpart : (key.drop i).take ((key.drop (i + 1)).indexOf '/' + 1) ≠ [] := by
          intro e
          have := congrArg List.length e
          simp at this
          omega
        obtain ⟨ps, hps, hjoin, hall⟩ := ih (i + (key.drop (i + 1)).indexOf '/' + 1) (by omega)
        refine ⟨(key.drop i).take ((key.drop (i + 1)).indexOf '/' + 1) :: ps, ?_, ?_, ?_⟩
        · rw [segments_succ, hstep]
          simp only [hpart, if_false, hps, Option.map_some']
        · simp only [List.flatten_cons, hjoin]
          have : key.drop (i + (key.drop (i + 1)).indexOf '/' + 1) =
              (key.drop i).drop ((key.drop (i + 1)).indexOf '/' + 1) := by
            rw [List.drop_drop]
            congr 1
          rw [this, List.take_append_drop]
        · intro p hp
          rcases List.mem_cons.1 hp with hp | hp
          · subst hp
            refine ⟨hpart, ?_⟩
            have : ((key.drop i).take ((key.drop (i + 1)).indexOf '/' + 1)).tail =
                (key.drop (i + 1)).take ((key.drop (i + 1)).indexOf '/') := by
              rw [← htail]
              cases key.drop i with
              | nil => simp
              | cons a l => simp
            rw [this]
            exact not_mem_take_indexOf _ _
          · exact hall p hp

theorem segments_PathSegmenter (key : GoString) :
    ∃ ps, segments PathSegmenter key (key.length + 1) 0 = some ps ∧
      ps.flatten = key ∧ ∀ p ∈ ps, p ≠ [] ∧ '/' ∉ p.tail := by
  have := segments_PathSegmenter_from key key.length 0 (by omega)
  simpa using this

/-! ### Delete never adds an entry -/

theorem getPath_mk_nil (v : Option V) (q : GoString) (qs : List GoString) :
    getPath (mk v []) (q :: qs) = none := by
  rw [getPath_cons]; rfl

theorem getPath_deletePath_mono :
    ∀ (ps : List GoString) (node : FuzzyTrie V),
      match deletePath node ps with
      | .notFound => True
      | .kept node' => ∀ qs, getPath node' qs = none ∨ getPath node' qs = getPath node qs
      | .pruned => True := by
  intro ps
  induction ps with
  | nil =>
    intro node
    cases hl : node.isLeaf with
    | true => simp [deletePath, hl]
    | false =>
      simp only [deletePath, hl, Bool.false_eq_true, if_false]
      intro qs
      exact Or.inl (getPath_empty qs)
  | cons p ps ih =>
    intro node
    cases hc : lookupChild p node.children with
    | none =>
      rw [deletePath_cons_none node p ps hc]
      unfold deleteMissing
      split_ifs
      · trivial
      · intro qs
        cases qs with
        | nil => exact Or.inr rfl
        | cons q qs => exact Or.inl (getPath_mk_nil _ q qs)
      · intro qs
        cases qs with
        | nil => exact Or.inr rfl
        | cons q qs =>
          rw [getPath_cons, getPath_cons]
          simp only [children_mk]
          rw [lookupChild_filter (fun k => !HasPrefix k (TrimSuffix p ['*'])) q node.children]
          split_ifs
          · exact Or.inr rfl
          · exact Or.inl rfl
    | some c =>
      rw [deletePath_cons_some node c p ps hc]
      have IH := ih c
      cases hr : deletePath c ps with
      | notFound => simp [deleteBack]
      | kept c' =>
        simp only [hr] at IH
        simp only [deleteBack]
        intro qs
        cases qs with
        | nil => exact Or.inr rfl
        | cons q qs =>
          rw [getPath_cons, getPath_cons]
          simp only [children_mk, lookupChild_setChild]
          by_cases hq : q = p
          · subst hq
            simpa [hc] using IH qs
          · simp [hq]
      | pruned =>
        rw [deleteBack_pruned]
        split_ifs
        · trivial
        · intro qs
          cases qs with
          | nil => exact Or.inr rfl
          | cons q qs =>
            rw [getPath_cons, getPath_cons]
            simp only [children_mk, lookupChild_deleteChild]
            by_cases hq : q = p
            · simp [hq]
            · simp [hq]

theorem getPath_delOutcome_mono (t : FuzzyTrie V) (ps qs : List GoString) :
    getPath (delOutcome t (deletePath t ps)).2 qs = none ∨
      getPath (delOutcome t (deletePath t ps)).2 qs = getPath t qs := by
  have := getPath_deletePath_mono ps t
  cases hd : deletePath t ps with
  | notFound => exact Or.inr rfl
  | kept a =>
    simp only [hd] at this
    exact this qs
  | pruned => exact Or.inl (getPath_empty qs)

theorem getPath_putPath_rejected (val : Option V) (node : FuzzyTrie V) (ps qs : List GoString)
    (h : (putPath val node ps).1 = false) :
    getPath (putPath val node ps).2 qs = getPath node qs := by
  induction ps generalizing node qs with
  | nil => simp [putPath] at h
  | cons p ps ih =>
    cases hstar : HasSuffix p ['*'] with
    | true => simp [putPath, hstar]
    | false =>
      simp only [putPath, hstar, Bool.false_eq_true, if_false] at h ⊢
      cases qs with
      | nil => rfl
      | cons q qs =>
        rw [getPath_cons, getPath_cons]
        dsimp only [children_mk]
        rw [lookupChild_setChild]
        by_cases hq : q = p
        · subst hq
          simp only [if_true, ih _ qs h]
          cases lookupChild q node.children with
          | none => simp [getPath_New]
          | some c => simp
        · simp [hq]

/-! ### Sequences of calls -/

theorem applyOp_put (t : FuzzyTrie V) (key : GoString) (val : Option V) :
    ∃ ps, segments PathSegmenter key (key.length + 1) 0 = some ps ∧ ps.flatten = key ∧
      applyOp t (.put key val) = some (putPath val t ps).2 := by
  obtain ⟨ps, hps, hj, _⟩ := segments_PathSegmenter key
  refine ⟨ps, hps, hj, ?_⟩
  simp [applyOp, Put_of_segments PathSegmenter key val _ t ps hps]

theorem applyOp_delete (t : FuzzyTrie V) (key : GoString) :
    ∃ ps, segments PathSegmenter key (key.length + 1) 0 = some ps ∧
      applyOp t (.delete key) = some (delOutcome t (deletePath t ps)).2 := by
  obtain ⟨ps, hps, _, _⟩ := segments_PathSegmenter key
  refine ⟨ps, hps, ?_⟩
  simp [applyOp, Delete_of_segments PathSegmenter key _ t ps hps]

theorem run_total (ops : List (Op V)) : ∀ t : FuzzyTrie V, ∃ t', run ops t = some t' := by
  induction ops with
  | nil => intro t; exact ⟨t, rfl⟩
  | cons op ops ih =>
    intro t
    cases op with
    | put key val =>
      obtain ⟨ps, _, _, h⟩ := applyOp_put t key val
      obtain ⟨t', ht'⟩ := ih (putPath val t ps).2
      exact ⟨t', by simp [run, h, ht']⟩
    | delete key =>
      obtain ⟨ps, _, h⟩ := applyOp_delete t key
      obtain ⟨t', ht'⟩ := ih (delOutcome t (deletePath t ps)).2
      exact ⟨t', by simp [run, h, ht']⟩

/-- Every entry of the trie after a sequence of calls was there before or sits at
the segment sequence of a key that was put. -/
theorem run_entries (ops : List (Op V)) :
    ∀ (t t' : FuzzyTrie V), run ops t = some t' → ∀ (qs : List GoString),
      getPath t' qs ≠ none →
        getPath t qs ≠ none ∨ ∃ key val, Op.put key val ∈ ops ∧ qs.flatten = key := by
  induction ops with
  | nil =>
    intro t t' h qs hq
    simp only [run, Option.some.injEq] at h
    subst h
    exact Or.inl hq
  | cons op ops ih =>
    intro t t' h qs hq
    cases op with
    | put key val =>
      obtain ⟨ps, _, hj, ha⟩ := applyOp_put t key val
      simp only [run, ha, Option.some_bind] at h
      rcases ih _ t' h qs hq with h1 | ⟨k, v, hmem, hk⟩
      · cases hacc : (putPath val t ps).1 with
        | false =>
          rw [getPath_putPath_rejected val t ps qs hacc] at h1
          exact Or.inl h1
        | true =>
          rw [getPath_putPath val t ps qs hacc] at h1
          by_cases hqs : qs = ps
          · subst hqs
            exact Or.inr ⟨key, val, List.mem_cons_self _ _, hj⟩
          · simp only [hqs, if_false] at h1
            exact Or.inl h1
      · exact Or.inr ⟨k, v, List.mem_cons_of_mem _ hmem, hk⟩
    | delete key =>
      obtain ⟨ps, _, ha⟩ := applyOp_delete t key
      simp only [run, ha, Option.some_bind] at h
      rcases ih _ t' h qs hq with h1 | ⟨k, v, hmem, hk⟩
      · rcases getPath_delOutcome_mono t ps qs with h2 | h2
        · exact absurd h2 h1
        · rw [h2] at h1
          exact Or.inl h1
      · exact Or.inr ⟨k, v, List.mem_cons_of_mem _ hmem, hk⟩

/-! ### No stored key ends in `*` -/

theorem noStar_mk (v : Option V) (cs : List (GoString × FuzzyTrie V)) :
    noStar (mk v cs) = noStarChildren cs := by
  simp [noStar]

theorem noStar_iff (t : FuzzyTrie V) : noStar t = noStarChildren t.children := by
  cases t with
  | mk v cs => exact noStar_mk v cs

theorem noStarChildren_cons (k : GoString) (c : FuzzyTrie V)
    (rest : List (GoString × FuzzyTrie V)) :
    noStarChildren ((k, c) :: rest) =
      (!HasSuffix k ['*'] && noStar c && noStarChildren rest) := by
  simp [noStarChildren]

theorem noStar_New : noStar (NewFuzzyTrie : FuzzyTrie V) = true := by
  simp [NewFuzzyTrie, noStar, noStarChildren]

theorem noStarChildren_lookupChild (p : GoString) (c : FuzzyTrie V) :
    ∀ cs : List (GoString × FuzzyTrie V), noStarChildren cs = true →
      lookupChild p cs = some c → HasSuffix p ['*'] = false ∧ noStar c = true := by
  intro cs
  induction cs with
  | nil => intro _ h; simp [lookupChild] at h
  | cons kc rest ih =>
    obtain ⟨k, c0⟩ := kc
    intro hns h
    rw [noStarChildren_cons] at hns
    simp only [Bool.and_eq_true, Bool.not_eq_true'] at hns
    by_cases hk : k = p
    · subst hk
      simp only [lookupChild, if_true, Option.some.injEq] at h
      subst h
      exact ⟨hns.1.1, hns.1.2⟩
    · simp only [lookupChild, hk, if_false] at h
      exact ih hns.2 h

theorem noStarChildren_lookupChild_star (w : GoString) (hw : HasSuffix w ['*'] = true)
    (cs : List (GoString × FuzzyTrie V)) (hns : noStarChildren cs = true) :
    lookupChild w cs = none := by
  cases h : lookupChild w cs with
  | none => rfl
  | some c =>
    have := (noStarChildren_lookupChild w c cs hns h).1
    rw [hw] at this
    exact absurd this (by simp)

theorem noStarChildren_setChild (p : GoString) (c : FuzzyTrie V)
    (hp : HasSuffix p ['*'] = false) (hc : noStar c = true) :
    ∀ cs : List (GoString × FuzzyTrie V), noStarChildren cs = true →
      noStarChildren (setChild p c cs) = true := by
  intro cs
  induction cs with
  | nil =>
    intro _
    simp [setChild, noStarChildren_cons, hp, hc, noStarChildren]
  | cons kc rest ih =>
    obtain ⟨k, c0⟩ := kc
    intro hns
    rw [noStarChildren_cons] at hns
    simp only [Bool.and_eq_true, Bool.not_eq_true'] at hns
    by_cases hk : k = p
    · simp [setChild, hk, noStarChildren_cons, hp, hc, hns.2]
    · simp [setChild, hk, noStarChildren_cons, hns.1.1, hns.1.2, ih hns.2]

theorem noStarChildren_filter (f : GoString × FuzzyTrie V → Bool) :
    ∀ cs : List (GoString × FuzzyTrie V), noStarChildren cs = true →
      noStarChildren (cs.filter f) = true := by
  intro cs
  induction cs with
  | nil => intro h; simpa using h
  | cons kc rest ih =>
    obtain ⟨k, c0⟩ := kc
    intro hns
    rw [noStarChildren_cons] at hns
    simp only [Bool.and_eq_true, Bool.not_eq_true'] at hns
    cases hf : f (k, c0) with
    | false => simpa [List.filter, hf] using ih hns.2
    | true => simp [List.filter, hf, noStarChildren_cons, hns.1.1, hns.1.2, ih hns.2]

theorem noStar_putPath (val : Option V) :
    ∀ (ps : List GoString) (node : FuzzyTrie V), noStar node = true →
      noStar (putPath val node ps).2 = true := by
  intro ps
  induction ps with
  | nil =>
    intro node h
    rw [noStar_iff] at h
    simpa [putPath, noStar_mk] using h
  | cons p ps ih =>
    intro node h
    cases hstar : HasSuffix p ['*'] with
    | true => simpa [putPath, hstar] using h
    | false =>
      simp only [putPath, hstar, Bool.false_eq_true, if_false]
      rw [noStar_mk]
      rw [noStar_iff] at h
      apply noStarChildren_setChild p _ hstar _ _ h
      apply ih
      cases hl : lookupChild p node.children with
      | none => exact noStar_New
      | some c => exact (noStarChildren_lookupChild p c _ h hl).2

theorem noStar_deletePath :
    ∀ (ps : List GoString) (node : FuzzyTrie V), noStar node = true →
      match deletePath node ps with
      | .notFound => True
      | .kept node' => noStar node' = true
      | .pruned => True := by
  intro ps
  induction ps with
  | nil =>
    intro node _
    cases hl : node.isLeaf <;> simp [deletePath, hl, noStar_mk, noStarChildren]
  | cons p ps ih =>
    intro node h
    rw [noStar_iff] at h
    cases hc : lookupChild p node.children with
    | none =>
      rw [deletePath_cons_none node p ps hc]
      unfold deleteMissing
      split_ifs
      · trivial
      · simp [noStar_mk, noStarChildren]
      · simpa [noStar_mk] using noStarChildren_filter _ _ h
    | some c =>
      rw [deletePath_cons_some node c p ps hc]
      obtain ⟨hp, hcn⟩ := noStarChildren_lookupChild p c _ h hc
      have IH := ih c hcn
      cases hr : deletePath c ps with
      | notFound => simp [deleteBack]
      | kept c' =>
        simp only [hr] at IH
        simpa [deleteBack, noStar_mk] using noStarChildren_setChild p c' hp IH _ h
      | pruned =>
        rw [deleteBack_pruned]
        split_ifs
        · trivial
        · simpa [noStar_mk, deleteChild] using noStarChildren_filter _ _ h

theorem noStar_run (ops : List (Op V)) :
    ∀ t t' : FuzzyTrie V, run ops t = some t' → noStar t = true → noStar t' = true := by
  induction ops with
  | nil =>
    intro t t' h hn
    simp only [run, Option.some.injEq] at h
    subst h
    exact hn
  | cons op ops ih =>
    intro t t' h hn
    cases op with
    | put key val =>
      obtain ⟨ps, _, _, ha⟩ := applyOp_put t key val
      simp only [run, ha, Option.some_bind] at h
      exact ih _ t' h (noStar_putPath val ps t hn)
    | delete key =>
      obtain ⟨ps, _, ha⟩ := applyOp_delete t key
      simp only [run, ha, Option.some_bind] at h
      apply ih _ t' h
      have := noStar_deletePath ps t hn
      cases hd : deletePath t ps with
      | notFound => simpa [delOutcome] using hn
      | kept a =>
        simp only [hd] at this
        simpa [delOutcome] using this
      | pruned => simp [delOutcome, noStar_mk, noStarChildren]

theorem noStar_nodeAt :
    ∀ (qs : List GoString) (t a : FuzzyTrie V), noStar t = true → nodeAt t qs = some a →
      noStar a = true := by
  intro qs
  induction qs with
  | nil =>
    intro t a h ha
    simp only [nodeAt, Option.some.injEq] at ha
    subst ha
    exact h
  | cons q qs ih =>
    intro t a h ha
    rw [nodeAt_cons] at ha
    rw [noStar_iff] at h
    cases hc : lookupChild q t.children with
    | none => simp [hc] at ha
    | some c =>
      simp only [hc] at ha
      exact ih c a (noStarChildren_lookupChild q c _ h hc).2 ha

/-- In a trie built from `NewFuzzyTrie`, no node has a child for a segment that
ends in `*`. -/
theorem lookupChild_star_of_run (ops : List (Op V)) (t a : FuzzyTrie V)
    (hrun : run ops (NewFuzzyTrie : FuzzyTrie V) = some t) (qs : List GoString)
    (ha : nodeAt t qs = some a) (w : GoString) (hw : HasSuffix w ['*'] = true) :
    lookupChild w a.children = none := by
  have h1 := noStar_run ops _ t hrun noStar_New
  have h2 := noStar_nodeAt qs t a h1 ha
  rw [noStar_iff] at h2
  exact noStarChildren_lookupChild_star w hw _ h2

theorem nodeAt_replaceAt_under (new : FuzzyTrie V) (rs : List GoString) :
    ∀ (ps : List GoString) (node target : FuzzyTrie V), nodeAt node ps = some target →
      nodeAt (replaceAt new node ps) (ps ++ rs) = nodeAt new rs := by
  intro ps
  induction ps with
  | nil => intro node target _; rfl
  | cons p ps ih =>
    intro node target h
    rw [nodeAt_cons] at h
    cases hc : lookupChild p node.children with
    | none => simp [hc] at h
    | some c =>
      simp only [hc] at h
      simp only [replaceAt, hc, List.cons_append]
      rw [nodeAt_cons]
      simp only [children_mk, lookupChild_setChild, if_true]
      exact ih c target h

/-! ### A key followed by one more `/`-segment -/

theorem segments_PathSegmenter_end (key : GoString) (m : Nat) :
    segments PathSegmenter key (m + 1) (-1) = some [] := by
  rw [segments_succ, PathSegmenter_outside key (-1) (Or.inl (by omega))]
  simp

theorem segments_PathSegmenter_last (key : GoString) (j m : Nat) (hj : j < key.length)
    (h : '/' ∉ key.drop (j + 1)) :
    segments PathSegmenter key (m + 2) (j : Int) = some [key.drop j] := by
  have hne : key.drop j ≠ [] := by
    intro e
    have := congrArg List.length e
    simp at this
    omega
  rw [segments_succ, PathSegmenter_inside key j hj]
  simp only [List.indexOf_eq_length.2 h, if_true, hne, if_false]
  rw [segments_PathSegmenter_end]
  rfl

theorem drop_ne_nil_of_lt (p : GoString) (i : Nat) (hi : i < p.length) : p.drop i ≠ [] := by
  intro e
  have := congrArg List.length e
  simp at this
  omega

theorem PathSegmenter_last (p : GoString) (i : Nat) (hi : i < p.length)
    (he : '/' ∉ p.drop (i + 1)) : PathSegmenter p (i : Int) = (p.drop i, -1) := by
  rw [PathSegmenter_inside p i hi]
  simp only [List.indexOf_eq_length.2 he, if_true]

theorem PathSegmenter_inner (p : GoString) (i : Nat) (hi : i < p.length)
    (he : '/' ∈ p.drop (i + 1)) :
    PathSegmenter p (i : Int) =
      ((p.drop i).take ((p.drop (i + 1)).indexOf '/' + 1),
        ((i + (p.drop (i + 1)).indexOf '/' + 1 : Nat) : Int)) := by
  rw [PathSegmenter_inside p i hi]
  have : ¬ (p.drop (i + 1)).indexOf '/' = (p.drop (i + 1)).length :=
    fun e => List.indexOf_eq_length.1 e he
  simp only [this, if_false]

theorem segments_PathSegmenter_append (p w : GoString) (hw : '/' ∉ w) :
    ∀ (m i : Nat) (ps : List GoString), i < p.length →
      segments PathSegmenter p (m + 1) (i : Int) = some ps →
        segments PathSegmenter (p ++ '/' :: w) (m + 2) (i : Int) = some (ps ++ ['/' :: w]) := by
  intro m
  induction m with
  | zero =>
    intro i ps hi h
    have hne := drop_ne_nil_of_lt p i hi
    by_cases he : '/' ∈ p.drop (i + 1)
    · rw [segments_succ, PathSegmenter_inner p i hi he] at h
      have hpart : (p.drop i).take ((p.drop (i + 1)).indexOf '/' + 1) ≠ [] := by
        intro e
        have := congrArg List.length e
        simp at this
        omega
      simp [hpart, segments] at h
    · rw [segments_succ, PathSegmenter_last p i hi he] at h
      simp [hne, segments] at h
  | succ m ih =>
    intro i ps hi h
    have hiK : i < (p ++ '/' :: w).length := by
      simp only [List.length_append, List.length_cons]
      omega
    have hdropK : ∀ j, j ≤ p.length → (p ++ '/' :: w).drop j = p.drop j ++ '/' :: w :=
      fun j hj => List.drop_append_of_le_length hj
    have hne := drop_ne_nil_of_lt p i hi
    have hlen : (p.drop i).length = (p.drop (i + 1)).length + 1 := by
      simp only [List.length_drop]
      omega
    have hmemK : '/' ∈ (p ++ '/' :: w).drop (i + 1) := by
      rw [hdropK (i + 1) (by omega)]
      simp
    rw [segments_succ, PathSegmenter_inner _ i hiK hmemK, hdropK (i + 1) (by omega),
      hdropK i (by omega)]
    by_cases he : '/' ∈ p.drop (i + 1)
    · have hlt : (p.drop (i + 1)).indexOf '/' < (p.drop (i + 1)).length :=
        List.indexOf_lt_length.2 he
      have hpart : (p.drop i).take ((p.drop (i + 1)).indexOf '/' + 1) ≠ [] := by
        intro e
        have := congrArg List.length e
        simp at this
        omega
      rw [segments_succ, PathSegmenter_inner p i hi he] at h
      simp only [hpart, if_false] at h
      have hidx : (p.drop (i + 1) ++ '/' :: w).indexOf '/' = (p.drop (i + 1)).indexOf '/' :=
        List.indexOf_append_of_mem he
      have htake : (p.drop i ++ '/' :: w).take ((p.drop (i + 1)).indexOf '/' + 1) =
          (p.drop i).take ((p.drop (i + 1)).indexOf '/' + 1) :=
        List.take_append_of_le_length (by omega)
      rw [hidx, htake]
      simp only [hpart, if_false]
      cases hs : segments PathSegmenter p (m + 1)
          ((i + (p.drop (i + 1)).indexOf '/' + 1 : Nat) : Int) with
      | none =>
        rw [hs] at h
        simp at h
      | some qs =>
        rw [hs] at h
        simp only [Option.map_some', Option.some.injEq] at h
        subst h
        have hnext : i + (p.drop (i + 1)).indexOf '/' + 1 < p.length := by
          simp only [List.length_drop] at hlt
          omega
        rw [ih _ qs hnext hs]
        rfl
    · -- the last segment of `p`
      rw [segments_succ, PathSegmenter_last p i hi he] at h
      simp only [hne, if_false] at h
      rw [segments_PathSegmenter_end] at h
      simp only [Option.map_some', Option.some.injEq] at h
      subst h
      have hidx : (p.drop (i + 1) ++ '/' :: w).indexOf '/' = (p.drop (i + 1)).length := by
        rw [List.indexOf_append_of_not_mem he, List.indexOf_cons_self]
        rfl
      have htake : (p.drop i ++ '/' :: w).take ((p.drop (i + 1)).length + 1) = p.drop i :=
        List.take_left' hlen
      have hnext : i + (p.drop (i + 1)).length + 1 = p.length := by
        simp only [List.length_drop]
        omega
      rw [hidx, htake, hnext]
      simp only [hne, if_false]
      have hlast := segments_PathSegmenter_last (p ++ '/' :: w) p.length m
        (by simp only [List.length_append, List.length_cons]; omega)
        (by
          have : (p ++ '/' :: w).drop (p.length + 1) = w := by
            rw [← List.drop_drop, List.drop_left]
            rfl
          rw [this]
          exact hw)
      rw [hlast, List.drop_left]
      rfl

theorem segments_PathSegmenter_snoc (p w : GoString) (hw : '/' ∉ w) (ps : List GoString)
    (hps : segments PathSegmenter p (p.length + 1) 0 = some ps) :
    segments PathSegmenter (p ++ '/' :: w) ((p ++ '/' :: w).length + 1) 0 =
      some (ps ++ ['/' :: w]) := by
  cases p with
  | nil =>
    simp only [segments_succ, PathSegmenter_outside [] 0 (Or.inr (by simp))] at hps
    simp only [if_true, Option.some.injEq] at hps
    subst hps
    have := segments_PathSegmenter_last ('/' :: w) 0 w.length (by simp) (by simpa using hw)
    simpa using this
  | cons a p =>
    have h := segments_PathSegmenter_append (a :: p) w hw (a :: p).length 0 ps (by simp)
      (by simpa using hps)
    apply segments_mono PathSegmenter _ _ _ _ _ _ h
    simp only [List.length_append, List.length_cons]
    omega

/-! ### Wildcard delete -/

theorem run_canonicalOps : run canonicalOps NewFuzzyTrie = some canonical8 := rfl

theorem HasSuffix_snoc_star (q : GoString) : HasSuffix (q ++ ['*']) ['*'] = true := by
  unfold HasSuffix
  rw [List.isSuffixOf_iff_suffix]
  exact List.suffix_append q ['*']

theorem TrimSuffix_snoc_star (q : GoString) : TrimSuffix (q ++ ['*']) ['*'] = q := by
  unfold TrimSuffix
  rw [HasSuffix_snoc_star]
  simp

theorem dropWhile_IsSpace_snoc_star (q : GoString) :
    (q ++ ['*']).dropWhile IsSpace = q.dropWhile IsSpace ++ ['*'] := by
  induction q with
  | nil => rfl
  | cons a q ih =>
    cases ha : IsSpace a with
    | true => simp only [List.cons_append, List.dropWhile_cons, ha, if_true, ih]
    | false => simp [List.dropWhile_cons, ha]

theorem TrimSpace_snoc_star (q : GoString) :
    TrimSpace (q ++ ['*']) = q.dropWhile IsSpace ++ ['*'] := by
  unfold TrimSpace
  rw [dropWhile_IsSpace_snoc_star, List.reverse_append]
  have : IsSpace '*' = false := rfl
  simp [List.dropWhile_cons, this]

theorem eq_slash_star_of_TrimSpace (q : GoString) (h : '/' ∉ (q ++ ['*']).tail)
    (ht : TrimSpace (q ++ ['*']) = ['/', '*']) : q ++ ['*'] = ['/', '*'] := by
  rw [TrimSpace_snoc_star] at ht
  have hd : q.dropWhile IsSpace = ['/'] := by
    have : q.dropWhile IsSpace ++ ['*'] = ['/'] ++ ['*'] := ht
    exact List.append_cancel_right this
  have hq : q.takeWhile IsSpace ++ ['/'] = q := by
    rw [← hd]
    exact List.takeWhile_append_dropWhile IsSpace q
  cases hw : q.takeWhile IsSpace with
  | nil =>
    rw [hw] at hq
    rw [← hq]
    rfl
  | cons a ws =>
    rw [hw] at hq
    rw [← hq] at h
    simp at h

theorem deleteMissing_slash_star (parent : FuzzyTrie V) :
    deleteMissing parent ['/', '*'] = .kept (mk parent.value []) := by
  have h1 : HasSuffix ['/', '*'] ['*'] = true := rfl
  have h2 : TrimSpace ['/', '*'] = ['/', '*'] := rfl
  simp [deleteMissing, h1, h2]

theorem deleteMissing_snoc_star (parent : FuzzyTrie V) (q : GoString)
    (h : '/' ∉ (q ++ ['*']).tail) (hq : q ++ ['*'] ≠ ['/', '*']) :
    deleteMissing parent (q ++ ['*']) =
      .kept (mk parent.value (parent.children.filter (fun kc => !HasPrefix kc.1 q))) := by
  have h2 : ¬ TrimSpace (q ++ ['*']) = ['/', '*'] :=
    fun e => hq (eq_slash_star_of_TrimSpace q h e)
  simp only [deleteMissing, HasSuffix_snoc_star, Bool.not_true, Bool.false_eq_true, if_false,
    h2, TrimSuffix_snoc_star]

theorem getPath_of_nodeAt (t a : FuzzyTrie V) (ps rs : List GoString)
    (h : nodeAt t ps = some a) : getPath t (ps ++ rs) = getPath a rs := by
  unfold getPath
  rw [nodeAt_append, h]
  rfl

theorem nodeAt_mk_filter (v : Option V) (cs : List (GoString × FuzzyTrie V))
    (f : GoString → Bool) (c : GoString) (rest : List GoString) :
    nodeAt (mk v (cs.filter (fun kc => f kc.1))) (c :: rest) =
      if f c then nodeAt (mk v cs) (c :: rest) else none := by
  rw [nodeAt_cons, nodeAt_cons]
  simp only [children_mk]
  rw [lookupChild_filter f c cs]
  split_ifs <;> rfl

/-! ### When Delete reports not found -/

theorem deleteMissing_eq_notFound (node : FuzzyTrie V) (p : GoString) :
    deleteMissing node p = .notFound ↔ HasSuffix p ['*'] = false := by
  unfold deleteMissing
  cases h : HasSuffix p ['*'] with
  | true =>
    simp only [Bool.not_true, Bool.false_eq_true, if_false]
    split_ifs <;> simp
  | false => simp

theorem deletePath_eq_notFound :
    ∀ (ps : List GoString) (node : FuzzyTrie V), deletePath node ps = .notFound →
      ∃ (qs : List GoString) (p : GoString) (rest : List GoString) (a : FuzzyTrie V),
        ps = qs ++ p :: rest ∧ nodeAt node qs = some a ∧
          lookupChild p a.children = none ∧ HasSuffix p ['*'] = false := by
  intro ps
  induction ps with
  | nil =>
    intro node h
    cases hl : node.isLeaf <;> simp [deletePath, hl] at h
  | cons p ps ih =>
    intro node h
    cases hc : lookupChild p node.children with
    | none =>
      rw [deletePath_cons_none node p ps hc] at h
      exact ⟨[], p, ps, node, rfl, rfl, hc, (deleteMissing_eq_notFound node p).1 h⟩
    | some c =>
      rw [deletePath_cons_some node c p ps hc] at h
      obtain ⟨qs, q, rest, a, hps, ha, hq, hstar⟩ :=
        ih c (deleteBack_eq_notFound node p _ h)
      refine ⟨p :: qs, q, rest, a, by rw [hps]; rfl, ?_, hq, hstar⟩
      rw [nodeAt_cons, hc]
      exact ha

theorem lookupChild_isSome_of_nodeAt_snoc (t : FuzzyTrie V) :
    ∀ (qs : List GoString) (p : GoString) (rest : List GoString) (a b : FuzzyTrie V),
      nodeAt t qs = some a → nodeAt t (qs ++ p :: rest) = some b →
        (lookupChild p a.children).isSome = true := by
  intro qs p rest a b ha hb
  rw [nodeAt_append, ha] at hb
  simp only [Option.some_bind, nodeAt_cons] at hb
  cases hl : lookupChild p a.children with
  | none => simp [hl] at hb
  | some c => rfl

theorem noStarChildren_mem :
    ∀ cs : List (GoString × FuzzyTrie V), noStarChildren cs = true →
      ∀ kc ∈ cs, HasSuffix kc.1 ['*'] = false := by
  intro cs
  induction cs with
  | nil => intro _ kc h; simp at h
  | cons kc0 rest ih =>
    obtain ⟨k, c0⟩ := kc0
    intro hns kc hkc
    rw [noStarChildren_cons] at hns
    simp only [Bool.and_eq_true, Bool.not_eq_true'] at hns
    rcases List.mem_cons.1 hkc with h | h
    · subst h
      exact hns.1.1
    · exact ih hns.2 kc h

theorem nodeAt_star_of_noStar :
    ∀ (ps : List GoString) (t : FuzzyTrie V), noStar t = true →
      (∃ p ∈ ps, HasSuffix p ['*'] = true) → nodeAt t ps = none := by
  intro ps
  induction ps with
  | nil => intro t _ h; simp at h
  | cons p ps ih =>
    intro t hns h
    rw [nodeAt_cons]
    rw [noStar_iff] at hns
    cases hc : lookupChild p t.children with
    | none => rfl
    | some c =>
      obtain ⟨hp, hcn⟩ := noStarChildren_lookupChild p c _ hns hc
      obtain ⟨q, hq, hstar⟩ := h
      rcases List.mem_cons.1 hq with e | e
      · subst e
        rw [hp] at hstar
        exact absurd hstar (by simp)
      · exact ih c hcn ⟨q, e, hstar⟩

/-! ### Walk and the visitor -/

theorem runVisits_append {σ ε : Type} (walker : WalkFunc V σ ε)
    (l1 l2 : List (GoString × Option V)) (s : σ) :
    runVisits walker (l1 ++ l2) s =
      match runVisits walker l1 s with
      | (s', some err) => (s', some err)
      | (s', none) => runVisits walker l2 s' := by
  induction l1 generalizing s with
  | nil => rfl
  | cons e es ih =>
    simp only [List.cons_append, runVisits]
    rcases walker e.1 e.2 s with ⟨s', _ | err⟩
    · exact ih s'
    · rfl

theorem runVisits_recordVisits {ε : Type} (l s : List (GoString × Option V)) :
    runVisits (recordVisits : WalkFunc V _ ε) l s = (s ++ l, none) := by
  induction l generalizing s with
  | nil => simp [runVisits]
  | cons e es ih =>
    show runVisits (recordVisits : WalkFunc V _ ε) es (s ++ [(e.1, e.2)]) = _
    rw [ih]
    simp

theorem runVisits_never_fails {σ ε : Type} (walker : WalkFunc V σ ε)
    (h : ∀ key v s, (walker key v s).2 = none) (l : List (GoString × Option V)) (s : σ) :
    (runVisits walker l s).2 = none := by
  induction l generalizing s with
  | nil => rfl
  | cons e es ih =>
    simp only [runVisits]
    have := h e.1 e.2 s
    rcases hw : walker e.1 e.2 s with ⟨s', _ | err⟩
    · exact ih s'
    · rw [hw] at this
      simp at this

mutual

theorem walk_eq_runVisits {σ ε : Type} (walker : WalkFunc V σ ε) :
    ∀ (t : FuzzyTrie V) (key : GoString) (s : σ),
      walk walker t key s = runVisits walker (entries t key) s
  | mk val cs, key, s => by
    cases val with
    | none =>
      simp only [walk, entries, List.nil_append]
      exact walkChildren_eq_runVisits walker cs key s
    | some v =>
      simp only [walk, entries, List.singleton_append, runVisits]
      rcases walker key (some v) s with ⟨s', _ | err⟩
      · exact walkChildren_eq_runVisits walker cs key s'
      · rfl

theorem walkChildren_eq_runVisits {σ ε : Type} (walker : WalkFunc V σ ε) :
    ∀ (cs : List (GoString × FuzzyTrie V)) (key : GoString) (s : σ),
      walkChildren walker cs key s = runVisits walker (entriesChildren cs key) s
  | [], key, s => by simp [walkChildren, entriesChildren, runVisits]
  | (part, child) :: rest, key, s => by
    simp only [walkChildren, entriesChildren]
    rw [runVisits_append, walk_eq_runVisits walker child (key ++ part) s]
    rcases runVisits walker (entries child (key ++ part)) s with ⟨s', _ | err⟩
    · exact walkChildren_eq_runVisits walker rest key s'
    · rfl
end

theorem Walk_recordVisits {ε : Type} (t : FuzzyTrie V) :
    Walk t (recordVisits : WalkFunc V _ ε) [] = (entries t [], none) := by
  unfold Walk
  rw [walk_eq_runVisits, runVisits_recordVisits]
  rfl

/-! ### WalkPath and the visitor -/

theorem walkMatching_eq_runVisits {σ ε : Type} (walker : WalkFunc V σ ε) (pre : GoString)
    (keep : GoString → Bool) (cs : List (GoString × FuzzyTrie V)) (s : σ) :
    walkMatching walker pre keep cs s =
      runVisits walker
        ((cs.filter (fun kc => keep kc.1)).map (fun kc => (pre ++ kc.1, kc.2.value))) s := by
  induction cs generalizing s with
  | nil => rfl
  | cons kc rest ih =>
    obtain ⟨k1, v⟩ := kc
    cases hk : keep k1 with
    | false => simp only [walkMatching, hk, List.filter, Bool.false_eq_true, if_false, ih]
    | true =>
      simp only [walkMatching, hk, List.filter, if_true, List.map_cons, runVisits]
      rcases walker (pre ++ k1) v.value s with ⟨s', _ | err⟩
      · exact ih s'
      · rfl

theorem recordVisits_apply {ε : Type} (key : GoString) (v : Option V)
    (s : List (GoString × Option V)) :
    (recordVisits : WalkFunc V _ ε) key v s = (s ++ [(key, v)], none) := rfl

theorem finishWith_append {σ ε : Type} (walker : WalkFunc V σ ε)
    (l1 l2 : List (GoString × Option V)) (s : σ) (o : Outcome ε) :
    finishWith (runVisits walker (l1 ++ l2) s) o =
      match runVisits walker l1 s with
      | (s', some err) => (s', .returned (some err))
      | (s', none) => finishWith (runVisits walker l2 s') o := by
  rw [runVisits_append]
  rcases runVisits walker l1 s with ⟨s', _ | err⟩ <;> rfl

/-- The calls of `walkPathLoop` do not depend on the visitor: what the recording
visitor sees is what any visitor is called with, up to its first error. -/
theorem walkPathLoop_of_recordVisits {ε : Type} (seg : StringSegmenter) (key : GoString) :
    ∀ (n : Nat) (node : Option (FuzzyTrie V)) (i : Int) (s0 l : List (GoString × Option V))
      (o : Outcome ε),
      walkPathLoop seg key recordVisits n node i s0 = some (l, o) →
        ∃ l', l = s0 ++ l' ∧
          ∀ (σ : Type) (walker : WalkFunc V σ ε) (s : σ),
            walkPathLoop seg key walker n node i s =
              some (finishWith (runVisits walker l' s) o) := by
  intro n
  induction n with
  | zero => intro node i s0 l o h; simp [walkPathLoop] at h
  | succ n ih =>
    intro node i s0 l o h
    simp only [walkPathLoop] at h ⊢
    by_cases hp : (seg key i).1 = []
    · simp only [hp, if_true, Option.some.injEq, Prod.mk.injEq] at h ⊢
      obtain ⟨h1, h2⟩ := h
      subst h1 h2
      exact ⟨[], by simp, fun σ walker s => rfl⟩
    · simp only [hp, if_false] at h ⊢
      cases node with
      | none =>
        simp only [Option.some.injEq, Prod.mk.injEq] at h ⊢
        obtain ⟨h1, h2⟩ := h
        subst h1 h2
        exact ⟨[], by simp, fun σ walker s => rfl⟩
      | some parent =>
        simp only at h ⊢
        by_cases hb : (seg key i).2 ≠ -1 ∧
            ((seg key i).2 < 0 ∨ (key.length : Int) < (seg key i).2)
        · rw [if_pos hb] at h
          simp only [Option.some.injEq, Prod.mk.injEq] at h
          obtain ⟨h1, h2⟩ := h
          subst h1 h2
          exact ⟨[], by simp, fun σ walker s => by rw [if_pos hb]; rfl⟩
        · rw [if_neg hb] at h
          simp only [if_neg hb]
          cases hl : lookupChild (seg key i).1 parent.children with
          | none =>
            simp only [hl] at h ⊢
            cases hstar : HasSuffix (seg key i).1 ['*'] with
            | false =>
              simp only [hstar, Bool.not_false, if_true, Option.some.injEq,
                Prod.mk.injEq] at h ⊢
              obtain ⟨h1, h2⟩ := h
              subst h1 h2
              exact ⟨[], by simp, fun σ walker s => rfl⟩
            | true =>
              simp only [hstar, Bool.not_true, Bool.false_eq_true, if_false] at h ⊢
              -- both loops over the children are `runVisits` on a list of calls
              obtain ⟨m, hm⟩ : ∃ m : List (GoString × Option V),
                  ∀ (σ : Type) (walker : WalkFunc V σ ε) (s : σ),
                    (if (seg key i).1 = ['/', '*'] then
                      walkMatching walker
                        (TrimSuffix (if (seg key i).2 = -1 then key
                          else key.take (seg key i).2.toNat) (seg key i).1)
                        (fun _ => true) parent.children s
                    else
                      walkMatching walker
                        (TrimSuffix (if (seg key i).2 = -1 then key
                          else key.take (seg key i).2.toNat) (seg key i).1)
                        (fun k1 => HasPrefix k1 (TrimSuffix (seg key i).1 ['*']))
                        parent.children s) = runVisits walker m s := by
                by_cases hs : (seg key i).1 = ['/', '*']
                · exact ⟨_, fun σ walker s => by
                    simp only [hs, if_true]
                    exact walkMatching_eq_runVisits walker _ _ _ s⟩
                · exact ⟨_, fun σ walker s => by
                    simp only [hs, if_false]
                    exact walkMatching_eq_runVisits walker _ _ _ s⟩
              simp only [hm] at h ⊢
              rw [runVisits_recordVisits] at h
              simp only at h
              by_cases hj : (seg key i).2 = -1
              · simp only [hj, if_true, Option.some.injEq, Prod.mk.injEq] at h ⊢
                obtain ⟨h1, h2⟩ := h
                subst h1 h2
                refine ⟨m, rfl, fun σ walker s => ?_⟩
                rcases runVisits walker m s with ⟨s', _ | err⟩ <;> rfl
              · simp only [hj, if_false] at h ⊢
                obtain ⟨l', hl', hw⟩ := ih none _ _ l o h
                refine ⟨m ++ l', by rw [hl', List.append_assoc], fun σ walker s => ?_⟩
                rw [finishWith_append]
                rcases runVisits walker m s with ⟨s', _ | err⟩
                · exact hw σ walker s'
                · rfl
          | some child =>
            simp only [hl] at h ⊢
            cases hv : child.value with
            | none =>
              simp only [hv] at h ⊢
              by_cases hj : (seg key i).2 = -1
              · simp only [hj, if_true, Option.some.injEq, Prod.mk.injEq] at h ⊢
                obtain ⟨h1, h2⟩ := h
                subst h1 h2
                exact ⟨[], by simp, fun σ walker s => rfl⟩
              · simp only [hj, if_false] at h ⊢
                exact ih (some child) _ _ l o h
            | some v =>
              simp only [hv] at h ⊢
              simp only [recordVisits_apply] at h
              by_cases hj : (seg key i).2 = -1
              · simp only [hj, if_true, Option.some.injEq, Prod.mk.injEq] at h ⊢
                obtain ⟨h1, h2⟩ := h
                subst h1 h2
                refine ⟨[(key, some v)], rfl, fun σ walker s => ?_⟩
                simp only [runVisits]
                rcases walker key (some v) s with ⟨s', _ | err⟩ <;> rfl
              · simp only [hj, if_false] at h ⊢
                obtain ⟨l', hl', hw⟩ := ih (some child) _ _ l o h
                refine ⟨(key.take (seg key i).2.toNat, some v) :: l',
                  by rw [hl']; simp, fun σ walker s => ?_⟩
                simp only [runVisits]
                rcases walker (key.take (seg key i).2.toNat) (some v) s with ⟨s', _ | err⟩
                · exact hw σ walker s'
                · rfl

theorem WalkPath_of_recordVisits {ε : Type} (seg : StringSegmenter) (n : Nat)
    (t : FuzzyTrie V) (key : GoString) (l : List (GoString × Option V)) (o : Outcome ε)
    (h : WalkPath seg n t key recordVisits [] = some (l, o)) :
    ∀ (σ : Type) (walker : WalkFunc V σ ε) (s : σ),
      WalkPath seg n t key walker s = some (finishWith (runVisits walker l s) o) := by
  unfold WalkPath at h ⊢
  cases hv : t.value with
  | none =>
    simp only [hv] at h ⊢
    obtain ⟨l', hl', hw⟩ := walkPathLoop_of_recordVisits seg key n (some t) 0 [] l o h
    simp only [List.nil_append] at hl'
    subst hl'
    exact hw
  | some v =>
    simp only [hv, recordVisits_apply] at h ⊢
    obtain ⟨l', hl', hw⟩ := walkPathLoop_of_recordVisits seg key n (some t) 0 _ l o h
    subst hl'
    intro σ walker s
    simp only [List.nil_append, List.singleton_append, runVisits]
    rcases walker [] (some v) s with ⟨s', _ | err⟩
    · exact hw σ walker s'
    · rfl

theorem runVisits_first_error {σ ε : Type} (walker : WalkFunc V σ ε)
    (l1 l2 : List (GoString × Option V)) (e : GoString × Option V) (s s1 s2 : σ) (err : ε)
    (h1 : runVisits walker l1 s = (s1, none)) (h2 : walker e.1 e.2 s1 = (s2, some err)) :
    runVisits walker (l1 ++ e :: l2) s = (s2, some err) := by
  rw [runVisits_append, h1]
  simp only [runVisits, h2]

/-! ### WalkPath with the default segmenter -/

theorem PathSegmenter_step (key : GoString) (i : Nat) (hi : i < key.length) :
    (PathSegmenter key (i : Int)).1 ≠ [] ∧
      key.take (i + (PathSegmenter key (i : Int)).1.length) =
        key.take i ++ (PathSegmenter key (i : Int)).1 ∧
      (((PathSegmenter key (i : Int)).2 = -1 ∧
          i + (PathSegmenter key (i : Int)).1.length = key.length) ∨
        ((PathSegmenter key (i : Int)).2 =
            ((i + (PathSegmenter key (i : Int)).1.length : Nat) : Int) ∧
          i + (PathSegmenter key (i : Int)).1.length < key.length)) := by
  have hne := drop_ne_nil_of_lt key i hi
  by_cases he : '/' ∈ key.drop (i + 1)
  · rw [PathSegmenter_inner key i hi he]
    have hlt : (key.drop (i + 1)).indexOf '/' < (key.drop (i + 1)).length :=
      List.indexOf_lt_length.2 he
    simp only [List.length_drop] at hlt
    have hlen : ((key.drop i).take ((key.drop (i + 1)).indexOf '/' + 1)).length =
        (key.drop (i + 1)).indexOf '/' + 1 := by
      simp only [List.length_take, List.length_drop]
      omega
    refine ⟨?_, ?_, Or.inr ⟨?_, ?_⟩⟩
    · intro e
      have := congrArg List.length e
      rw [hlen] at this
      simp at this
    · simp only [hlen]
      rw [List.take_add]
    · simp only [hlen]
      congr 1
    · simp only [hlen]
      omega
  · rw [PathSegmenter_last key i hi he]
    have hlen : i + (key.drop i).length = key.length := by
      simp only [List.length_drop]
      omega
    refine ⟨hne, ?_, Or.inl ⟨rfl, hlen⟩⟩
    simp only [hlen, List.take_length, List.take_append_drop]

theorem TrimSuffix_append_self (a w : GoString) : TrimSuffix (a ++ w) w = a := by
  unfold TrimSuffix
  have : HasSuffix (a ++ w) w = true := by
    unfold HasSuffix
    rw [List.isSuffixOf_iff_suffix]
    exact List.suffix_append a w
  simp [this]

theorem walkMatching_recordVisits {ε : Type} (pre : GoString) (keep : GoString → Bool)
    (cs : List (GoString × FuzzyTrie V)) (s : List (GoString × Option V)) :
    walkMatching (recordVisits : WalkFunc V _ ε) pre keep cs s =
      (s ++ (cs.filter (fun kc => keep kc.1)).map (fun kc => (pre ++ kc.1, kc.2.value)),
        none) := by
  rw [walkMatching_eq_runVisits, runVisits_recordVisits]

theorem walkPathLoop_nil_part {σ ε : Type} (seg : StringSegmenter) (key : GoString)
    (walker : WalkFunc V σ ε) (n : Nat) (node : Option (FuzzyTrie V)) (i : Int) (s : σ)
    (h : (seg key i).1 = []) :
    walkPathLoop seg key walker (n + 1) node i s = some (s, .returned none) := by
  simp only [walkPathLoop, h, if_true]

theorem walkPathLoop_nil_node {σ ε : Type} (seg : StringSegmenter) (key : GoString)
    (walker : WalkFunc V σ ε) (n : Nat) (i : Int) (s : σ) (h : (seg key i).1 ≠ []) :
    walkPathLoop seg key walker (n + 1) none i s = some (s, .panicked) := by
  simp only [walkPathLoop, h, if_false]

/-- One iteration of the loop of `WalkPath` that does not panic, with the recording
visitor: `k` is the prefix of the key consumed so far. -/
theorem walkPathLoop_step {ε : Type} (seg : StringSegmenter) (key : GoString) (n : Nat)
    (parent : FuzzyTrie V) (i : Int) (s : List (GoString × Option V)) (k : GoString)
    (hp : (seg key i).1 ≠ [])
    (hb : ¬ ((seg key i).2 ≠ -1 ∧ ((seg key i).2 < 0 ∨ (key.length : Int) < (seg key i).2)))
    (hk : (if (seg key i).2 = -1 then key else key.take (seg key i).2.toNat) = k) :
    walkPathLoop seg key (recordVisits : WalkFunc V _ ε) (n + 1) (some parent) i s =
      match lookupChild (seg key i).1 parent.children with
      | none =>
        if !HasSuffix (seg key i).1 ['*'] then some (s, .returned none)
        else
          if (seg key i).2 = -1 then
            some (s ++ (parent.children.filter (fun kc => keepFor (seg key i).1 kc.1)).map
              (fun kc => (TrimSuffix k (seg key i).1 ++ kc.1, kc.2.value)), .returned none)
          else
            walkPathLoop seg key recordVisits n none (seg key i).2
              (s ++ (parent.children.filter (fun kc => keepFor (seg key i).1 kc.1)).map
                (fun kc => (TrimSuffix k (seg key i).1 ++ kc.1, kc.2.value)))
      | some child =>
        if (seg key i).2 = -1 then some (s ++ valueEntry child k, .returned none)
        else walkPathLoop seg key recordVisits n (some child) (seg key i).2
          (s ++ valueEntry child k) := by
  rw [walkPathLoop]
  simp only [hp, if_false]
  rw [if_neg hb, hk]
  cases hl : lookupChild (seg key i).1 parent.children with
  | none =>
    simp only
    cases hstar : HasSuffix (seg key i).1 ['*'] with
    | false => simp
    | true =>
      simp only [Bool.not_true, Bool.false_eq_true, if_false]
      by_cases hs : (seg key i).1 = ['/', '*']
      · simp only [hs, if_true, walkMatching_recordVisits, keepFor]
      · simp only [hs, if_false, walkMatching_recordVisits, keepFor]
  | some child =>
    simp only
    cases hv : child.value with
    | none => simp [valueEntry, hv]
    | some v => simp [valueEntry, hv, recordVisits_apply]

theorem segments_ne_nil (seg : StringSegmenter) (key : GoString) (n : Nat) (i : Int)
    (ps : List GoString) (h : segments seg key n i = some ps) (hp : (seg key i).1 ≠ []) :
    ps ≠ [] := by
  cases n with
  | zero => simp [segments] at h
  | succ n =>
    rw [segments_succ] at h
    simp only [hp, if_false] at h
    cases hr : segments seg key n (seg key i).2 with
    | none => simp [hr] at h
    | some rest =>
      simp only [hr, Option.map_some', Option.some.injEq] at h
      subst h
      simp

theorem walkPathLoop_PathSegmenter {ε : Type} (key : GoString) :
    ∀ (m i : Nat) (node : FuzzyTrie V) (s0 : List (GoString × Option V))
      (ps : List GoString),
      segments PathSegmenter key (m + 1) (i : Int) = some ps →
        walkPathLoop PathSegmenter key (recordVisits : WalkFunc V _ ε) (m + 1) (some node)
            (i : Int) s0 =
          some (s0 ++ (pathEntries node (key.take i) ps).1,
            outcomeOf (pathEntries node (key.take i) ps).2) := by
  intro m
  induction m with
  | zero =>
    intro i node s0 ps h
    rw [segments_succ] at h
    by_cases hp : (PathSegmenter key (i : Int)).1 = []
    · simp only [hp, if_true, Option.some.injEq] at h
      subst h
      rw [walkPathLoop_nil_part _ _ _ _ _ _ _ hp]
      simp [pathEntries, outcomeOf]
    · simp [hp, segments] at h
  | succ m ih =>
    intro i node s0 ps h
    rw [segments_succ] at h
    by_cases hi : i < key.length
    · obtain ⟨hp, htake, hj⟩ := PathSegmenter_step key i hi
      simp only [hp, if_false] at h
      cases hr : segments PathSegmenter key (m + 1) (PathSegmenter key (i : Int)).2 with
      | none => simp [hr] at h
      | some rest =>
        simp only [hr, Option.map_some', Option.some.injEq] at h
        subst h
        have hb : ¬ ((PathSegmenter key (i : Int)).2 ≠ -1 ∧
            ((PathSegmenter key (i : Int)).2 < 0 ∨
              (key.length : Int) < (PathSegmenter key (i : Int)).2)) := by
          rcases hj with ⟨h1, _⟩ | ⟨h1, h2⟩
          · simp [h1]
          · rw [h1]
            omega
        have hk : (if (PathSegmenter key (i : Int)).2 = -1 then key
            else key.take (PathSegmenter key (i : Int)).2.toNat) =
              key.take i ++ (PathSegmenter key (i : Int)).1 := by
          rcases hj with ⟨h1, h2⟩ | ⟨h1, h2⟩
          · simp only [h1, if_true]
            rw [← htake, h2, List.take_length]
          · have hne : ¬ (PathSegmenter key (i : Int)).2 = -1 := by
              rw [h1]
              omega
            simp only [hne, if_false]
            rw [h1, Int.toNat_ofNat, htake]
        rw [walkPathLoop_step PathSegmenter key (m + 1) node (i : Int) s0 _ hp hb hk]
        simp only [TrimSuffix_append_self]
        cases hl : lookupChild (PathSegmenter key (i : Int)).1 node.children with
        | none =>
          simp only [pathEntries, hl]
          cases hstar : HasSuffix (PathSegmenter key (i : Int)).1 ['*'] with
          | false => simp [outcomeOf]
          | true =>
            simp only [Bool.not_true, Bool.false_eq_true, if_false]
            rcases hj with ⟨h1, _⟩ | ⟨h1, h2⟩
            · rw [h1, segments_PathSegmenter_end] at hr
              simp only [Option.some.injEq] at hr
              subst hr
              simp [h1, outcomeOf]
            · have hne : ¬ (PathSegmenter key (i : Int)).2 = -1 := by
                rw [h1]
                omega
              simp only [hne, if_false]
              rw [h1] at hr ⊢
              obtain ⟨hp2, _, _⟩ := PathSegmenter_step key _ h2
              rw [walkPathLoop_nil_node _ _ _ _ _ _ hp2]
              have hrest := segments_ne_nil PathSegmenter key _ _ rest hr hp2
              cases rest with
              | nil => exact absurd rfl hrest
              | cons r rest2 => simp [outcomeOf]
        | some child =>
          simp only [pathEntries, hl]
          rcases hj with ⟨h1, _⟩ | ⟨h1, h2⟩
          · rw [h1, segments_PathSegmenter_end] at hr
            simp only [Option.some.injEq] at hr
            subst hr
            simp [h1, pathEntries, outcomeOf]
          · have hne : ¬ (PathSegmenter key (i : Int)).2 = -1 := by
              rw [h1]
              omega
            simp only [hne, if_false]
            rw [h1] at hr ⊢
            rw [ih _ child _ rest hr, htake, List.append_assoc]
    · have hp : (PathSegmenter key (i : Int)).1 = [] := by
        rw [PathSegmenter_outside key i (Or.inr (by omega))]
      simp only [hp, if_true, Option.some.injEq] at h
      subst h
      rw [walkPathLoop_nil_part _ _ _ _ _ _ _ hp]
      simp [pathEntries, outcomeOf]

/-- With the default segmenter `WalkPath` always ends within the fuel, and the
recording visitor sees the root, when it has a value, and then the calls of
`pathEntries` along the segments of the key. -/
theorem WalkPath_PathSegmenter {ε : Type} (t : FuzzyTrie V) (key : GoString)
    (ps : List GoString) (hps : segments PathSegmenter key (key.length + 1) 0 = some ps) :
    WalkPath PathSegmenter (key.length + 1) t key (recordVisits : WalkFunc V _ ε) [] =
      some (valueEntry t [] ++ (pathEntries t [] ps).1, outcomeOf (pathEntries t [] ps).2) := by
  have h := walkPathLoop_PathSegmenter (ε := ε) key key.length 0 t
  simp only [Nat.cast_zero, List.take_zero] at h
  unfold WalkPath
  cases hv : t.value with
  | none =>
    simp only [valueEntry, hv, List.nil_append]
    rw [h [] ps hps]
    rfl
  | some v =>
    simp only [valueEntry, hv, recordVisits_apply, List.nil_append]
    rw [h _ ps hps]

/-! ### The calls of WalkPath along a path -/

theorem keepFor_eq (w c : GoString) :
    keepFor w c = if w = ['/', '*'] then true else HasPrefix c (TrimSuffix w ['*']) := by
  unfold keepFor
  split_ifs <;> rfl

/-- The valued nodes along a path: one call for every prefix of the segment sequence
at which `Get` finds a value, shortest prefix first. -/
theorem pathEntries_literal :
    ∀ (ps : List GoString) (node : FuzzyTrie V) (pre : GoString),
      (∀ p ∈ ps, HasSuffix p ['*'] = false) →
        (pathEntries node pre ps).2 = false ∧
          valueEntry node pre ++ (pathEntries node pre ps).1 =
            ps.inits.filterMap
              (fun qs => (getPath node qs).map (fun v => (pre ++ qs.flatten, some v))) := by
  intro ps
  induction ps with
  | nil =>
    intro node pre _
    refine ⟨rfl, ?_⟩
    cases hv : node.value <;> simp [pathEntries, valueEntry, hv]
  | cons p ps ih =>
    intro node pre hlit
    have hp : HasSuffix p ['*'] = false := hlit p (List.mem_cons_self _ _)
    have hhead : valueEntry node pre =
        ((getPath node []).map
          (fun v => (pre ++ ([] : List GoString).flatten, some v))).toList := by
      cases hv : node.value <;> simp [valueEntry, hv]
    rw [List.inits_cons, List.filterMap_cons, List.filterMap_map]
    cases hc : lookupChild p node.children with
    | none =>
      have hnone : ∀ qs : List GoString, getPath node (p :: qs) = none := by
        intro qs
        rw [getPath_cons, hc]
      refine ⟨by simp [pathEntries, hc, hp], ?_⟩
      have hf : List.filterMap
          ((fun qs => (getPath node qs).map (fun v => (pre ++ qs.flatten, some v))) ∘
            fun t => p :: t) ps.inits = [] := by
        apply List.filterMap_eq_nil_iff.2
        intro qs _
        simp [hnone qs]
      rw [hf]
      cases hv : node.value <;> simp [pathEntries, hc, hp, valueEntry, hv]
    | some c =>
      obtain ⟨h2, h1⟩ := ih c (pre ++ p) (fun q hq => hlit q (List.mem_cons_of_mem _ hq))
      refine ⟨by simp [pathEntries, hc, h2], ?_⟩
      have hf : List.filterMap
          ((fun qs => (getPath node qs).map (fun v => (pre ++ qs.flatten, some v))) ∘
            fun t => p :: t) ps.inits =
          ps.inits.filterMap
            (fun qs => (getPath c qs).map (fun v => (pre ++ p ++ qs.flatten, some v))) := by
        apply List.filterMap_congr
        intro qs _
        simp [getPath_cons, hc, List.append_assoc]
      rw [hf, ← h1]
      cases hv : node.value <;> simp [pathEntries, hc, valueEntry, hv]

/-- The path to an existing node followed by a wildcard segment that has no child:
the valued nodes along the path, then the selected children of the node. -/
theorem pathEntries_wildcard (w : GoString) (hw : HasSuffix w ['*'] = true) :
    ∀ (ps : List GoString) (node parent : FuzzyTrie V) (pre : GoString),
      nodeAt node ps = some parent → lookupChild w parent.children = none →
        (pathEntries node pre (ps ++ [w])).2 = false ∧
          valueEntry node pre ++ (pathEntries node pre (ps ++ [w])).1 =
            ps.inits.filterMap
                (fun qs => (getPath node qs).map (fun v => (pre ++ qs.flatten, some v))) ++
              (parent.children.filter (fun kc => keepFor w kc.1)).map
                (fun kc => (pre ++ ps.flatten ++ kc.1, kc.2.value)) := by
  intro ps
  induction ps with
  | nil =>
    intro node parent pre hn hmiss
    simp only [nodeAt, Option.some.injEq] at hn
    subst hn
    refine ⟨by simp [pathEntries, hmiss, hw], ?_⟩
    cases hv : node.value <;> simp [pathEntries, hmiss, hw, valueEntry, hv]
  | cons p ps ih =>
    intro node parent pre hn hmiss
    rw [nodeAt_cons] at hn
    cases hc : lookupChild p node.children with
    | none => simp [hc] at hn
    | some c =>
      simp only [hc] at hn
      obtain ⟨h2, h1⟩ := ih c parent (pre ++ p) hn hmiss
      refine ⟨by simp [pathEntries, hc, h2], ?_⟩
      rw [List.inits_cons, List.filterMap_cons, List.filterMap_map]
      have hf : List.filterMap
          ((fun qs => (getPath node qs).map (fun v => (pre ++ qs.flatten, some v))) ∘
            fun t => p :: t) ps.inits =
          ps.inits.filterMap
            (fun qs => (getPath c qs).map (fun v => (pre ++ p ++ qs.flatten, some v))) := by
        apply List.filterMap_congr
        intro qs _
        simp [getPath_cons, hc, List.append_assoc]
      rw [hf]
      have hkey : (pathEntries node pre (p :: ps ++ [w])).1 =
          valueEntry c (pre ++ p) ++ (pathEntries c (pre ++ p) (ps ++ [w])).1 := by
        simp [pathEntries, hc]
      rw [hkey, h1]
      cases hv : node.value <;> simp [valueEntry, hv, List.append_assoc]

/-! ### Segmenting a prefix of a key -/

theorem PathSegmenter_head (key : GoString) (i : Nat) (hi : i < key.length) :
    (PathSegmenter key (i : Int)).1.head? = (key.drop i).head? := by
  rw [PathSegmenter_inside key i hi]
  split_ifs
  · rfl
  · simp only [List.head?_take]
    simp

theorem head?_drop_indexOf (l : List Char) (h : '/' ∈ l) :
    (l.drop (l.indexOf '/')).head? = some '/' := by
  induction l with
  | nil => simp at h
  | cons a l ih =>
    by_cases ha : a = '/'
    · subst ha
      simp [List.indexOf_cons_self]
    · rw [List.indexOf_cons_ne _ ha]
      simp only [List.drop_succ_cons]
      apply ih
      rcases List.mem_cons.1 h with e | e
      · exact absurd e.symm ha
      · exact e

theorem segments_cons_inv (seg : StringSegmenter) (key : GoString) (n : Nat) (i : Int)
    (p : GoString) (rest : List GoString) (h : segments seg key n i = some (p :: rest)) :
    ∃ m, n = m + 1 ∧ (seg key i).1 = p ∧ p ≠ [] ∧
      segments seg key m (seg key i).2 = some rest := by
  cases n with
  | zero => simp [segments] at h
  | succ m =>
    rw [segments_succ] at h
    by_cases hp : (seg key i).1 = []
    · simp [hp] at h
    · simp only [hp, if_false] at h
      cases hr : segments seg key m (seg key i).2 with
      | none => simp [hr] at h
      | some r =>
        simp only [hr, Option.map_some', Option.some.injEq, List.cons.injEq] at h
        obtain ⟨h1, h2⟩ := h
        subst h1 h2
        exact ⟨m, rfl, rfl, hp, hr⟩

theorem segments_PathSegmenter_heads (key : GoString) :
    ∀ (m i : Nat) (p : GoString) (rest : List GoString),
      segments PathSegmenter key m (i : Int) = some (p :: rest) →
        ∀ q ∈ rest, q.head? = some '/' := by
  intro m
  induction m with
  | zero => intro i p rest h; simp [segments] at h
  | succ m ih =>
    intro i p rest h
    obtain ⟨m', hm, hp, hpne, hrest⟩ := segments_cons_inv _ _ _ _ _ _ h
    have hm' : m' = m := by omega
    subst hm'
    clear hm
    have hi : i < key.length := by
      by_contra hn
      rw [PathSegmenter_outside key i (Or.inr (by omega))] at hp
      exact hpne hp.symm
    by_cases he : '/' ∈ key.drop (i + 1)
    · rw [PathSegmenter_inner key i hi he] at hrest
      simp only at hrest
      cases rest with
      | nil => intro q hq; simp at hq
      | cons r rest' =>
        intro q hq
        have hlt : (key.drop (i + 1)).indexOf '/' < (key.drop (i + 1)).length :=
          List.indexOf_lt_length.2 he
        simp only [List.length_drop] at hlt
        rcases List.mem_cons.1 hq with e | e
        · subst e
          obtain ⟨_, _, hr, _, _⟩ := segments_cons_inv _ _ _ _ _ _ hrest
          rw [← hr, PathSegmenter_head key _ (by omega)]
          have := head?_drop_indexOf _ he
          rw [List.drop_drop] at this
          rw [← this]
          congr 2
          omega
        · exact ih _ r rest' hrest q e
    · rw [PathSegmenter_last key i hi he] at hrest
      simp only at hrest
      cases m' with
      | zero => simp [segments] at hrest
      | succ m =>
        rw [segments_PathSegmenter_end] at hrest
        simp only [Option.some.injEq] at hrest
        subst hrest
        intro q hq
        simp at hq

theorem segments_PathSegmenter_of_pieces (key : GoString) :
    ∀ (ps : List GoString) (i m : Nat), key.drop i = ps.flatten →
      (∀ p ∈ ps, p ≠ [] ∧ '/' ∉ p.tail) → (∀ p ∈ ps.tail, p.head? = some '/') →
        ps.length ≤ m → segments PathSegmenter key (m + 1) (i : Int) = some ps := by
  intro ps
  induction ps with
  | nil =>
    intro i m hdrop _ _ _
    have hlen : key.length ≤ i := by
      have := congrArg List.length hdrop
      simp at this
      omega
    rw [segments_succ, PathSegmenter_outside key i (Or.inr (by omega))]
    simp
  | cons p rest ih =>
    intro i m hdrop hall hheads hm
    obtain ⟨hpne, hptail⟩ := hall p (List.mem_cons_self _ _)
    obtain ⟨m', rfl⟩ : ∃ m', m = m' + 1 := ⟨m - 1, by simp at hm; omega⟩
    obtain ⟨a, p', rfl⟩ : ∃ a p', p = a :: p' := by
      cases p with
      | nil => exact absurd rfl hpne
      | cons a p' => exact ⟨a, p', rfl⟩
    simp only [List.tail_cons] at hptail hheads
    have hi : i < key.length := by
      by_contra hn
      rw [List.drop_eq_nil_of_le (by omega)] at hdrop
      simp at hdrop
    have hdrop1 : key.drop (i + 1) = p' ++ rest.flatten := by
      have : key.drop (i + 1) = (key.drop i).drop 1 := by
        rw [List.drop_drop]
      rw [this, hdrop]
      simp
    cases rest with
    | nil =>
      have he : '/' ∉ key.drop (i + 1) := by
        rw [hdrop1]
        simpa using hptail
      rw [segments_succ, PathSegmenter_last key i hi he]
      have : key.drop i = a :: p' := by simpa using hdrop
      simp only [this]
      rw [segments_PathSegmenter_end]
      simp
    | cons r rest' =>
      have hr : r.head? = some '/' := hheads r (List.mem_cons_self _ _)
      obtain ⟨r', rfl⟩ : ∃ r', r = '/' :: r' := by
        cases r with
        | nil => simp at hr
        | cons b r' =>
          simp only [List.head?_cons, Option.some.injEq] at hr
          exact ⟨r', by rw [hr]⟩
      have he : '/' ∈ key.drop (i + 1) := by
        rw [hdrop1]
        simp
      have hidx : (key.drop (i + 1)).indexOf '/' = p'.length := by
        rw [hdrop1, List.indexOf_append_of_not_mem hptail]
        simp [List.indexOf_cons_self]
      rw [segments_succ, PathSegmenter_inner key i hi he, hidx]
      have htake : (key.drop i).take (p'.length + 1) = a :: p' := by
        rw [hdrop]
        simp only [List.flatten_cons]
        exact List.take_left' rfl
      simp only [htake]
      have hnext : key.drop (i + p'.length + 1) = (('/' :: r') :: rest').flatten := by
        have : key.drop (i + p'.length + 1) = (key.drop i).drop (p'.length + 1) := by
          rw [List.drop_drop]
          rfl
        rw [this, hdrop]
        simp only [List.flatten_cons]
        exact List.drop_left' rfl
      have := ih (i + p'.length + 1) m' hnext
        (fun q hq => hall q (List.mem_cons_of_mem _ hq))
        (fun q hq => hheads q (List.mem_cons_of_mem _ (by simpa using hq)))
        (by simp at hm ⊢; omega)
      rw [this]
      simp

theorem length_le_flatten_length (ps : List GoString) (h : ∀ p ∈ ps, p ≠ []) :
    ps.length ≤ ps.flatten.length := by
  induction ps with
  | nil => simp
  | cons p ps ih =>
    have hp : p ≠ [] := h p (List.mem_cons_self _ _)
    have hl : 0 < p.length := List.length_pos.2 hp
    have := ih (fun q hq => h q (List.mem_cons_of_mem _ hq))
    simp only [List.length_cons, List.flatten_cons, List.length_append]
    omega

/-- A prefix of the segment sequence of a key is the segment sequence of the
prefix of the key that it spells. -/
theorem segments_PathSegmenter_prefix (key : GoString) (ps qs : List GoString)
    (hps : segments PathSegmenter key (key.length + 1) 0 = some ps) (hq : qs <+: ps) :
    segments PathSegmenter qs.flatten (qs.flatten.length + 1) 0 = some qs ∧
      qs.flatten <+: key := by
  obtain ⟨ps0, h0, hflat, hall⟩ := segments_PathSegmenter key
  rw [hps] at h0
  have e := Option.some.inj h0
  subst e
  obtain ⟨rs, hrs⟩ := hq
  have hheads : ∀ p ∈ ps.tail, p.head? = some '/' := by
    cases ps with
    | nil => intro p hp; simp at hp
    | cons a ps' => exact segments_PathSegmenter_heads key _ 0 a ps' (by simpa using hps)
  have hqall : ∀ p ∈ qs, p ≠ [] ∧ '/' ∉ p.tail := by
    intro p hp
    apply hall
    rw [← hrs]
    exact List.mem_append_left _ hp
  have hqheads : ∀ p ∈ qs.tail, p.head? = some '/' := by
    intro p hp
    apply hheads
    rw [← hrs]
    cases qs with
    | nil => simp at hp
    | cons a qs' => simpa using Or.inl hp
  refine ⟨?_, ?_⟩
  · have := segments_PathSegmenter_of_pieces qs.flatten qs 0 qs.flatten.length (by simp)
      hqall hqheads (length_le_flatten_length qs (fun p hp => (hqall p hp).1))
    simpa using this
  · rw [← hflat, ← hrs]
    simp

theorem segments_PathSegmenter_unique (key : GoString) (ps : List GoString)
    (hps : segments PathSegmenter key (key.length + 1) 0 = some ps) :
    ps.flatten = key ∧ ∀ p ∈ ps, p ≠ [] ∧ '/' ∉ p.tail := by
  obtain ⟨ps0, h0, hflat, hall⟩ := segments_PathSegmenter key
  rw [hps] at h0
  have e := Option.some.inj h0
  subst e
  exact ⟨hflat, hall⟩

theorem WalkPath_literal_recordVisits {ε : Type} (t : FuzzyTrie V) (p : GoString)
    (ps : List GoString) (hps : segments PathSegmenter p (p.length + 1) 0 = some ps)
    (hlit : ∀ q ∈ ps, HasSuffix q ['*'] = false) :
    WalkPath PathSegmenter (p.length + 1) t p (recordVisits : WalkFunc V _ ε) [] =
      some (ps.inits.filterMap
        (fun qs => (getPath t qs).map (fun v => (qs.flatten, some v))), .returned none) := by
  rw [WalkPath_PathSegmenter t p ps hps]
  obtain ⟨h2, h1⟩ := pathEntries_literal ps t [] hlit
  rw [h1, h2]
  simp [outcomeOf]

/-! ### Nodes without value and children -/

theorem noEmpty_iff (t : FuzzyTrie V) : noEmpty t = noEmptyChildren t.children := by
  cases t with
  | mk v cs => simp [noEmpty]

theorem noEmptyChildren_cons (k : GoString) (c : FuzzyTrie V)
    (rest : List (GoString × FuzzyTrie V)) :
    noEmptyChildren ((k, c) :: rest) = (notEmpty c && noEmpty c && noEmptyChildren rest) := by
  simp [noEmptyChildren]

theorem noEmpty_New : noEmpty (NewFuzzyTrie : FuzzyTrie V) = true := by
  simp [NewFuzzyTrie, noEmpty, noEmptyChildren]

theorem noEmptyChildren_lookupChild (p : GoString) (c : FuzzyTrie V) :
    ∀ cs : List (GoString × FuzzyTrie V), noEmptyChildren cs = true →
      lookupChild p cs = some c → noEmpty c = true := by
  intro cs
  induction cs with
  | nil => intro _ h; simp [lookupChild] at h
  | cons kc rest ih =>
    obtain ⟨k, c0⟩ := kc
    intro hne h
    rw [noEmptyChildren_cons] at hne
    simp only [Bool.and_eq_true] at hne
    by_cases hk : k = p
    · simp only [lookupChild, hk, if_true, Option.some.injEq] at h
      subst h
      exact hne.1.2
    · simp only [lookupChild, hk, if_false] at h
      exact ih hne.2 h

theorem noEmptyChildren_setChild (p : GoString) (c : FuzzyTrie V)
    (h1 : notEmpty c = true) (h2 : noEmpty c = true) :
    ∀ cs : List (GoString × FuzzyTrie V), noEmptyChildren cs = true →
      noEmptyChildren (setChild p c cs) = true := by
  intro cs
  induction cs with
  | nil =>
    intro _
    simp [setChild, noEmptyChildren_cons, h1, h2, noEmptyChildren]
  | cons kc rest ih =>
    obtain ⟨k, c0⟩ := kc
    intro hne
    rw [noEmptyChildren_cons] at hne
    simp only [Bool.and_eq_true] at hne
    by_cases hk : k = p
    · simp [setChild, hk, noEmptyChildren_cons, h1, h2, hne.2]
    · simp [setChild, hk, noEmptyChildren_cons, hne.1.1, hne.1.2, ih hne.2]

theorem noEmptyChildren_filter (f : GoString × FuzzyTrie V → Bool) :
    ∀ cs : List (GoString × FuzzyTrie V), noEmptyChildren cs = true →
      noEmptyChildren (cs.filter f) = true := by
  intro cs
  induction cs with
  | nil => intro h; simpa using h
  | cons kc rest ih =>
    obtain ⟨k, c0⟩ := kc
    intro hne
    rw [noEmptyChildren_cons] at hne
    simp only [Bool.and_eq_true] at hne
    cases hf : f (k, c0) with
    | false => simpa [List.filter, hf] using ih hne.2
    | true => simp [List.filter, hf, noEmptyChildren_cons, hne.1.1, hne.1.2, ih hne.2]

theorem setChild_ne_nil (p : GoString) (c : FuzzyTrie V)
    (cs : List (GoString × FuzzyTrie V)) : setChild p c cs ≠ [] := by
  cases cs with
  | nil => simp [setChild]
  | cons kc rest =>
    obtain ⟨k, c0⟩ := kc
    by_cases hk : k = p <;> simp [setChild, hk]

theorem notEmpty_mk_setChild (v : Option V) (p : GoString) (c : FuzzyTrie V)
    (cs : List (GoString × FuzzyTrie V)) : notEmpty (mk v (setChild p c cs)) = true := by
  have := setChild_ne_nil p c cs
  cases h : setChild p c cs with
  | nil => exact absurd h this
  | cons a b => simp [notEmpty]

/-- An accepted `Put` of a value that is not `nil` makes no empty node. -/
theorem noEmpty_putPath (v : V) :
    ∀ (ps : List GoString) (node : FuzzyTrie V), noEmpty node = true →
      (putPath (some v) node ps).1 = true →
        noEmpty (putPath (some v) node ps).2 = true ∧
          notEmpty (putPath (some v) node ps).2 = true := by
  intro ps
  induction ps with
  | nil =>
    intro node h _
    rw [noEmpty_iff] at h
    exact ⟨by simpa [putPath, noEmpty] using h, by simp [putPath, notEmpty]⟩
  | cons p ps ih =>
    intro node h hacc
    cases hstar : HasSuffix p ['*'] with
    | true => simp [putPath, hstar] at hacc
    | false =>
      simp only [putPath, hstar, Bool.false_eq_true, if_false] at hacc ⊢
      rw [noEmpty_iff] at h
      have hchild : noEmpty ((lookupChild p node.children).getD NewFuzzyTrie) = true := by
        cases hl : lookupChild p node.children with
        | none => exact noEmpty_New
        | some c => exact noEmptyChildren_lookupChild p c _ h hl
      obtain ⟨h1, h2⟩ := ih _ hchild hacc
      refine ⟨?_, notEmpty_mk_setChild _ _ _ _⟩
      simp only [noEmpty]
      exact noEmptyChildren_setChild p _ h2 h1 _ h

/-- The upward loop of `Delete` after a leaf: what stays on the path is not empty. -/
theorem noEmpty_deletePath_leaf :
    ∀ (ps : List GoString) (node target : FuzzyTrie V), noEmpty node = true →
      nodeAt node ps = some target → target.children = [] →
        match deletePath node ps with
        | .notFound => False
        | .kept node' => noEmpty node' = true ∧ notEmpty node' = true
        | .pruned => True := by
  intro ps
  induction ps with
  | nil =>
    intro node target _ h hleaf
    simp only [nodeAt, Option.some.injEq] at h
    subst h
    simp [deletePath, isLeaf_of_children_nil node hleaf]
  | cons p ps ih =>
    intro node target hne h hleaf
    rw [nodeAt_cons] at h
    rw [noEmpty_iff] at hne
    cases hc : lookupChild p node.children with
    | none => simp [hc] at h
    | some c =>
      simp only [hc] at h
      rw [deletePath_cons_some node c p ps hc]
      have IH := ih c target (noEmptyChildren_lookupChild p c _ hne hc) h hleaf
      cases hr : deletePath c ps with
      | notFound => simp [hr] at IH
      | kept c' =>
        simp only [hr] at IH
        simp only [deleteBack]
        refine ⟨?_, notEmpty_mk_setChild _ _ _ _⟩
        simp only [noEmpty]
        exact noEmptyChildren_setChild p c' IH.2 IH.1 _ hne
      | pruned =>
        rw [deleteBack_pruned]
        by_cases hcond : ((deleteChild p node.children).isEmpty && node.value.isNone) = true
        · simp only [hcond, if_true]
        · simp only [hcond, Bool.false_eq_true, if_false]
          refine ⟨?_, ?_⟩
          · simp only [noEmpty]
            exact noEmptyChildren_filter _ _ hne
          · simp only [Bool.and_eq_true, not_and, Bool.not_eq_true] at hcond
            simp only [notEmpty, value_mk, children_mk, Bool.or_eq_true,
              Bool.not_eq_true']
            cases he : (deleteChild p node.children).isEmpty with
            | false => exact Or.inr rfl
            | true =>
              left
              have := hcond he
              cases hv : node.value with
              | none => simp [hv] at this
              | some x => rfl

theorem notEmpty_lookupChild (p : GoString) (c : FuzzyTrie V) :
    ∀ cs : List (GoString × FuzzyTrie V), noEmptyChildren cs = true →
      lookupChild p cs = some c → notEmpty c = true := by
  intro cs
  induction cs with
  | nil => intro _ h; simp [lookupChild] at h
  | cons kc rest ih =>
    obtain ⟨k, c0⟩ := kc
    intro hne h
    rw [noEmptyChildren_cons] at hne
    simp only [Bool.and_eq_true] at hne
    by_cases hk : k = p
    · simp only [lookupChild, hk, if_true, Option.some.injEq] at h
      subst h
      exact hne.1.1
    · simp only [lookupChild, hk, if_false] at h
      exact ih hne.2 h

/-- What `noEmpty` says about the nodes `nodeAt` reaches. -/
theorem noEmpty_nodeAt :
    ∀ (qs : List GoString) (t a : FuzzyTrie V), noEmpty t = true → qs ≠ [] →
      nodeAt t qs = some a → notEmpty a = true := by
  intro qs
  induction qs with
  | nil => intro t a _ h; exact absurd rfl h
  | cons p rest ih =>
    intro t a hne _ h
    rw [nodeAt_cons] at h
    rw [noEmpty_iff] at hne
    cases hc : lookupChild p t.children with
    | none => simp [hc] at h
    | some c =>
      simp only [hc] at h
      cases rest with
      | nil =>
        simp only [nodeAt, Option.some.injEq] at h
        subst h
        exact notEmpty_lookupChild p c _ hne hc
      | cons q rest' =>
        exact ih c a (noEmptyChildren_lookupChild p c _ hne hc) (by simp) h

/-! ### Maps without repeated keys, and the paths of the nodes with a value -/

theorem uniqueKeys_iff (t : FuzzyTrie V) : uniqueKeys t = uniqueKeysChildren t.children := by
  cases t with
  | mk v cs => simp [uniqueKeys]

theorem uniqueKeysChildren_cons (k : GoString) (c : FuzzyTrie V)
    (rest : List (GoString × FuzzyTrie V)) :
    uniqueKeysChildren ((k, c) :: rest) =
      ((lookupChild k rest).isNone && uniqueKeys c && uniqueKeysChildren rest) := by
  simp [uniqueKeysChildren]

theorem uniqueKeys_New : uniqueKeys (NewFuzzyTrie : FuzzyTrie V) = true := by
  simp [NewFuzzyTrie, uniqueKeys, uniqueKeysChildren]

theorem uniqueKeysChildren_lookupChild (p : GoString) (c : FuzzyTrie V) :
    ∀ cs : List (GoString × FuzzyTrie V), uniqueKeysChildren cs = true →
      lookupChild p cs = some c → uniqueKeys c = true := by
  intro cs
  induction cs with
  | nil => intro _ h; simp [lookupChild] at h
  | cons kc rest ih =>
    obtain ⟨k, c0⟩ := kc
    intro hu h
    rw [uniqueKeysChildren_cons] at hu
    simp only [Bool.and_eq_true] at hu
    by_cases hk : k = p
    · simp only [lookupChild, hk, if_true, Option.some.injEq] at h
      subst h
      exact hu.1.2
    · simp only [lookupChild, hk, if_false] at h
      exact ih hu.2 h

theorem lookupChild_filter_none (f : GoString × FuzzyTrie V → Bool) (q : GoString) :
    ∀ cs : List (GoString × FuzzyTrie V), lookupChild q cs = none →
      lookupChild q (cs.filter f) = none := by
  intro cs
  induction cs with
  | nil => intro _; simp [lookupChild]
  | cons kc rest ih =>
    obtain ⟨k, c0⟩ := kc
    intro h
    by_cases hk : k = q
    · simp [lookupChild, hk] at h
    · simp only [lookupChild, hk, if_false] at h
      cases hf : f (k, c0) with
      | false => simpa [List.filter, hf] using ih h
      | true => simpa [List.filter, hf, lookupChild, hk] using ih h

theorem uniqueKeysChildren_setChild (p : GoString) (c : FuzzyTrie V)
    (hc : uniqueKeys c = true) :
    ∀ cs : List (GoString × FuzzyTrie V), uniqueKeysChildren cs = true →
      uniqueKeysChildren (setChild p c cs) = true := by
  intro cs
  induction cs with
  | nil =>
    intro _
    simp [setChild, uniqueKeysChildren_cons, hc, uniqueKeysChildren, lookupChild]
  | cons kc rest ih =>
    obtain ⟨k, c0⟩ := kc
    intro hu
    rw [uniqueKeysChildren_cons] at hu
    simp only [Bool.and_eq_true] at hu
    by_cases hk : k = p
    · subst hk
      simp [setChild, uniqueKeysChildren_cons, hc, hu.2, hu.1.1]
    · have hl : lookupChild k (setChild p c rest) = none := by
        rw [lookupChild_setChild, if_neg hk]
        simpa using hu.1.1
      simp [setChild, hk, uniqueKeysChildren_cons, hu.1.2, ih hu.2, hl]

theorem uniqueKeysChildren_filter (f : GoString × FuzzyTrie V → Bool) :
    ∀ cs : List (GoString × FuzzyTrie V), uniqueKeysChildren cs = true →
      uniqueKeysChildren (cs.filter f) = true := by
  intro cs
  induction cs with
  | nil => intro h; simpa using h
  | cons kc rest ih =>
    obtain ⟨k, c0⟩ := kc
    intro hu
    rw [uniqueKeysChildren_cons] at hu
    simp only [Bool.and_eq_true] at hu
    cases hf : f (k, c0) with
    | false => simpa [List.filter, hf] using ih hu.2
    | true =>
      have hl : lookupChild k (rest.filter f) = none :=
        lookupChild_filter_none f k rest (by simpa using hu.1.1)
      simp [List.filter, hf, uniqueKeysChildren_cons, hu.1.2, ih hu.2, hl]

theorem uniqueKeys_putPath (val : Option V) :
    ∀ (ps : List GoString) (node : FuzzyTrie V), uniqueKeys node = true →
      uniqueKeys (putPath val node ps).2 = true := by
  intro ps
  induction ps with
  | nil =>
    intro node h
    rw [uniqueKeys_iff] at h
    simpa [putPath, uniqueKeys] using h
  | cons p ps ih =>
    intro node h
    cases hstar : HasSuffix p ['*'] with
    | true => simpa [putPath, hstar] using h
    | false =>
      simp only [putPath, hstar, Bool.false_eq_true, if_false]
      simp only [uniqueKeys]
      rw [uniqueKeys_iff] at h
      apply uniqueKeysChildren_setChild p _ _ _ h
      apply ih
      cases hl : lookupChild p node.children with
      | none => exact uniqueKeys_New
      | some c => exact uniqueKeysChildren_lookupChild p c _ h hl

theorem uniqueKeys_deletePath :
    ∀ (ps : List GoString) (node : FuzzyTrie V), uniqueKeys node = true →
      match deletePath node ps with
      | .notFound => True
      | .kept node' => uniqueKeys node' = true
      | .pruned => True := by
  intro ps
  induction ps with
  | nil =>
    intro node _
    cases hl : node.isLeaf <;> simp [deletePath, hl, uniqueKeys, uniqueKeysChildren]
  | cons p ps ih =>
    intro node h
    rw [uniqueKeys_iff] at h
    cases hc : lookupChild p node.children with
    | none =>
      rw [deletePath_cons_none node p ps hc]
      unfold deleteMissing
      split_ifs
      · trivial
      · simp [uniqueKeys, uniqueKeysChildren]
      · simpa [uniqueKeys] using uniqueKeysChildren_filter _ _ h
    | some c =>
      rw [deletePath_cons_some node c p ps hc]
      have hcn := uniqueKeysChildren_lookupChild p c _ h hc
      have IH := ih c hcn
      cases hr : deletePath c ps with
      | notFound => simp [deleteBack]
      | kept c' =>
        simp only [hr] at IH
        simpa [deleteBack, uniqueKeys] using uniqueKeysChildren_setChild p c' IH _ h
      | pruned =>
        rw [deleteBack_pruned]
        split_ifs
        · trivial
        · simpa [uniqueKeys, deleteChild] using uniqueKeysChildren_filter _ _ h

/-- Every trie built from a fresh one by `Put` and `Delete` calls has maps without
repeated keys. -/
theorem uniqueKeys_run (ops : List (Op V)) :
    ∀ t t' : FuzzyTrie V, run ops t = some t' → uniqueKeys t = true →
      uniqueKeys t' = true := by
  induction ops with
  | nil =>
    intro t t' h hn
    simp only [run, Option.some.injEq] at h
    subst h
    exact hn
  | cons op ops ih =>
    intro t t' h hn
    cases op with
    | put key val =>
      obtain ⟨ps, _, _, ha⟩ := applyOp_put t key val
      simp only [run, ha, Option.some_bind] at h
      exact ih _ t' h (uniqueKeys_putPath val ps t hn)
    | delete key =>
      obtain ⟨ps, _, ha⟩ := applyOp_delete t key
      simp only [run, ha, Option.some_bind] at h
      apply ih _ t' h
      have := uniqueKeys_deletePath ps t hn
      cases hd : deletePath t ps with
      | notFound => simpa [delOutcome] using hn
      | kept a =>
        simp only [hd] at this
        simpa [delOutcome] using this
      | pruned => simp [delOutcome, uniqueKeys, uniqueKeysChildren]

theorem lookupChild_cons (q k : GoString) (c : FuzzyTrie V)
    (rest : List (GoString × FuzzyTrie V)) :
    lookupChild q ((k, c) :: rest) = if k = q then some c else lookupChild q rest := by
  simp [lookupChild]

theorem getPath_mk_cons (v : Option V) (cs : List (GoString × FuzzyTrie V)) (q : GoString)
    (qs : List GoString) : getPath (mk v cs) (q :: qs) = getPath (mk none cs) (q :: qs) := by
  rw [getPath_cons, getPath_cons]
  rfl

mutual

/-- In a trie whose maps have no repeated key, `valuedPaths` lists each node with a
value once, and the calls of `walk` are those nodes with their path text and value. -/
theorem valuedPaths_spec : ∀ t : FuzzyTrie V, uniqueKeys t = true →
    (∀ qs, qs ∈ valuedPaths t ↔ (getPath t qs).isSome = true) ∧ (valuedPaths t).Nodup ∧
      ∀ key, entries t key =
        (valuedPaths t).map (fun qs => (key ++ qs.flatten, getPath t qs))
  | mk v cs, hu => by
    have hc := valuedPathsChildren_spec cs (by simpa [uniqueKeys] using hu)
    have hnil : ([] : List GoString) ∉ valuedPathsChildren cs := by
      intro h
      obtain ⟨q, qs', c, he, _⟩ := (hc.1 []).1 h
      exact absurd he (by simp)
    refine ⟨?_, ?_, ?_⟩
    · intro qs
      cases qs with
      | nil => cases v <;> simp [valuedPaths, hnil]
      | cons q qs' =>
        have hleft : (q :: qs') ∉ (if v.isSome = true then [([] : List GoString)] else []) := by
          cases v <;> simp
        simp only [valuedPaths, List.mem_append, hleft, false_or]
        rw [hc.1 (q :: qs'), getPath_cons, children_mk]
        constructor
        · rintro ⟨q0, qs0, c, he, hl, hg⟩
          simp only [List.cons.injEq] at he
          obtain ⟨rfl, rfl⟩ := he
          simpa [hl] using hg
        · intro h
          cases hl : lookupChild q cs with
          | none => simp [hl] at h
          | some c => exact ⟨q, qs', c, rfl, hl, by simpa [hl] using h⟩
    · simp only [valuedPaths]
      cases v with
      | none => simpa using hc.2.1
      | some x => simpa [hnil] using hc.2.1
    · intro key
      simp only [entries, valuedPaths, List.map_append]
      rw [hc.2.2 key]
      congr 1
      · cases v <;> simp
      · apply List.map_congr_left
        intro qs hqs
        obtain ⟨q, qs', c, he, _⟩ := (hc.1 qs).1 hqs
        subst he
        rw [getPath_mk_cons v cs q qs']

theorem valuedPathsChildren_spec : ∀ cs : List (GoString × FuzzyTrie V),
    uniqueKeysChildren cs = true →
    (∀ qs, qs ∈ valuedPathsChildren cs ↔
      ∃ q qs' c, qs = q :: qs' ∧ lookupChild q cs = some c ∧
        (getPath c qs').isSome = true) ∧
      (valuedPathsChildren cs).Nodup ∧
      ∀ key, entriesChildren cs key =
        (valuedPathsChildren cs).map (fun qs => (key ++ qs.flatten, getPath (mk none cs) qs))
  | [], _ => by
    refine ⟨?_, ?_, ?_⟩
    · intro qs
      simp [valuedPathsChildren, lookupChild]
    · simp [valuedPathsChildren]
    · intro key
      simp [valuedPathsChildren, entriesChildren]
  | (k, c) :: rest, hu => by
    rw [uniqueKeysChildren_cons] at hu
    simp only [Bool.and_eq_true] at hu
    have hk : lookupChild k rest = none := by simpa using hu.1.1
    have h1 := valuedPaths_spec c hu.1.2
    have h2 := valuedPathsChildren_spec rest hu.2
    have hne : ∀ qs ∈ valuedPathsChildren rest, ∃ q qs', qs = q :: qs' ∧ q ≠ k := by
      intro qs hqs
      obtain ⟨q, qs', c', he, hl, _⟩ := (h2.1 qs).1 hqs
      refine ⟨q, qs', he, ?_⟩
      intro hqk
      rw [hqk, hk] at hl
      exact absurd hl (by simp)
    refine ⟨?_, ?_, ?_⟩
    · intro qs
      simp only [valuedPathsChildren, List.mem_append, List.mem_map]
      constructor
      · rintro (⟨a, ha, rfl⟩ | hr)
        · exact ⟨k, a, c, rfl, by simp [lookupChild_cons], (h1.1 a).1 ha⟩
        · obtain ⟨q, qs', c', he, hl, hg⟩ := (h2.1 qs).1 hr
          obtain ⟨q0, qs0, he0, hq0⟩ := hne qs hr
          rw [he] at he0
          simp only [List.cons.injEq] at he0
          refine ⟨q, qs', c', he, ?_, hg⟩
          rw [lookupChild_cons, if_neg]
          · exact hl
          · intro hkq
            exact hq0 (he0.1 ▸ hkq.symm)
      · rintro ⟨q, qs', c', rfl, hl, hg⟩
        rw [lookupChild_cons] at hl
        by_cases hkq : k = q
        · rw [if_pos hkq, Option.some.injEq] at hl
          subst hl
          subst hkq
          exact Or.inl ⟨qs', (h1.1 qs').2 hg, rfl⟩
        · rw [if_neg hkq] at hl
          exact Or.inr ((h2.1 (q :: qs')).2 ⟨q, qs', c', rfl, hl, hg⟩)
    · simp only [valuedPathsChildren]
      refine List.Nodup.append ?_ h2.2.1 ?_
      · exact h1.2.1.map (fun a b h => by simpa using h)
      · intro x hx1 hx2
        obtain ⟨a, _, rfl⟩ := List.mem_map.1 hx1
        obtain ⟨q, qs', he, hq⟩ := hne _ hx2
        simp only [List.cons.injEq] at he
        exact hq he.1.symm
    · intro key
      simp only [entriesChildren, valuedPathsChildren, List.map_append, List.map_map]
      rw [h1.2.2 (key ++ k), h2.2.2 key]
      congr 1
      · apply List.map_congr_left
        intro qs _
        simp [getPath_cons, lookupChild_cons, List.append_assoc]
      · apply List.map_congr_left
        intro qs hqs
        obtain ⟨q, qs', he, hq⟩ := hne qs hqs
        subst he
        have : ¬ k = q := fun h => hq h.symm
        simp [getPath_cons, lookupChild_cons, this]
end

theorem keySegments_spec (key : GoString) :
    segments PathSegmenter key (key.length + 1) 0 = some (keySegments key) ∧
      (keySegments key).flatten = key := by
  obtain ⟨ps, h, hf, _⟩ := segments_PathSegmenter key
  simp [keySegments, h, hf]

theorem keySegments_inj (k1 k2 : GoString) (h : keySegments k1 = keySegments k2) :
    k1 = k2 := by
  rw [← (keySegments_spec k1).2, ← (keySegments_spec k2).2, h]

theorem putAll_cons (k : GoString) (v : V) (rest : List (GoString × V)) (t0 t : FuzzyTrie V)
    (h : putAll ((k, v) :: rest) t0 = some t) :
    (putPath (some v) t0 (keySegments k)).1 = true ∧
      putAll rest (putPath (some v) t0 (keySegments k)).2 = some t := by
  simp only [putAll, Put_of_segments PathSegmenter k (some v) _ t0 _
    (keySegments_spec k).1] at h
  rcases hp : putPath (some v) t0 (keySegments k) with ⟨b, t1⟩
  rw [hp] at h
  cases b with
  | false => simp at h
  | true => exact ⟨rfl, by simpa using h⟩

theorem uniqueKeys_putAll :
    ∀ (kvs : List (GoString × V)) (t0 t : FuzzyTrie V), putAll kvs t0 = some t →
      uniqueKeys t0 = true → uniqueKeys t = true := by
  intro kvs
  induction kvs with
  | nil =>
    intro t0 t h hu
    simp only [putAll, Option.some.injEq] at h
    subst h
    exact hu
  | cons kv rest ih =>
    obtain ⟨k, v⟩ := kv
    intro t0 t h hu
    obtain ⟨_, h2⟩ := putAll_cons k v rest t0 t h
    exact ih _ t h2 (uniqueKeys_putPath (some v) _ t0 hu)

/-- After accepted `Put` calls of distinct keys, each key has its value and every
other path has what it had before. -/
theorem getPath_putAll :
    ∀ (kvs : List (GoString × V)) (t0 t : FuzzyTrie V), putAll kvs t0 = some t →
      (kvs.map Prod.fst).Nodup →
        (∀ kv ∈ kvs, getPath t (keySegments kv.1) = some kv.2) ∧
          ∀ qs, (∀ kv ∈ kvs, keySegments kv.1 ≠ qs) → getPath t qs = getPath t0 qs := by
  intro kvs
  induction kvs with
  | nil =>
    intro t0 t h _
    simp only [putAll, Option.some.injEq] at h
    subst h
    simp
  | cons kv rest ih =>
    obtain ⟨k, v⟩ := kv
    intro t0 t h hnd
    obtain ⟨h1, h2⟩ := putAll_cons k v rest t0 t h
    simp only [List.map_cons, List.nodup_cons] at hnd
    obtain ⟨IH1, IH2⟩ := ih _ t h2 hnd.2
    have hg := getPath_putPath (some v) t0 (keySegments k)
    constructor
    · intro kv hkv
      rcases List.mem_cons.1 hkv with rfl | hr
      · rw [IH2 (keySegments k), hg _ h1, if_pos rfl]
        intro kv' hkv' he
        have := keySegments_inj _ _ he
        exact hnd.1 (this ▸ List.mem_map_of_mem Prod.fst hkv')
      · exact IH1 kv hr
    · intro qs hqs
      rw [IH2 qs (fun kv hkv => hqs kv (List.mem_cons_of_mem _ hkv)), hg _ h1, if_neg]
      exact fun he => hqs (k, v) (List.mem_cons_self _ _) he.symm

/-! ### The nodes a rejected `Put` creates -/

theorem setChild_lookupChild_self (p : GoString) (c : FuzzyTrie V) :
    ∀ cs : List (GoString × FuzzyTrie V), lookupChild p cs = some c →
      setChild p c cs = cs := by
  intro cs
  induction cs with
  | nil => intro h; simp [lookupChild] at h
  | cons kc rest ih =>
    obtain ⟨k, c0⟩ := kc
    intro h
    by_cases hk : k = p
    · simp only [lookupChild, hk, if_true, Option.some.injEq] at h
      subst h
      simp [setChild, hk]
    · simp only [lookupChild, hk, if_false] at h
      simp [setChild, hk, ih h]

theorem nodeAt_New_cons (r : GoString) (rs : List GoString) :
    nodeAt (NewFuzzyTrie : FuzzyTrie V) (r :: rs) = none := by
  simp [nodeAt, NewFuzzyTrie, lookupChild]

/-- A `Put` that returns false stopped at a segment `w` ending in `*`, after literal
segments `qs`: afterwards every node on the path `qs` exists, the nodes off that
path are as before, and the trie is the same when the path was there already. -/
theorem putLoop_false_nodes (seg : StringSegmenter) (key : GoString) (val : Option V) :
    ∀ (n : Nat) (node node' : FuzzyTrie V) (i : Int),
      putLoop seg key val n node i = some (false, node') →
        ∃ (qs : List GoString) (w : GoString), HasSuffix w ['*'] = true ∧
          (∀ q ∈ qs, HasSuffix q ['*'] = false) ∧
          (∀ (m : Nat) (ps : List GoString), segments seg key m i = some ps →
            ∃ rest, ps = qs ++ w :: rest) ∧
          (∀ rs, rs <+: qs → (nodeAt node' rs).isSome = true) ∧
          (∀ rs, ¬ rs <+: qs → nodeAt node' rs = nodeAt node rs) ∧
          ((nodeAt node qs).isSome = true → node' = node) := by
  intro n
  induction n with
  | zero => intro node node' i h; simp [putLoop] at h
  | succ n ih =>
    intro node node' i h
    simp only [putLoop] at h
    by_cases hp : (seg key i).1 = []
    · simp [hp] at h
    · simp only [hp, if_false] at h
      have hsegs : ∀ (m : Nat) (ps : List GoString), segments seg key m i = some ps →
          ∃ ps0, ps = (seg key i).1 :: ps0 ∧
            ∃ m0, segments seg key m0 (seg key i).2 = some ps0 := by
        intro m ps hm
        cases m with
        | zero => simp [segments] at hm
        | succ m =>
          simp only [segments, hp, if_false, Option.map_eq_some'] at hm
          obtain ⟨ps0, h0, rfl⟩ := hm
          exact ⟨ps0, rfl, m, h0⟩
      cases hstar : HasSuffix (seg key i).1 ['*'] with
      | true =>
        simp only [hstar, if_true, Option.some.injEq, Prod.mk.injEq, true_and] at h
        subst h
        refine ⟨[], (seg key i).1, hstar, by simp, ?_, ?_, fun _ _ => rfl, fun _ => rfl⟩
        · intro m ps hm
          obtain ⟨ps0, he, _⟩ := hsegs m ps hm
          exact ⟨ps0, by simpa using he⟩
        · intro rs hrs
          rw [List.prefix_nil] at hrs
          subst hrs
          rfl
      | false =>
        simp only [hstar, Bool.false_eq_true, if_false] at h
        cases hr : putLoop seg key val n
            ((lookupChild (seg key i).1 node.children).getD NewFuzzyTrie) (seg key i).2 with
        | none => simp [hr] at h
        | some r =>
          obtain ⟨ok, c'⟩ := r
          simp only [hr, Option.some.injEq, Prod.mk.injEq] at h
          obtain ⟨hok, hnode⟩ := h
          subst hok
          subst hnode
          obtain ⟨qs0, w, hw, hlit, hseg, hon, hoff, hsame⟩ := ih _ _ _ hr
          refine ⟨(seg key i).1 :: qs0, w, hw, ?_, ?_, ?_, ?_, ?_⟩
          · intro q hq
            rcases List.mem_cons.1 hq with rfl | hq
            · exact hstar
            · exact hlit q hq
          · intro m ps hm
            obtain ⟨ps0, he, m0, h0⟩ := hsegs m ps hm
            obtain ⟨rest, hrest⟩ := hseg m0 ps0 h0
            exact ⟨rest, by rw [he, hrest]; rfl⟩
          · intro rs hrs
            cases rs with
            | nil => rfl
            | cons r rs0 =>
              rw [List.cons_prefix_cons] at hrs
              obtain ⟨rfl, hrs0⟩ := hrs
              rw [nodeAt_cons]
              simp only [children_mk, lookupChild_setChild, if_true]
              exact hon rs0 hrs0
          · intro rs hrs
            cases rs with
            | nil => exact absurd List.nil_prefix hrs
            | cons r rs0 =>
              rw [nodeAt_cons, nodeAt_cons]
              simp only [children_mk, lookupChild_setChild]
              by_cases hq : r = (seg key i).1
              · subst hq
                have hrs0 : ¬ rs0 <+: qs0 := fun hh =>
                  hrs (List.cons_prefix_cons.2 ⟨rfl, hh⟩)
                simp only [if_true]
                rw [hoff rs0 hrs0]
                cases hl : lookupChild (seg key i).1 node.children with
                | some c => rfl
                | none =>
                  cases rs0 with
                  | nil => exact absurd List.nil_prefix hrs0
                  | cons x xs => simp [nodeAt_New_cons]
              · simp only [if_neg hq]
          · intro hex
            rw [nodeAt_cons] at hex
            cases hl : lookupChild (seg key i).1 node.children with
            | none => simp [hl] at hex
            | some c =>
              simp only [hl] at hex
              rw [hl] at hsame
              have hc : c' = c := hsame hex
              rw [hc, setChild_lookupChild_self _ c _ hl]
              exact mk_value_children node

/-! ### The claims -/

/-- C1. Round trip and overwrite: when `Put(k, v1)` is accepted, the `Get(k)` that
follows returns `v1`; a second `Put(k, v2)` is accepted as well and the `Get(k)`
after it returns `v2`.  This holds from every trie state, for every segmenter. -/
theorem Put_Get_roundtrip (seg : StringSegmenter) (n : Nat) (t t1 : FuzzyTrie V)
    (k : GoString) (v1 : Option V) (h : Put seg n t k v1 = some (true, t1)) :
    Get seg n t1 k = some v1 ∧
      ∀ v2 : Option V, ∃ t2,
        Put seg n t1 k v2 = some (true, t2) ∧ Get seg n t2 k = some v2 := by
  obtain ⟨ps, hps⟩ := putLoop_true_segments seg k v1 n t t1 0 h
  have hput : ∀ (v : Option V) (u : FuzzyTrie V), Put seg n u k v = some (putPath v u ps) :=
    fun v u => putLoop_of_segments seg k v n u 0 ps hps
  have hget : ∀ u : FuzzyTrie V, Get seg n u k = some (getPath u ps) :=
    fun u => getLoop_of_segments seg k n u 0 ps hps
  have h1 : putPath v1 t ps = (true, t1) := by
    have := hput v1 t
    rw [h] at this
    exact (Option.some.inj this).symm
  have hacc : ∀ (v : Option V) (u : FuzzyTrie V), (putPath v u ps).1 = true := by
    intro v u
    rw [putPath_fst]
    have := congrArg Prod.fst h1
    rw [putPath_fst] at this
    exact this
  have hround : ∀ (v : Option V) (u : FuzzyTrie V),
      getPath (putPath v u ps).2 ps = v := by
    intro v u
    rw [getPath_putPath v u ps ps (hacc v u)]
    simp
  refine ⟨?_, ?_⟩
  · rw [hget]
    have := hround v1 t
    rw [h1] at this
    rw [this]
  · intro v2
    refine ⟨(putPath v2 t1 ps).2, ?_, ?_⟩
    · rw [hput v2 t1]
      have := hacc v2 t1
      rw [← this]
    · rw [hget, hround]

theorem Put_Get_roundtrip_witness :
    ∃ t1, Put PathSegmenter 9 canonical8 "/usr/age".toList (some "26".toList) =
        some (true, t1) ∧
      Get PathSegmenter 9 canonical8 "/usr/age".toList = some (some "25".toList) ∧
      Get PathSegmenter 9 t1 "/usr/age".toList = some (some "26".toList) ∧
      ∀ v2 : Option GoString, ∃ t2,
        Put PathSegmenter 9 t1 "/usr/age".toList v2 = some (true, t2) ∧
          Get PathSegmenter 9 t2 "/usr/age".toList = some v2 :=
  ⟨_, rfl, rfl,
    Put_Get_roundtrip PathSegmenter 9 canonical8 _ "/usr/age".toList (some "26".toList) rfl⟩

/-- C2. Absence: after any sequence of `Put` and `Delete` calls on a fresh trie with
the default segmenter, `Get(k)` is absent for every key `k` that was never the key
of a `Put` of the sequence; with the empty sequence, `Get` on a fresh trie is absent
for every key. -/
theorem Get_absent_of_never_put (ops : List (Op V)) (k : GoString)
    (h : ∀ val : Option V, Op.put k val ∉ ops) :
    ∃ t, run ops (NewFuzzyTrie : FuzzyTrie V) = some t ∧
      Get PathSegmenter (k.length + 1) t k = some none := by
  obtain ⟨t, ht⟩ := run_total ops (NewFuzzyTrie : FuzzyTrie V)
  obtain ⟨ps, hps, hj, _⟩ := segments_PathSegmenter k
  refine ⟨t, ht, ?_⟩
  rw [Get_of_segments PathSegmenter k _ t ps hps]
  congr 1
  by_contra hne
  rcases run_entries ops _ t ht ps hne with h1 | ⟨key, val, hmem, hk⟩
  · exact h1 (getPath_New ps)
  · rw [hj] at hk
    subst hk
    exact h val hmem

theorem Get_absent_of_never_put_witness :
    ((∀ val : Option GoString, Op.put "/usr/colors/4".toList val ∉ canonicalOps) ∧
      ∃ t, run canonicalOps (NewFuzzyTrie : FuzzyTrie GoString) = some t ∧
        Get PathSegmenter ("/usr/colors/4".toList.length + 1) t "/usr/colors/4".toList =
          some none) ∧
      (∀ val : Option GoString, Op.put "/usr".toList val ∉ ([] : List (Op GoString))) ∧
      ∃ t, run [] (NewFuzzyTrie : FuzzyTrie GoString) = some t ∧
        Get PathSegmenter ("/usr".toList.length + 1) t "/usr".toList = some none :=
  ⟨⟨by intro val hmem; simp [canonicalOps] at hmem,
      Get_absent_of_never_put canonicalOps "/usr/colors/4".toList
        (by intro val hmem; simp [canonicalOps] at hmem)⟩,
    by intro val hmem; simp at hmem,
    Get_absent_of_never_put [] "/usr".toList (by intro val hmem; simp at hmem)⟩

/-- C3. `Put(key, value)` returns false if and only if some segment of `key`, as
the trie's segmenter yields them, ends in `*`; for every other key it returns true. -/
theorem Put_false_iff_star_segment (seg : StringSegmenter) (n : Nat) (t : FuzzyTrie V)
    (key : GoString) (v : Option V) (ps : List GoString)
    (h : segments seg key n 0 = some ps) :
    ∃ b t', Put seg n t key v = some (b, t') ∧
      (b = false ↔ ∃ p ∈ ps, HasSuffix p ['*'] = true) := by
  refine ⟨(putPath v t ps).1, (putPath v t ps).2, putLoop_of_segments seg key v n t 0 ps h, ?_⟩
  rw [putPath_fst]
  simp

theorem Put_false_iff_star_segment_witness :
    segments PathSegmenter "/a/b*".toList 6 0 = some ["/a".toList, "/b*".toList] ∧
      ∃ b t', Put PathSegmenter 6 canonical8 "/a/b*".toList (some "v".toList) = some (b, t') ∧
        (b = false ↔ ∃ p ∈ ["/a".toList, "/b*".toList], HasSuffix p ['*'] = true) :=
  ⟨rfl, Put_false_iff_star_segment PathSegmenter 6 canonical8 "/a/b*".toList _ _ rfl⟩

/-- C4, as stated, fails on the trie of the tests: `Put("/a/b*", v)` returns false
and does not leave the trie unchanged. It creates the node `/a`, which was not there;
afterwards `Delete("/a")` returns true where it returned false before, and
`WalkPath("/*")` makes one more visitor call, for `/a` with the value `nil`. -/
theorem Put_rejected_adds_node_counterexample :
    run canonicalOps (NewFuzzyTrie : FuzzyTrie GoString) = some canonical8 ∧
      ∃ t' : FuzzyTrie GoString,
        Put PathSegmenter 6 canonical8 "/a/b*".toList (some "v".toList) = some (false, t') ∧
          nodeAt canonical8 ["/a".toList] = none ∧
          nodeAt t' ["/a".toList] = some NewFuzzyTrie ∧
          Delete PathSegmenter 3 canonical8 "/a".toList = some (false, canonical8) ∧
          Delete PathSegmenter 3 t' "/a".toList = some (true, canonical8) ∧
          WalkPath PathSegmenter 3 canonical8 "/*".toList
              (recordVisits : WalkFunc GoString _ Unit) [] =
            some ([("/usr".toList, some "pedro".toList)], .returned none) ∧
          WalkPath PathSegmenter 3 t' "/*".toList
              (recordVisits : WalkFunc GoString _ Unit) [] =
            some ([("/usr".toList, some "pedro".toList), ("/a".toList, none)],
              .returned none) :=
  ⟨rfl, _, rfl, rfl, rfl, rfl, rfl, rfl, rfl⟩

/-- C4, amended. A rejected insert keeps every stored entry and may add nodes: when
`Put(k, v)` returns false, `Walk` makes the same visitor calls afterwards as before
(for every visitor and every state the visitor starts in), and `Get` returns the same
result for every key. The call stopped at a segment `w` ending in `*`, after the
literal segments `qs` of `k`: afterwards there is a node for every prefix of `qs`,
every node off the path `qs` is as it was, and the trie is the same as before when
the node at `qs` was there already. -/
theorem Put_rejected_unobservable (seg : StringSegmenter) (n : Nat) (t t' : FuzzyTrie V)
    (k : GoString) (v : Option V) (h : Put seg n t k v = some (false, t')) :
    (∀ (σ ε : Type) (walker : WalkFunc V σ ε) (s : σ),
        Walk t' walker s = Walk t walker s) ∧
      (∀ (k' : GoString) (m : Nat) (ps' : List GoString), segments seg k' m 0 = some ps' →
        ∃ r, Get seg m t k' = some r ∧ Get seg m t' k' = some r) ∧
      ∃ (qs : List GoString) (w : GoString), HasSuffix w ['*'] = true ∧
        (∀ q ∈ qs, HasSuffix q ['*'] = false) ∧
        (∀ (m : Nat) (ps : List GoString), segments seg k m 0 = some ps →
          ∃ rest, ps = qs ++ w :: rest) ∧
        (∀ rs, rs <+: qs → (nodeAt t' rs).isSome = true) ∧
        (∀ rs, ¬ rs <+: qs → nodeAt t' rs = nodeAt t rs) ∧
        ((nodeAt t qs).isSome = true → t' = t) := by
  obtain ⟨hg, hw⟩ := putLoop_false_frame seg k v n t t' 0 h
  refine ⟨fun σ ε walker s => hw σ ε walker [] s, ?_,
    putLoop_false_nodes seg k v n t t' 0 h⟩
  intro k' m ps' hps'
  refine ⟨getPath t ps', getLoop_of_segments seg k' m t 0 ps' hps', ?_⟩
  rw [← hg ps']
  exact getLoop_of_segments seg k' m t' 0 ps' hps'

/-- C4, amended, on the trie of the tests with the key `/a/b*`: the call returns
false and the trie afterwards has one more child of the root, the node `/a`. -/
theorem Put_rejected_unobservable_witness :
    Put PathSegmenter 6 canonical8 "/a/b*".toList (some "v".toList) =
        some (false, mk none (canonical8.children ++ [("/a".toList, NewFuzzyTrie)])) ∧
      ((∀ (σ ε : Type) (walker : WalkFunc GoString σ ε) (s : σ),
          Walk (mk none (canonical8.children ++ [("/a".toList, NewFuzzyTrie)])) walker s =
            Walk canonical8 walker s) ∧
        (∀ (k' : GoString) (m : Nat) (ps' : List GoString),
          segments PathSegmenter k' m 0 = some ps' →
            ∃ r, Get PathSegmenter m canonical8 k' = some r ∧
              Get PathSegmenter m
                (mk none (canonical8.children ++ [("/a".toList, NewFuzzyTrie)])) k' =
                  some r) ∧
        ∃ (qs : List GoString) (w : GoString), HasSuffix w ['*'] = true ∧
          (∀ q ∈ qs, HasSuffix q ['*'] = false) ∧
          (∀ (m : Nat) (ps : List GoString),
            segments PathSegmenter "/a/b*".toList m 0 = some ps →
              ∃ rest, ps = qs ++ w :: rest) ∧
          (∀ rs, rs <+: qs →
            (nodeAt (mk none (canonical8.children ++ [("/a".toList, NewFuzzyTrie)]))
              rs).isSome = true) ∧
          (∀ rs, ¬ rs <+: qs →
            nodeAt (mk none (canonical8.children ++ [("/a".toList, NewFuzzyTrie)])) rs =
              nodeAt canonical8 rs) ∧
          ((nodeAt canonical8 qs).isSome = true →
            mk none (canonical8.children ++ [("/a".toList, NewFuzzyTrie)]) = canonical8)) :=
  ⟨rfl, Put_rejected_unobservable PathSegmenter 6 canonical8 _ "/a/b*".toList
    (some "v".toList) rfl⟩

/-- C5. Literal delete removes the entry: for a key none of whose segments ends in
`*`, if `Get(k)` returned a value then `Delete(k)` returns true, and whenever
`Delete(k)` returns true `Get(k)` is absent afterwards. -/
theorem Delete_literal_removes_entry (seg : StringSegmenter) (n : Nat) (t : FuzzyTrie V)
    (k : GoString) (ps : List GoString) (hps : segments seg k n 0 = some ps)
    (hlit : ∀ p ∈ ps, HasSuffix p ['*'] = false) :
    (∀ v : V, Get seg n t k = some (some v) → ∃ t', Delete seg n t k = some (true, t')) ∧
      ∀ t', Delete seg n t k = some (true, t') → Get seg n t' k = some none := by
  have hget : ∀ u : FuzzyTrie V, Get seg n u k = some (getPath u ps) :=
    fun u => getLoop_of_segments seg k n u 0 ps hps
  have hdel := Delete_of_segments seg k n t ps hps
  refine ⟨?_, ?_⟩
  · intro v hv
    rw [hget] at hv
    obtain ⟨target, ht⟩ := nodeAt_of_getPath_some t ps v (Option.some.inj hv)
    refine ⟨(delOutcome t (deletePath t ps)).2, ?_⟩
    rw [hdel, ← delOutcome_fst_of_nodeAt t target ps ht]
  · intro t' hd
    rw [hdel] at hd
    have hd' := Option.some.inj hd
    have hne : deletePath t ps ≠ .notFound := by
      intro e
      rw [e] at hd'
      simp [delOutcome] at hd'
    obtain ⟨target, ht⟩ := nodeAt_of_deletePath_literal ps t hlit hne
    have := getPath_delOutcome_self t target ps ht
    rw [hd'] at this
    rw [hget, this]

theorem Delete_literal_removes_entry_witness :
    (segments PathSegmenter "/usr/age".toList 9 0 = some ["/usr".toList, "/age".toList] ∧
      ∀ p ∈ ["/usr".toList, "/age".toList], HasSuffix p ['*'] = false) ∧
      ((∀ v : GoString, Get PathSegmenter 9 canonical8 "/usr/age".toList = some (some v) →
          ∃ t', Delete PathSegmenter 9 canonical8 "/usr/age".toList = some (true, t')) ∧
        ∀ t', Delete PathSegmenter 9 canonical8 "/usr/age".toList = some (true, t') →
          Get PathSegmenter 9 t' "/usr/age".toList = some none) :=
  ⟨⟨rfl, by decide⟩,
    Delete_literal_removes_entry PathSegmenter 9 canonical8 "/usr/age".toList _ rfl (by decide)⟩

/-- C6. Deleting a leaf touches nothing else: when the node of `k` exists and has
no children, `Delete(k)` returns true, `Get` is unchanged for every key whose
segment sequence differs from that of `k`, every node off the path to `k` is left as
it was, and an ancestor that holds a value or has another child stays in the trie
with its value. -/
theorem Delete_leaf_frame (seg : StringSegmenter) (n : Nat) (t target : FuzzyTrie V)
    (k : GoString) (ps : List GoString) (hps : segments seg k n 0 = some ps)
    (hnode : nodeAt t ps = some target) (hleaf : target.children = []) :
    ∃ t', Delete seg n t k = some (true, t') ∧
      (∀ (k' : GoString) (m : Nat) (ps' : List GoString),
        segments seg k' m 0 = some ps' → ps' ≠ ps →
          ∃ r, Get seg m t k' = some r ∧ Get seg m t' k' = some r) ∧
      (∀ qs : List GoString, ¬ qs <+: ps → nodeAt t' qs = nodeAt t qs) ∧
      ∀ (qs : List GoString) (p : GoString) (rest : List GoString) (a : FuzzyTrie V),
        ps = qs ++ p :: rest → nodeAt t qs = some a →
          (a.value.isSome = true ∨ ∃ kc ∈ a.children, kc.1 ≠ p) →
            ∃ a', nodeAt t' qs = some a' ∧ a'.value = a.value := by
  have hdel := Delete_of_segments seg k n t ps hps
  have h1 := deletePath_leaf_getPath ps t target hnode hleaf
  have h2 := deletePath_leaf_nodeAt_off ps t target hnode hleaf
  have h3 := deletePath_leaf_ancestor ps t target hnode hleaf
  refine ⟨(delOutcome t (deletePath t ps)).2, ?_, ?_, ?_, ?_⟩
  · rw [hdel, ← delOutcome_fst_of_nodeAt t target ps hnode]
  · intro k' m ps' hps' hne
    refine ⟨getPath t ps', Get_of_segments seg k' m t ps' hps', ?_⟩
    rw [Get_of_segments seg k' m _ ps' hps']
    congr 1
    cases hd : deletePath t ps with
    | notFound => simp [hd] at h1
    | kept a =>
      simp only [hd] at h1
      simp [delOutcome, h1 ps', hne]
    | pruned =>
      simp only [hd] at h1
      simp [delOutcome, h1 ps' hne, getPath_empty]
  · intro qs hqs
    cases hd : deletePath t ps with
    | notFound => simp [hd] at h2
    | kept a =>
      simp only [hd] at h2
      simp [delOutcome, h2 qs hqs]
    | pruned =>
      simp only [hd] at h2
      rw [h2 qs hqs]
      cases qs with
      | nil => exact absurd List.nil_prefix hqs
      | cons q qs => simp [delOutcome, nodeAt_cons, lookupChild]
  · intro qs p rest a heq ha hval
    cases hd : deletePath t ps with
    | notFound => simp [hd] at h3
    | kept b =>
      simp only [hd] at h3
      exact h3 qs p rest a heq ha hval
    | pruned =>
      simp only [hd] at h3
      obtain ⟨hv, hk⟩ := h3 qs p rest a heq ha
      rcases hval with hsome | ⟨kc, hkc, hne⟩
      · rw [hv] at hsome
        simp at hsome
      · exact absurd (hk kc hkc) hne

theorem Delete_leaf_frame_witness :
    (segments PathSegmenter "/usr/age".toList 9 0 = some ["/usr".toList, "/age".toList] ∧
      nodeAt canonical8 ["/usr".toList, "/age".toList] = some (mk (some "25".toList) []) ∧
      (mk (some "25".toList) [] : FuzzyTrie GoString).children = []) ∧
      ∃ t', Delete PathSegmenter 9 canonical8 "/usr/age".toList = some (true, t') ∧
        (∃ r, Get PathSegmenter 5 canonical8 "/usr".toList = some r ∧
          Get PathSegmenter 5 t' "/usr".toList = some r) ∧
        nodeAt t' ["/usr".toList, "/colors".toList] =
          nodeAt canonical8 ["/usr".toList, "/colors".toList] :=
  ⟨⟨rfl, rfl, rfl⟩,
    match Delete_leaf_frame PathSegmenter 9 canonical8 (mk (some "25".toList) [])
      "/usr/age".toList ["/usr".toList, "/age".toList] rfl rfl rfl with
    | ⟨t', hd, hg, hn, _⟩ =>
      ⟨t', hd, hg "/usr".toList 5 ["/usr".toList] rfl (by decide),
        hn ["/usr".toList, "/colors".toList] (by decide)⟩⟩

/-- C7, as stated, fails on the trie of the tests: `/usr` has four children,
`Get("/usr/age")` is `"25"`, `Delete("/usr")` returns true, and afterwards
`Get("/usr/age")` is absent. -/
theorem Delete_inner_keeps_subtree_counterexample :
    (nodeAt canonical8 ["/usr".toList]).map (fun a => a.children.length) = some 4 ∧
      Get PathSegmenter 9 canonical8 "/usr/age".toList = some (some "25".toList) ∧
      Delete PathSegmenter 9 canonical8 "/usr".toList =
        some (true, mk none [("/usr".toList, mk none [])]) ∧
      Get PathSegmenter 9 (mk none [("/usr".toList, mk none [])] : FuzzyTrie GoString)
        "/usr/age".toList = some none :=
  ⟨rfl, rfl, rfl, rfl⟩

/-- C7, amended. Deleting a key whose node has children clears the value of that
node and removes all its children: `Delete(k)` returns true; afterwards `Get` is
absent for `k` and for every key that extends `k` by one or more segments, and is
unchanged for every key whose segment sequence does not start with that of `k`. -/
theorem Delete_inner_clears_subtree (seg : StringSegmenter) (n : Nat)
    (t target : FuzzyTrie V) (k : GoString) (ps : List GoString)
    (hps : segments seg k n 0 = some ps) (hnode : nodeAt t ps = some target)
    (hchild : target.children ≠ []) :
    ∃ t', Delete seg n t k = some (true, t') ∧
      (∀ (k' : GoString) (m : Nat) (ps' : List GoString),
        segments seg k' m 0 = some ps' → ps <+: ps' → Get seg m t' k' = some none) ∧
      ∀ (k' : GoString) (m : Nat) (ps' : List GoString),
        segments seg k' m 0 = some ps' → ¬ ps <+: ps' →
          ∃ r, Get seg m t k' = some r ∧ Get seg m t' k' = some r := by
  have hl : target.isLeaf = false := by
    cases hc : target.children with
    | nil => exact absurd hc hchild
    | cons kc rest => simp [isLeaf, hc]
  have hdel := Delete_of_segments seg k n t ps hps
  rw [deletePath_inner ps t target hnode hl] at hdel
  refine ⟨replaceAt (mk none []) t ps, hdel, ?_, ?_⟩
  · intro k' m ps' hps' hpre
    obtain ⟨rs, hrs⟩ := hpre
    rw [Get_of_segments seg k' m _ ps' hps', ← hrs,
      getPath_replaceAt_under (mk none []) rs ps t target hnode, getPath_empty]
  · intro k' m ps' hps' hpre
    refine ⟨getPath t ps', Get_of_segments seg k' m t ps' hps', ?_⟩
    rw [Get_of_segments seg k' m _ ps' hps', getPath_replaceAt_off (mk none []) ps t ps' hpre]

theorem Delete_inner_clears_subtree_witness :
    (segments PathSegmenter "/usr/colors".toList 12 0 =
        some ["/usr".toList, "/colors".toList] ∧
      nodeAt canonical8 ["/usr".toList, "/colors".toList] =
        some (mk (some "bucket".toList)
          [("/1".toList, mk (some "black".toList) []),
           ("/2".toList, mk (some "red".toList) []),
           ("/3".toList, mk (some "white".toList) [])]) ∧
      (mk (some "bucket".toList)
          [("/1".toList, mk (some "black".toList) []),
           ("/2".toList, mk (some "red".toList) []),
           ("/3".toList, mk (some "white".toList) [])] : FuzzyTrie GoString).children ≠ []) ∧
      ∃ t', Delete PathSegmenter 12 canonical8 "/usr/colors".toList = some (true, t') ∧
        Get PathSegmenter 14 t' "/usr/colors/1".toList = some none ∧
        ∃ r, Get PathSegmenter 9 canonical8 "/usr/age".toList = some r ∧
          Get PathSegmenter 9 t' "/usr/age".toList = some r :=
  ⟨⟨rfl, rfl, by simp [children]⟩,
    match Delete_inner_clears_subtree PathSegmenter 12 canonical8 _ "/usr/colors".toList
      ["/usr".toList, "/colors".toList] rfl rfl (by simp [children]) with
    | ⟨t', hd, hunder, hoff⟩ =>
      ⟨t', hd,
        hunder "/usr/colors/1".toList 14 ["/usr".toList, "/colors".toList, "/1".toList] rfl
          ⟨["/1".toList], rfl⟩,
        hoff "/usr/age".toList 9 ["/usr".toList, "/age".toList] rfl (by decide)⟩⟩

/-- C8. A failed `Delete` is atomic: when `Delete(pattern)` returns false the trie
is the one it was before the call, so `Get` of every key and the calls `Walk` makes
are the same; and `Delete` does return false when the walk meets a segment not
ending in `*` for which the node reached so far has no child. -/
theorem Delete_false_atomic (seg : StringSegmenter) (n : Nat) (t : FuzzyTrie V)
    (pat : GoString) :
    (∀ t', Delete seg n t pat = some (false, t') →
      t' = t ∧
      (∀ (m : Nat) (k' : GoString), Get seg m t' k' = Get seg m t k') ∧
      ∀ (σ ε : Type) (walker : WalkFunc V σ ε) (s : σ),
        Walk t' walker s = Walk t walker s) ∧
      ∀ (qs : List GoString) (p : GoString) (rest : List GoString) (a : FuzzyTrie V),
        segments seg pat n 0 = some (qs ++ p :: rest) → nodeAt t qs = some a →
          lookupChild p a.children = none → HasSuffix p ['*'] = false →
            Delete seg n t pat = some (false, t) := by
  refine ⟨?_, ?_⟩
  · intro t' h
    have ht : t' = t := by
      unfold Delete at h
      cases hd : deleteLoop seg pat n t 0 with
      | none => simp [hd] at h
      | some r =>
        cases r with
        | notFound =>
          simp only [hd, Option.some.injEq, Prod.mk.injEq, true_and] at h
          exact h.symm
        | kept a => simp [hd] at h
        | pruned => simp [hd] at h
    subst ht
    exact ⟨rfl, fun _ _ => rfl, fun _ _ _ _ => rfl⟩
  · intro qs p rest a hseg ha hp hstar
    rw [Delete_of_segments seg pat n t _ hseg, deletePath_missing p rest qs t a ha hp]
    simp [deleteMissing, hstar, delOutcome]

theorem Delete_false_atomic_witness :
    Delete PathSegmenter 12 canonical8 "/usr/age/aa".toList = some (false, canonical8) ∧
      ∀ t', Delete PathSegmenter 12 canonical8 "/usr/age/aa".toList = some (false, t') →
        Get PathSegmenter 9 t' "/usr/age".toList = some (some "25".toList) :=
  ⟨(Delete_false_atomic PathSegmenter 12 canonical8 "/usr/age/aa".toList).2
      ["/usr".toList, "/age".toList] "/aa".toList [] (mk (some "25".toList) []) rfl rfl rfl rfl,
    fun t' h =>
      ((Delete_false_atomic PathSegmenter 12 canonical8 "/usr/age/aa".toList).1 t' h).2.1
        9 "/usr/age".toList⟩

/-- C9. Whole-children wildcard delete, default segmenter: in a trie built from a
fresh one, when the node at the literal path `p` exists (`p` may be empty),
`Delete(p + "/*")` returns true; afterwards `Get` is absent for every key whose
segment sequence strictly extends that of `p`, `Get(p)` is unchanged, and `Get` is
unchanged for every key whose segment sequence does not extend that of `p`. -/
theorem Delete_slash_star (ops : List (Op V)) (t parent : FuzzyTrie V) (p : GoString)
    (ps : List GoString) (hrun : run ops (NewFuzzyTrie : FuzzyTrie V) = some t)
    (hps : segments PathSegmenter p (p.length + 1) 0 = some ps)
    (hnode : nodeAt t ps = some parent) :
    ∃ t', Delete PathSegmenter ((p ++ ['/', '*']).length + 1) t (p ++ ['/', '*']) =
        some (true, t') ∧
      (∀ (k' : GoString) (ps' : List GoString),
        segments PathSegmenter k' (k'.length + 1) 0 = some ps' → ps <+: ps' → ps' ≠ ps →
          Get PathSegmenter (k'.length + 1) t' k' = some none) ∧
      (∃ r, Get PathSegmenter (p.length + 1) t p = some r ∧
        Get PathSegmenter (p.length + 1) t' p = some r) ∧
      ∀ (k' : GoString) (ps' : List GoString),
        segments PathSegmenter k' (k'.length + 1) 0 = some ps' → ¬ ps <+: ps' →
          ∃ r, Get PathSegmenter (k'.length + 1) t k' = some r ∧
            Get PathSegmenter (k'.length + 1) t' k' = some r := by
  have hpat := segments_PathSegmenter_snoc p ['*'] (by decide) ps hps
  have hlook := lookupChild_star_of_run ops t parent hrun ps hnode ['/', '*'] rfl
  have hdel := Delete_of_segments PathSegmenter _ _ t _ hpat
  rw [deletePath_missing ['/', '*'] [] ps t parent hnode hlook,
    deleteMissing_slash_star] at hdel
  refine ⟨replaceAt (mk parent.value []) t ps, hdel, ?_, ?_, ?_⟩
  · intro k' ps' hps' hpre hne
    obtain ⟨rs, hrs⟩ := hpre
    rw [Get_of_segments PathSegmenter k' _ _ ps' hps', ← hrs,
      getPath_replaceAt_under _ rs ps t parent hnode]
    cases rs with
    | nil => simp at hrs; exact absurd hrs.symm hne
    | cons r rs => rw [getPath_mk_nil]
  · refine ⟨getPath t ps, Get_of_segments PathSegmenter p _ t ps hps, ?_⟩
    rw [Get_of_segments PathSegmenter p _ _ ps hps]
    have h1 := getPath_replaceAt_under (mk parent.value []) [] ps t parent hnode
    have h2 := getPath_of_nodeAt t parent ps [] hnode
    rw [List.append_nil] at h1 h2
    rw [h1, h2]
    rfl
  · intro k' ps' hps' hpre
    refine ⟨getPath t ps', Get_of_segments PathSegmenter k' _ t ps' hps', ?_⟩
    rw [Get_of_segments PathSegmenter k' _ _ ps' hps', getPath_replaceAt_off _ ps t ps' hpre]

theorem Delete_slash_star_witness :
    (run canonicalOps NewFuzzyTrie = some canonical8 ∧
      segments PathSegmenter "/usr/colors".toList ("/usr/colors".toList.length + 1) 0 =
        some ["/usr".toList, "/colors".toList] ∧
      (nodeAt canonical8 ["/usr".toList, "/colors".toList]).isSome = true) ∧
      ∃ t', Delete PathSegmenter 14 canonical8 "/usr/colors/*".toList = some (true, t') ∧
        Get PathSegmenter 14 t' "/usr/colors/1".toList = some none ∧
        (∃ r, Get PathSegmenter 12 canonical8 "/usr/colors".toList = some r ∧
          Get PathSegmenter 12 t' "/usr/colors".toList = some r) ∧
        ∃ r, Get PathSegmenter 9 canonical8 "/usr/age".toList = some r ∧
          Get PathSegmenter 9 t' "/usr/age".toList = some r :=
  ⟨⟨rfl, rfl, rfl⟩,
    match Delete_slash_star canonicalOps canonical8
      (mk (some "bucket".toList)
          [("/1".toList, mk (some "black".toList) []),
           ("/2".toList, mk (some "red".toList) []),
           ("/3".toList, mk (some "white".toList) [])])
      "/usr/colors".toList ["/usr".toList, "/colors".toList] rfl rfl rfl with
    | ⟨t', hd, hunder, hself, hoff⟩ =>
      ⟨t', hd,
        hunder "/usr/colors/1".toList ["/usr".toList, "/colors".toList, "/1".toList] rfl
          ⟨["/1".toList], rfl⟩ (by decide),
        hself,
        hoff "/usr/age".toList ["/usr".toList, "/age".toList] rfl (by decide)⟩⟩

/-- C10. Prefix wildcard delete, default segmenter: in a trie built from a fresh
one, for a pattern `p + q + "*"` whose segments are those of `p` followed by the one
segment `q*`, other than `/*`, and whose parent node at the literal path `p` exists,
`Delete` returns true whatever the number of matching children.  Afterwards the node
under the parent along a child segment `c` (the child itself and every node of its
subtree) is gone if `c` starts with `q` and is as before otherwise; so `Get` is
absent for the keys under a matching child, and unchanged for the keys under another
child, for `p`, and for every key whose segment sequence does not extend that of
`p`. -/
theorem Delete_prefix_star (ops : List (Op V)) (t parent : FuzzyTrie V) (p q : GoString)
    (ps : List GoString) (hrun : run ops (NewFuzzyTrie : FuzzyTrie V) = some t)
    (hps : segments PathSegmenter p (p.length + 1) 0 = some ps)
    (hpat : segments PathSegmenter (p ++ q ++ ['*']) ((p ++ q ++ ['*']).length + 1) 0 =
      some (ps ++ [q ++ ['*']]))
    (hq : q ++ ['*'] ≠ ['/', '*']) (hnode : nodeAt t ps = some parent) :
    ∃ t', Delete PathSegmenter ((p ++ q ++ ['*']).length + 1) t (p ++ q ++ ['*']) =
        some (true, t') ∧
      (∀ (c : GoString) (rest : List GoString),
        nodeAt t' (ps ++ c :: rest) =
          if HasPrefix c q = true then none else nodeAt t (ps ++ c :: rest)) ∧
      (∀ (k' c : GoString) (rest : List GoString),
        segments PathSegmenter k' (k'.length + 1) 0 = some (ps ++ c :: rest) →
          HasPrefix c q = true → Get PathSegmenter (k'.length + 1) t' k' = some none) ∧
      (∀ (k' c : GoString) (rest : List GoString),
        segments PathSegmenter k' (k'.length + 1) 0 = some (ps ++ c :: rest) →
          HasPrefix c q = false →
            ∃ r, Get PathSegmenter (k'.length + 1) t k' = some r ∧
              Get PathSegmenter (k'.length + 1) t' k' = some r) ∧
      (∃ r, Get PathSegmenter (p.length + 1) t p = some r ∧
        Get PathSegmenter (p.length + 1) t' p = some r) ∧
      ∀ (k' : GoString) (ps' : List GoString),
        segments PathSegmenter k' (k'.length + 1) 0 = some ps' → ¬ ps <+: ps' →
          ∃ r, Get PathSegmenter (k'.length + 1) t k' = some r ∧
            Get PathSegmenter (k'.length + 1) t' k' = some r := by
  have htail : '/' ∉ (q ++ ['*']).tail := by
    obtain ⟨ps0, h0, _, hall⟩ := segments_PathSegmenter (p ++ q ++ ['*'])
    rw [hpat] at h0
    have hmem : q ++ ['*'] ∈ ps0 := by
      rw [← Option.some.inj h0]
      simp
    exact (hall _ hmem).2
  have hlook := lookupChild_star_of_run ops t parent hrun ps hnode (q ++ ['*'])
    (HasSuffix_snoc_star q)
  have hdel := Delete_of_segments PathSegmenter _ _ t _ hpat
  rw [deletePath_missing (q ++ ['*']) [] ps t parent hnode hlook,
    deleteMissing_snoc_star parent q htail hq] at hdel
  have hnodes : ∀ (c : GoString) (rest : List GoString),
      nodeAt (replaceAt (mk parent.value
          (parent.children.filter (fun kc => !HasPrefix kc.1 q))) t ps) (ps ++ c :: rest) =
        if HasPrefix c q = true then none else nodeAt t (ps ++ c :: rest) := by
    intro c rest
    rw [nodeAt_replaceAt_under _ (c :: rest) ps t parent hnode,
      nodeAt_mk_filter parent.value parent.children (fun k => !HasPrefix k q) c rest,
      nodeAt_append t ps (c :: rest), hnode, mk_value_children]
    cases HasPrefix c q <;> rfl
  have hgets : ∀ (c : GoString) (rest : List GoString),
      getPath (replaceAt (mk parent.value
          (parent.children.filter (fun kc => !HasPrefix kc.1 q))) t ps) (ps ++ c :: rest) =
        if HasPrefix c q = true then none else getPath t (ps ++ c :: rest) := by
    intro c rest
    unfold getPath
    rw [hnodes c rest]
    split_ifs <;> rfl
  refine ⟨_, hdel, hnodes, ?_, ?_, ?_, ?_⟩
  · intro k' c rest hk hc
    rw [Get_of_segments PathSegmenter k' _ _ _ hk, hgets c rest]
    simp [hc]
  · intro k' c rest hk hc
    refine ⟨getPath t (ps ++ c :: rest), Get_of_segments PathSegmenter k' _ t _ hk, ?_⟩
    rw [Get_of_segments PathSegmenter k' _ _ _ hk, hgets c rest]
    simp [hc]
  · refine ⟨getPath t ps, Get_of_segments PathSegmenter p _ t ps hps, ?_⟩
    rw [Get_of_segments PathSegmenter p _ _ ps hps]
    have h1 := getPath_replaceAt_under (mk parent.value
      (parent.children.filter (fun kc => !HasPrefix kc.1 q))) [] ps t parent hnode
    have h2 := getPath_of_nodeAt t parent ps [] hnode
    rw [List.append_nil] at h1 h2
    rw [h1, h2]
    rfl
  · intro k' ps' hps' hpre
    refine ⟨getPath t ps', Get_of_segments PathSegmenter k' _ t ps' hps', ?_⟩
    rw [Get_of_segments PathSegmenter k' _ _ ps' hps', getPath_replaceAt_off _ ps t ps' hpre]

theorem Delete_prefix_star_witness :
    (run canonicalOps NewFuzzyTrie = some canonical8 ∧
      segments PathSegmenter "/usr".toList 5 0 = some ["/usr".toList] ∧
      segments PathSegmenter ("/usr".toList ++ "/g".toList ++ ['*']) 8 0 =
        some (["/usr".toList] ++ ["/g".toList ++ ['*']]) ∧
      "/g".toList ++ ['*'] ≠ ['/', '*'] ∧
      (nodeAt canonical8 ["/usr".toList]).isSome = true) ∧
      ∃ t', Delete PathSegmenter 8 canonical8 "/usr/g*".toList = some (true, t') ∧
        Get PathSegmenter 12 t' "/usr/gender".toList = some none ∧
        Get PathSegmenter 12 t' "/usr/garden".toList = some none ∧
        (∃ r, Get PathSegmenter 9 canonical8 "/usr/age".toList = some r ∧
          Get PathSegmenter 9 t' "/usr/age".toList = some r) ∧
        ∃ r, Get PathSegmenter 5 canonical8 "/usr".toList = some r ∧
          Get PathSegmenter 5 t' "/usr".toList = some r :=
  ⟨⟨rfl, rfl, rfl, by decide, rfl⟩,
    match Delete_prefix_star canonicalOps canonical8
      (mk (some "pedro".toList)
        [("/age".toList, mk (some "25".toList) []),
         ("/gender".toList, mk (some "male".toList) []),
         ("/garden".toList, mk (some "qh".toList) []),
         ("/colors".toList, mk (some "bucket".toList)
           [("/1".toList, mk (some "black".toList) []),
            ("/2".toList, mk (some "red".toList) []),
            ("/3".toList, mk (some "white".toList) [])])])
      "/usr".toList "/g".toList ["/usr".toList] rfl rfl rfl (by decide) rfl with
    | ⟨t', hd, _, hgone, hkept, hself, _⟩ =>
      ⟨t', hd,
        hgone "/usr/gender".toList "/gender".toList [] rfl rfl,
        hgone "/usr/garden".toList "/garden".toList [] rfl rfl,
        hkept "/usr/age".toList "/age".toList [] rfl rfl,
        hself⟩⟩

/-- C11, as stated, fails on the trie of the tests: the pattern `/x/g*` has the
segments `/x` and `/g*`, the second ending in `*`, and `Delete("/x/g*")` returns
false, because the trie has no child `/x`. -/
theorem Delete_wildcard_false_counterexample :
    segments PathSegmenter "/x/g*".toList 7 0 = some ["/x".toList, "/g*".toList] ∧
      HasSuffix "/g*".toList ['*'] = true ∧
      Delete PathSegmenter 7 canonical8 "/x/g*".toList = some (false, canonical8) :=
  ⟨rfl, rfl, rfl⟩

/-- C11, amended. In a trie built from a fresh one, `Delete(pattern)` returns false
exactly when its walk meets a segment not ending in `*` for which the node reached so
far has no child; so it returns true for every pattern in which a segment ending in
`*` comes after segments that all have their nodes (in particular when the last
segment ends in `*` and the path before it exists), and it can return false for a
pattern with a segment ending in `*` when a literal segment before it has no node. -/
theorem Delete_false_iff_literal_missing (ops : List (Op V)) (t : FuzzyTrie V)
    (pat : GoString) (ps : List GoString)
    (hrun : run ops (NewFuzzyTrie : FuzzyTrie V) = some t)
    (hps : segments PathSegmenter pat (pat.length + 1) 0 = some ps) :
    ∃ b t', Delete PathSegmenter (pat.length + 1) t pat = some (b, t') ∧
      (b = false ↔
        ∃ (qs : List GoString) (p : GoString) (rest : List GoString) (a : FuzzyTrie V),
          ps = qs ++ p :: rest ∧ nodeAt t qs = some a ∧
            lookupChild p a.children = none ∧ HasSuffix p ['*'] = false) ∧
      ∀ (qs : List GoString) (w : GoString) (rest : List GoString) (a : FuzzyTrie V),
        ps = qs ++ w :: rest → nodeAt t qs = some a → HasSuffix w ['*'] = true →
          b = true := by
  have hdel := Delete_of_segments PathSegmenter pat _ t ps hps
  have hiff : (delOutcome t (deletePath t ps)).1 = false ↔
      ∃ (qs : List GoString) (p : GoString) (rest : List GoString) (a : FuzzyTrie V),
        ps = qs ++ p :: rest ∧ nodeAt t qs = some a ∧
          lookupChild p a.children = none ∧ HasSuffix p ['*'] = false := by
    constructor
    · intro hb
      apply deletePath_eq_notFound ps t
      cases hd : deletePath t ps with
      | notFound => rfl
      | kept a => simp [hd, delOutcome] at hb
      | pruned => simp [hd, delOutcome] at hb
    · rintro ⟨qs, p, rest, a, hqs, ha, hp, hstar⟩
      rw [hqs, deletePath_missing p rest qs t a ha hp]
      simp [deleteMissing, hstar, delOutcome]
  refine ⟨(delOutcome t (deletePath t ps)).1, (delOutcome t (deletePath t ps)).2, hdel,
    hiff, ?_⟩
  intro qs w rest a hqs ha hw
  cases hb : (delOutcome t (deletePath t ps)).1 with
  | true => rfl
  | false =>
    exfalso
    obtain ⟨qs', p, rest', a', hqs', ha', hp, hstar⟩ := hiff.1 hb
    have heq : qs' ++ p :: rest' = qs ++ w :: rest := by rw [← hqs', hqs]
    rcases List.append_eq_append_iff.1 heq with ⟨m, hm1, hm2⟩ | ⟨m, hm1, hm2⟩
    · cases m with
      | nil =>
        simp only [List.nil_append, List.cons.injEq] at hm2
        rw [hm2.1, hw] at hstar
        exact absurd hstar (by simp)
      | cons x m =>
        simp only [List.cons_append, List.cons.injEq] at hm2
        obtain ⟨hx, _⟩ := hm2
        subst hx
        subst hm1
        have := lookupChild_isSome_of_nodeAt_snoc t qs' p m a' a ha' ha
        rw [hp] at this
        simp at this
    · cases m with
      | nil =>
        simp only [List.nil_append, List.cons.injEq] at hm2
        rw [← hm2.1, hw] at hstar
        exact absurd hstar (by simp)
      | cons x m =>
        simp only [List.cons_append, List.cons.injEq] at hm2
        obtain ⟨hx, _⟩ := hm2
        subst hx
        subst hm1
        have h1 := lookupChild_isSome_of_nodeAt_snoc t qs w m a a' ha ha'
        have h2 := lookupChild_star_of_run ops t a hrun qs ha w hw
        rw [h2] at h1
        simp at h1

theorem Delete_false_iff_literal_missing_witness :
    (run canonicalOps NewFuzzyTrie = some canonical8 ∧
      segments PathSegmenter "/usr/g*".toList ("/usr/g*".toList.length + 1) 0 =
        some ["/usr".toList, "/g*".toList]) ∧
      ∃ b t', Delete PathSegmenter ("/usr/g*".toList.length + 1) canonical8
          "/usr/g*".toList = some (b, t') ∧ b = true :=
  ⟨⟨rfl, rfl⟩,
    match Delete_false_iff_literal_missing canonicalOps canonical8 "/usr/g*".toList
      ["/usr".toList, "/g*".toList] rfl rfl with
    | ⟨b, t', hd, _, htrue⟩ =>
      ⟨b, t', hd,
        htrue ["/usr".toList] "/g*".toList []
          (mk (some "pedro".toList)
            [("/age".toList, mk (some "25".toList) []),
             ("/gender".toList, mk (some "male".toList) []),
             ("/garden".toList, mk (some "qh".toList) []),
             ("/colors".toList, mk (some "bucket".toList)
               [("/1".toList, mk (some "black".toList) []),
                ("/2".toList, mk (some "red".toList) []),
                ("/3".toList, mk (some "white".toList) [])])])
          rfl rfl rfl⟩⟩

/-- C12. In every trie whose maps have no repeated key (a Go map has none, and no
call of `Put` or `Delete` makes one), `Walk` with a visitor that never fails returns
`nil` after calling the visitor once for each node that holds a value and for no
other node, with the concatenation of the segment keys on the path from the root (the
empty string at the root) and the value of the node: `paths` lists every path with a
value once, and the calls are those of `paths` in order. When the trie was built by
accepted `Put` calls of distinct keys with values that are not `nil` into a fresh
trie, there are as many calls as keys, the calls are the pairs put, in some order,
and `Get` returns the value of each. -/
theorem Walk_visits_valued_nodes (t : FuzzyTrie V) (hu : uniqueKeys t = true) :
    ∃ paths : List (List GoString), paths.Nodup ∧
      (∀ qs, qs ∈ paths ↔ (getPath t qs).isSome = true) ∧
      (∀ ε : Type, Walk t (recordVisits : WalkFunc V _ ε) [] =
        (paths.map (fun qs => (qs.flatten, getPath t qs)), none)) ∧
      (∀ (σ ε : Type) (walker : WalkFunc V σ ε) (s : σ),
        (∀ key v s', (walker key v s').2 = none) →
          Walk t walker s =
              runVisits walker (paths.map (fun qs => (qs.flatten, getPath t qs))) s ∧
            (Walk t walker s).2 = none) ∧
      ∀ kvs : List (GoString × V),
        putAll kvs (NewFuzzyTrie : FuzzyTrie V) = some t → (kvs.map Prod.fst).Nodup →
          paths.length = kvs.length ∧
            (paths.map (fun qs => (qs.flatten, getPath t qs))).Perm
              (kvs.map (fun kv => (kv.1, some kv.2))) ∧
            ∀ kv ∈ kvs, Get PathSegmenter (kv.1.length + 1) t kv.1 = some (some kv.2) := by
  obtain ⟨hmem, hnd, hent⟩ := valuedPaths_spec t hu
  have hE : entries t [] = (valuedPaths t).map (fun qs => (qs.flatten, getPath t qs)) := by
    rw [hent []]
    simp
  refine ⟨valuedPaths t, hnd, hmem, ?_, ?_, ?_⟩
  · intro ε
    rw [Walk_recordVisits, hE]
  · intro σ ε walker s hw
    have : Walk t walker s = runVisits walker (entries t []) s := by
      unfold Walk
      exact walk_eq_runVisits walker t [] s
    rw [this, hE]
    exact ⟨rfl, runVisits_never_fails walker hw _ s⟩
  · intro kvs hput hkeys
    obtain ⟨hin, hout⟩ := getPath_putAll kvs _ t hput hkeys
    have hperm : (valuedPaths t).Perm (kvs.map (fun kv => keySegments kv.1)) := by
      refine (List.perm_ext_iff_of_nodup hnd ?_).2 ?_
      · have : kvs.map (fun kv => keySegments kv.1) = (kvs.map Prod.fst).map keySegments := by
          simp
        rw [this]
        exact hkeys.map (fun a b h => keySegments_inj a b h)
      · intro qs
        rw [hmem qs, List.mem_map]
        constructor
        · intro h
          by_contra hno
          have := hout qs (fun kv hkv he => hno ⟨kv, hkv, he⟩)
          rw [this, getPath_New] at h
          simp at h
        · rintro ⟨kv, hkv, rfl⟩
          rw [hin kv hkv]
          rfl
    have hperm2 := hperm.map (fun qs => (qs.flatten, getPath t qs))
    have hmap : (kvs.map (fun kv => keySegments kv.1)).map
        (fun qs => (qs.flatten, getPath t qs)) = kvs.map (fun kv => (kv.1, some kv.2)) := by
      rw [List.map_map]
      apply List.map_congr_left
      intro kv hkv
      simp [(keySegments_spec kv.1).2, hin kv hkv]
    rw [hmap] at hperm2
    refine ⟨?_, hperm2, ?_⟩
    · simpa using hperm.length_eq
    · intro kv hkv
      rw [Get_of_segments PathSegmenter kv.1 _ t _ (keySegments_spec kv.1).1, hin kv hkv]

/-- C12 on the trie of the tests: it is built by eight accepted `Put` calls of
distinct keys, and `Walk` makes eight calls. -/
theorem Walk_visits_valued_nodes_witness :
    uniqueKeys canonical8 = true ∧
      putAll canonicalEntries (NewFuzzyTrie : FuzzyTrie GoString) = some canonical8 ∧
      ∃ paths : List (List GoString), paths.length = 8 ∧
        Walk canonical8 (recordVisits : WalkFunc GoString _ Unit) [] =
          (paths.map (fun qs => (qs.flatten, getPath canonical8 qs)), none) :=
  ⟨rfl, rfl,
    match Walk_visits_valued_nodes canonical8 rfl with
    | ⟨paths, _, _, hw, _, hb⟩ =>
      ⟨paths, (hb canonicalEntries rfl (by decide)).1, hw Unit⟩⟩

/-- C13. Visitor abort.  The calls of `Walk` and of `WalkPath` do not depend on the
visitor: any visitor is called on the calls that the recording visitor sees, in that
order, up to and including its first call that returns an error (`runVisits`); that
error is what `Walk`, or `WalkPath`, returns, and the state of the visitor is the one
its failing call left, so no call follows it.  A visitor that never returns an error
makes `Walk` return nil. -/
theorem visitor_abort (t : FuzzyTrie V) :
    (∀ (σ ε : Type) (walker : WalkFunc V σ ε) (s : σ),
      Walk t walker s = runVisits walker (Walk t (recordVisits : WalkFunc V _ ε) []).1 s) ∧
      (∀ (ε : Type) (seg : StringSegmenter) (n : Nat) (key : GoString)
        (l : List (GoString × Option V)) (o : Outcome ε),
        WalkPath seg n t key recordVisits [] = some (l, o) →
          ∀ (σ : Type) (walker : WalkFunc V σ ε) (s : σ),
            WalkPath seg n t key walker s = some (finishWith (runVisits walker l s) o)) ∧
      (∀ (σ ε : Type) (walker : WalkFunc V σ ε) (l1 l2 : List (GoString × Option V))
        (e : GoString × Option V) (s s1 s2 : σ) (err : ε),
        runVisits walker l1 s = (s1, none) → walker e.1 e.2 s1 = (s2, some err) →
          runVisits walker (l1 ++ e :: l2) s = (s2, some err) ∧
            finishWith (runVisits walker (l1 ++ e :: l2) s) (.returned none) =
              (s2, .returned (some err))) ∧
      ∀ (σ ε : Type) (walker : WalkFunc V σ ε),
        (∀ key v s, (walker key v s).2 = none) → ∀ s : σ, (Walk t walker s).2 = none := by
  refine ⟨?_, ?_, ?_, ?_⟩
  · intro σ ε walker s
    rw [Walk_recordVisits]
    exact walk_eq_runVisits walker t [] s
  · intro ε seg n key l o h
    exact WalkPath_of_recordVisits seg n t key l o h
  · intro σ ε walker l1 l2 e s s1 s2 err h1 h2
    have := runVisits_first_error walker l1 l2 e s s1 s2 err h1 h2
    exact ⟨this, by rw [this]; rfl⟩
  · intro σ ε walker h s
    unfold Walk
    rw [walk_eq_runVisits]
    exact runVisits_never_fails walker h _ s

theorem visitor_abort_witness :
    (Walk canonical8 (recordVisits : WalkFunc GoString _ Nat) []).1.length = 8 ∧
      Walk canonical8 (failFrom 2) 0 = (2, some 2) ∧
      WalkPath PathSegmenter 14 canonical8 "/usr/colors/*".toList
          (recordVisits : WalkFunc GoString _ Nat) [] =
        some ([("/usr".toList, some "pedro".toList),
            ("/usr/colors".toList, some "bucket".toList),
            ("/usr/colors/1".toList, some "black".toList),
            ("/usr/colors/2".toList, some "red".toList),
            ("/usr/colors/3".toList, some "white".toList)], .returned none) ∧
      WalkPath PathSegmenter 14 canonical8 "/usr/colors/*".toList (failFrom 2) 0 =
        some (2, .returned (some 2)) :=
  ⟨rfl,
    ((visitor_abort canonical8).1 Nat Nat (failFrom 2) 0).trans rfl,
    rfl,
    ((visitor_abort canonical8).2.1 Nat PathSegmenter 14 "/usr/colors/*".toList _ _ rfl
      Nat (failFrom 2) 0).trans rfl⟩

/-- C14. `WalkPath` on a literal pattern, default segmenter: with a visitor that
never fails it returns nil, and the visitor is called exactly for the nodes holding a
value on the path from the root along the segments of `p`, from the root on: one call
for every prefix of the segment sequence at which there is a value, with the text of
that prefix as path, so that `Get(path)` is the value passed.  Nothing is visited
past the first segment with no child, and nothing beside or below the path. -/
theorem WalkPath_literal_path {ε : Type} (t : FuzzyTrie V) (p : GoString)
    (ps : List GoString) (hps : segments PathSegmenter p (p.length + 1) 0 = some ps)
    (hlit : ∀ q ∈ ps, HasSuffix q ['*'] = false) :
    WalkPath PathSegmenter (p.length + 1) t p (recordVisits : WalkFunc V _ ε) [] =
        some (ps.inits.filterMap
          (fun qs => (getPath t qs).map (fun v => (qs.flatten, some v))), .returned none) ∧
      (∀ (σ : Type) (walker : WalkFunc V σ ε), (∀ key v s, (walker key v s).2 = none) →
        ∀ s : σ, ∃ s', WalkPath PathSegmenter (p.length + 1) t p walker s =
          some (s', .returned none)) ∧
      ∀ qs : List GoString, qs <+: ps →
        qs.flatten <+: p ∧
          Get PathSegmenter (qs.flatten.length + 1) t qs.flatten = some (getPath t qs) := by
  have hrec := WalkPath_literal_recordVisits (ε := ε) t p ps hps hlit
  refine ⟨hrec, ?_, ?_⟩
  · intro σ walker hnf s
    have h := WalkPath_of_recordVisits PathSegmenter _ t p _ _ hrec σ walker s
    have hn := runVisits_never_fails walker hnf
      (ps.inits.filterMap (fun qs => (getPath t qs).map (fun v => (qs.flatten, some v)))) s
    rcases hr : runVisits walker
        (ps.inits.filterMap (fun qs => (getPath t qs).map (fun v => (qs.flatten, some v))))
        s with ⟨s', _ | err⟩
    · exact ⟨s', by rw [h, hr]; rfl⟩
    · rw [hr] at hn
      simp at hn
  · intro qs hq
    obtain ⟨h1, h2⟩ := segments_PathSegmenter_prefix p ps qs hps hq
    exact ⟨h2, Get_of_segments PathSegmenter _ _ t qs h1⟩

theorem WalkPath_literal_path_witness :
    (segments PathSegmenter "/usr/colors".toList ("/usr/colors".toList.length + 1) 0 =
        some ["/usr".toList, "/colors".toList] ∧
      ∀ q ∈ ["/usr".toList, "/colors".toList], HasSuffix q ['*'] = false) ∧
      WalkPath PathSegmenter ("/usr/colors".toList.length + 1) canonical8
          "/usr/colors".toList (recordVisits : WalkFunc GoString _ Unit) [] =
        some ([("/usr".toList, some "pedro".toList),
          ("/usr/colors".toList, some "bucket".toList)], .returned none) :=
  ⟨⟨rfl, by decide⟩,
    ((WalkPath_literal_path canonical8 "/usr/colors".toList
      ["/usr".toList, "/colors".toList] rfl (by decide)).1).trans rfl⟩

/-- C15. `WalkPath` with a trailing wildcard, default segmenter: for a pattern
`p + w` whose segments are those of `p` followed by the one segment `w` ending in
`*`, when the node at `p` exists and has no child named `w`, the visitor is called
for the valued nodes on the path to `p` and then once for each child of that node
that matches, every child for `/*` and the children whose key starts with `w` less
its `*` otherwise, with path `p` followed by the key of the child and with the value
of the child, `nil` or not.  No other child and no grandchild is visited. -/
theorem WalkPath_trailing_wildcard {ε : Type} (t parent : FuzzyTrie V) (p w : GoString)
    (ps : List GoString) (hps : segments PathSegmenter p (p.length + 1) 0 = some ps)
    (hpat : segments PathSegmenter (p ++ w) ((p ++ w).length + 1) 0 = some (ps ++ [w]))
    (hw : HasSuffix w ['*'] = true) (hnode : nodeAt t ps = some parent)
    (hmiss : lookupChild w parent.children = none) :
    WalkPath PathSegmenter ((p ++ w).length + 1) t (p ++ w)
        (recordVisits : WalkFunc V _ ε) [] =
      some (ps.inits.filterMap
            (fun qs => (getPath t qs).map (fun v => (qs.flatten, some v))) ++
          (parent.children.filter
            (fun kc => if w = ['/', '*'] then true
              else HasPrefix kc.1 (TrimSuffix w ['*']))).map
            (fun kc => (p ++ kc.1, kc.2.value)), .returned none) := by
  rw [WalkPath_PathSegmenter t (p ++ w) (ps ++ [w]) hpat]
  obtain ⟨h2, h1⟩ := pathEntries_wildcard w hw ps t parent [] hnode hmiss
  have hflat := (segments_PathSegmenter_unique p ps hps).1
  rw [h1, h2]
  simp only [List.nil_append, hflat, keepFor_eq, outcomeOf, Bool.false_eq_true, if_false]

theorem WalkPath_trailing_wildcard_witness :
    (segments PathSegmenter "/usr".toList ("/usr".toList.length + 1) 0 =
        some ["/usr".toList] ∧
      segments PathSegmenter ("/usr".toList ++ "/g*".toList)
          (("/usr".toList ++ "/g*".toList).length + 1) 0 =
        some (["/usr".toList] ++ ["/g*".toList]) ∧
      HasSuffix "/g*".toList ['*'] = true ∧
      (nodeAt canonical8 ["/usr".toList]).isSome = true ∧
      (nodeAt canonical8 ["/usr".toList, "/g*".toList]).isSome = false) ∧
      WalkPath PathSegmenter (("/usr".toList ++ "/g*".toList).length + 1) canonical8
          ("/usr".toList ++ "/g*".toList) (recordVisits : WalkFunc GoString _ Unit) [] =
        some ([("/usr".toList, some "pedro".toList),
          ("/usr/gender".toList, some "male".toList),
          ("/usr/garden".toList, some "qh".toList)], .returned none) ∧
      (WalkPath PathSegmenter (("/usr/colors".toList ++ "/*".toList).length + 1) canonical8
          ("/usr/colors".toList ++ "/*".toList)
          (recordVisits : WalkFunc GoString _ Unit) []).map (fun r => r.1.length) = some 5 :=
  ⟨⟨rfl, rfl, rfl, rfl, rfl⟩,
    (WalkPath_trailing_wildcard canonical8
      (mk (some "pedro".toList)
        [("/age".toList, mk (some "25".toList) []),
         ("/gender".toList, mk (some "male".toList) []),
         ("/garden".toList, mk (some "qh".toList) []),
         ("/colors".toList, mk (some "bucket".toList)
           [("/1".toList, mk (some "black".toList) []),
            ("/2".toList, mk (some "red".toList) []),
            ("/3".toList, mk (some "white".toList) [])])])
      "/usr".toList "/g*".toList ["/usr".toList] rfl rfl rfl rfl rfl).trans rfl,
    (congrArg (Option.map (fun r => r.1.length))
      (WalkPath_trailing_wildcard canonical8
        (mk (some "bucket".toList)
          [("/1".toList, mk (some "black".toList) []),
           ("/2".toList, mk (some "red".toList) []),
           ("/3".toList, mk (some "white".toList) [])])
        "/usr/colors".toList "/*".toList ["/usr".toList, "/colors".toList]
        rfl rfl rfl rfl rfl)).trans rfl⟩

/-- C16, as stated, fails: with values stored at `/usr/local/bin` and
`/usr/local/env` and nowhere else, `WalkPath("/usr/local")` returns nil without
calling the visitor at all. -/
theorem WalkPath_below_counterexample :
    run [.put "/usr/local/bin".toList (some "b".toList),
        .put "/usr/local/env".toList (some "e".toList)] NewFuzzyTrie = some localTrie ∧
      Get PathSegmenter 15 localTrie "/usr/local/bin".toList = some (some "b".toList) ∧
      Get PathSegmenter 15 localTrie "/usr/local/env".toList = some (some "e".toList) ∧
      segments PathSegmenter "/usr/local".toList 11 0 =
        some ["/usr".toList, "/local".toList] ∧
      segments PathSegmenter "/usr/local/bin".toList 15 0 =
        some ["/usr".toList, "/local".toList, "/bin".toList] ∧
      WalkPath PathSegmenter 11 localTrie "/usr/local".toList
          (recordVisits : WalkFunc GoString _ Unit) [] = some ([], .returned none) :=
  ⟨rfl, rfl, rfl, rfl, rfl, rfl⟩

/-- C16, amended. `WalkPath` on a literal pattern `p`, default segmenter, visits the
stored keys on the path to `p` and no key below `p`: a key with a value whose segment
sequence is a prefix of that of `p` is visited, with its value; every call is for
such a key; and a key whose segment sequence strictly extends that of `p` is not
visited. -/
theorem WalkPath_literal_only_path {ε : Type} (t : FuzzyTrie V) (p : GoString)
    (ps : List GoString) (hps : segments PathSegmenter p (p.length + 1) 0 = some ps)
    (hlit : ∀ q ∈ ps, HasSuffix q ['*'] = false) :
    ∃ l, WalkPath PathSegmenter (p.length + 1) t p (recordVisits : WalkFunc V _ ε) [] =
        some (l, .returned none) ∧
      (∀ (qs : List GoString) (v : V), qs <+: ps → getPath t qs = some v →
        (qs.flatten, some v) ∈ l) ∧
      (∀ e ∈ l, ∃ qs, qs <+: ps ∧ e = (qs.flatten, getPath t qs) ∧
        (getPath t qs).isSome = true) ∧
      ∀ (k : GoString) (ks : List GoString),
        segments PathSegmenter k (k.length + 1) 0 = some ks → ps <+: ks → ks ≠ ps →
          ∀ v : Option V, (k, v) ∉ l := by
  have hmem : ∀ e : GoString × Option V,
      e ∈ ps.inits.filterMap (fun qs => (getPath t qs).map (fun v => (qs.flatten, some v))) ↔
        ∃ qs, qs <+: ps ∧ ∃ v, getPath t qs = some v ∧ e = (qs.flatten, some v) := by
    intro e
    rw [List.mem_filterMap]
    constructor
    · rintro ⟨qs, hq, he⟩
      rw [List.mem_inits] at hq
      cases hg : getPath t qs with
      | none => simp [hg] at he
      | some v =>
        simp only [hg, Option.map_some', Option.some.injEq] at he
        exact ⟨qs, hq, v, hg, he.symm⟩
    · rintro ⟨qs, hq, v, hg, he⟩
      exact ⟨qs, (List.mem_inits _ _).2 hq, by simp [hg, he]⟩
  refine ⟨_, WalkPath_literal_recordVisits t p ps hps hlit, ?_, ?_, ?_⟩
  · intro qs v hq hg
    exact (hmem _).2 ⟨qs, hq, v, hg, rfl⟩
  · intro e he
    obtain ⟨qs, hq, v, hg, hev⟩ := (hmem e).1 he
    exact ⟨qs, hq, by rw [hev, hg], by rw [hg]; rfl⟩
  · intro k ks hks hpre hne v hin
    obtain ⟨qs, hq, v', _, hev⟩ := (hmem _).1 hin
    obtain ⟨hkflat, hkall⟩ := segments_PathSegmenter_unique k ks hks
    obtain ⟨rs, hrs⟩ := hpre
    obtain ⟨us, hus⟩ := hq
    have hk : k = qs.flatten := (Prod.mk.inj hev).1
    have hlen := congrArg List.length hkflat
    rw [← hrs, ← hus, hk] at hlen
    simp only [List.flatten_append, List.length_append] at hlen
    cases rs with
    | nil => exact hne (by rw [← hrs]; simp)
    | cons r rs' =>
      have hr : r ≠ [] := (hkall r (by rw [← hrs]; simp)).1
      have hpos : 0 < r.length := List.length_pos.2 hr
      simp only [List.flatten_cons, List.length_append] at hlen
      omega

theorem WalkPath_literal_only_path_witness :
    (segments PathSegmenter "/usr/colors".toList ("/usr/colors".toList.length + 1) 0 =
        some ["/usr".toList, "/colors".toList] ∧
      ∀ q ∈ ["/usr".toList, "/colors".toList], HasSuffix q ['*'] = false) ∧
      ∃ l, WalkPath PathSegmenter ("/usr/colors".toList.length + 1) canonical8
          "/usr/colors".toList (recordVisits : WalkFunc GoString _ Unit) [] =
          some (l, .returned none) ∧
        ("/usr".toList, some "pedro".toList) ∈ l ∧
        ∀ v : Option GoString, ("/usr/colors/1".toList, v) ∉ l :=
  ⟨⟨rfl, by decide⟩,
    match WalkPath_literal_only_path (ε := Unit) canonical8 "/usr/colors".toList
      ["/usr".toList, "/colors".toList] rfl (by decide) with
    | ⟨l, hl, hon, _, hbelow⟩ =>
      ⟨l, hl, hon ["/usr".toList] "pedro".toList ⟨["/colors".toList], rfl⟩ rfl,
        hbelow "/usr/colors/1".toList ["/usr".toList, "/colors".toList, "/1".toList] rfl
          ⟨["/1".toList], rfl⟩ (by decide)⟩⟩

/-- C17, the failing input: on the trie of the tests `WalkPath("/usr/g*/x")` visits
`/usr`, `/usr/gender` and `/usr/garden` and then panics: after the wildcard segment
`/g*` the variable `node` is `nil`, and the next iteration reads `node.children`. -/
theorem WalkPath_panics_after_wildcard :
    WalkPath PathSegmenter ("/usr/g*/x".toList.length + 1) canonical8 "/usr/g*/x".toList
        (recordVisits : WalkFunc GoString _ Unit) [] =
      some ([("/usr".toList, some "pedro".toList),
          ("/usr/gender".toList, some "male".toList),
          ("/usr/garden".toList, some "qh".toList)], .panicked) :=
  rfl

/-- C18. No wildcard is ever stored: in every trie built from a fresh one by `Put`
and `Delete` calls, accepted or rejected, no key of a `children` map of any node ends
in `*`; so `Get` is absent for every key one of whose segments ends in `*`. -/
theorem no_star_key_stored (ops : List (Op V)) (t : FuzzyTrie V)
    (hrun : run ops (NewFuzzyTrie : FuzzyTrie V) = some t) :
    (∀ (qs : List GoString) (a : FuzzyTrie V), nodeAt t qs = some a →
      ∀ kc ∈ a.children, HasSuffix kc.1 ['*'] = false) ∧
      ∀ (k : GoString) (ps : List GoString),
        segments PathSegmenter k (k.length + 1) 0 = some ps →
          (∃ p ∈ ps, HasSuffix p ['*'] = true) →
            Get PathSegmenter (k.length + 1) t k = some none := by
  have hns := noStar_run ops _ t hrun noStar_New
  refine ⟨?_, ?_⟩
  · intro qs a ha
    have h := noStar_nodeAt qs t a hns ha
    rw [noStar_iff] at h
    exact noStarChildren_mem _ h
  · intro k ps hps hstar
    rw [Get_of_segments PathSegmenter k _ t ps hps]
    unfold getPath
    rw [nodeAt_star_of_noStar ps t hns hstar]
    rfl

theorem no_star_key_stored_witness :
    run canonicalOps NewFuzzyTrie = some canonical8 ∧
      Get PathSegmenter ("/usr/g*".toList.length + 1) canonical8 "/usr/g*".toList =
        some none :=
  ⟨rfl,
    (no_star_key_stored canonicalOps canonical8 rfl).2 "/usr/g*".toList
      ["/usr".toList, "/g*".toList] rfl ⟨"/g*".toList, by simp, rfl⟩⟩

/-- C19, as stated, fails on the trie of the tests: that trie is built by accepted
`Put` calls and has no empty node, and after `Delete("/usr")`, which returns true, the
node `/usr` is still a child of the root and has no value and no children. -/
theorem Delete_leaves_empty_node_counterexample :
    run canonicalOps (NewFuzzyTrie : FuzzyTrie GoString) = some canonical8 ∧
      noEmpty canonical8 = true ∧
      ∃ t' : FuzzyTrie GoString,
        Delete PathSegmenter 5 canonical8 "/usr".toList = some (true, t') ∧
          nodeAt t' ["/usr".toList] = some (mk none []) ∧ noEmpty t' = false :=
  ⟨rfl, rfl, _, rfl, rfl, rfl⟩

/-- C19, amended. An accepted `Put` of a value that is not nil and a `Delete` of a key
whose node is a leaf keep the trie free of empty nodes: when no node below the root of
`t` is without value and without children, the same holds after `Put(k, v)` returns
true, after `Delete(k)` for a key whose node exists and has no children (the call
returns true), and after a `Delete(k)` that returns false; and in a trie with that
property every node other than the root that `nodeAt` reaches has a value or a
child.  A `Delete(k)` for a key whose node has children returns true and keeps that
node, with no value and no children. -/
theorem leaf_mutations_keep_no_empty (seg : StringSegmenter) (n : Nat) (t : FuzzyTrie V)
    (k : GoString) (ps : List GoString) (hps : segments seg k n 0 = some ps)
    (hne : noEmpty t = true) :
    (∀ (v : V) (t' : FuzzyTrie V),
        Put seg n t k (some v) = some (true, t') → noEmpty t' = true) ∧
      (∀ target : FuzzyTrie V, nodeAt t ps = some target → target.children = [] →
        ∃ t', Delete seg n t k = some (true, t') ∧ noEmpty t' = true) ∧
      (∀ t' : FuzzyTrie V, Delete seg n t k = some (false, t') → noEmpty t' = true) ∧
      (∀ t0 : FuzzyTrie V, noEmpty t0 = true →
        ∀ (qs : List GoString) (a : FuzzyTrie V), qs ≠ [] → nodeAt t0 qs = some a →
          a.value.isSome = true ∨ a.children ≠ []) ∧
      ∀ target : FuzzyTrie V, nodeAt t ps = some target → target.isLeaf = false →
        ∃ t', Delete seg n t k = some (true, t') ∧ nodeAt t' ps = some (mk none []) := by
  refine ⟨?_, ?_, ?_, ?_, ?_⟩
  · intro v t' hput
    rw [Put_of_segments seg k (some v) n t ps hps] at hput
    simp only [Option.some.injEq] at hput
    have hacc : (putPath (some v) t ps).1 = true := by rw [hput]
    have := (noEmpty_putPath v ps t hne hacc).1
    rw [hput] at this
    exact this
  · intro target hnode hleaf
    have hdel := Delete_of_segments seg k n t ps hps
    have h := noEmpty_deletePath_leaf ps t target hne hnode hleaf
    cases hd : deletePath t ps with
    | notFound => simp [hd] at h
    | kept a =>
      simp only [hd] at h
      exact ⟨a, by rw [hdel, hd]; rfl, h.1⟩
    | pruned =>
      refine ⟨mk none [], by rw [hdel, hd]; rfl, ?_⟩
      simp [noEmpty, noEmptyChildren]
  · intro t' hdel
    rw [Delete_of_segments seg k n t ps hps] at hdel
    simp only [Option.some.injEq] at hdel
    cases hd : deletePath t ps with
    | notFound =>
      rw [hd] at hdel
      simp only [delOutcome, Prod.mk.injEq, true_and] at hdel
      rw [← hdel]; exact hne
    | kept a => rw [hd] at hdel; simp [delOutcome] at hdel
    | pruned => rw [hd] at hdel; simp [delOutcome] at hdel
  · intro t0 h0 qs a hqs ha
    have := noEmpty_nodeAt qs t0 a h0 hqs ha
    simp only [notEmpty, Bool.or_eq_true, Bool.not_eq_true'] at this
    rcases this with h | h
    · exact Or.inl h
    · right
      intro hnil
      rw [hnil] at h
      simp at h
  · intro target hnode hl
    refine ⟨replaceAt (mk none []) t ps, ?_, ?_⟩
    · rw [Delete_of_segments seg k n t ps hps, deletePath_inner ps t target hnode hl]
      rfl
    · have := nodeAt_replaceAt_under (mk none [] : FuzzyTrie V) [] ps t target hnode
      simpa [nodeAt] using this

/-- C19, amended, on the trie of the tests: `/usr/age` is a leaf, `Delete("/usr/age")`
returns true and leaves no empty node. -/
theorem leaf_mutations_keep_no_empty_witness :
    segments PathSegmenter "/usr/age".toList 9 0 = some ["/usr".toList, "/age".toList] ∧
      noEmpty canonical8 = true ∧
      ∃ t' : FuzzyTrie GoString,
        Delete PathSegmenter 9 canonical8 "/usr/age".toList = some (true, t') ∧
          noEmpty t' = true :=
  ⟨rfl, rfl,
    (leaf_mutations_keep_no_empty PathSegmenter 9 canonical8 "/usr/age".toList
      ["/usr".toList, "/age".toList] rfl rfl).2.1 (mk (some "25".toList) []) rfl rfl⟩

/-- C20. An accepted `Put` changes only its own key: when `Put(k, v)` returns true,
`Get(k')` is the same after it as before for every key `k'` whose segment sequence
differs from that of `k`, proper prefixes and extensions of `k` included. -/
theorem Put_changes_only_its_key (seg : StringSegmenter) (n : Nat) (t t' : FuzzyTrie V)
    (k : GoString) (v : Option V) (h : Put seg n t k v = some (true, t')) :
    ∃ ps, segments seg k n 0 = some ps ∧
      ∀ (k' : GoString) (m : Nat) (ps' : List GoString),
        segments seg k' m 0 = some ps' → ps' ≠ ps →
          ∃ r, Get seg m t k' = some r ∧ Get seg m t' k' = some r := by
  obtain ⟨ps, hps⟩ := putLoop_true_segments seg k v n t t' 0 h
  refine ⟨ps, hps, ?_⟩
  intro k' m ps' hps' hne
  have hput := Put_of_segments seg k v n t ps hps
  rw [h] at hput
  have h1 : putPath v t ps = (true, t') := (Option.some.inj hput).symm
  have hacc : (putPath v t ps).1 = true := by rw [h1]
  have hfr := getPath_putPath v t ps ps' hacc
  rw [h1] at hfr
  simp only [hne, if_false] at hfr
  refine ⟨getPath t ps', Get_of_segments seg k' m t ps' hps', ?_⟩
  rw [Get_of_segments seg k' m t' ps' hps', hfr]

theorem Put_changes_only_its_key_witness :
    ∃ t', Put PathSegmenter 12 canonical8 "/usr/colors".toList (some "x".toList) =
        some (true, t') ∧
      (∃ r, Get PathSegmenter 5 canonical8 "/usr".toList = some r ∧
        Get PathSegmenter 5 t' "/usr".toList = some r) ∧
      ∃ r, Get PathSegmenter 14 canonical8 "/usr/colors/1".toList = some r ∧
        Get PathSegmenter 14 t' "/usr/colors/1".toList = some r :=
  match Put_changes_only_its_key PathSegmenter 12 canonical8 _ "/usr/colors".toList
    (some "x".toList) rfl with
  | ⟨_, hps, hfr⟩ =>
    ⟨_, rfl,
      hfr "/usr".toList 5 ["/usr".toList] rfl (by
        intro e
        rw [← e] at hps
        exact absurd hps (by decide)),
      hfr "/usr/colors/1".toList 14 ["/usr".toList, "/colors".toList, "/1".toList] rfl (by
        intro e
        rw [← e] at hps
        exact absurd hps (by decide))⟩

end FuzzyTrie
